import Mathlib

/-!
ABySS contig graph (`Graph/DirectedGraphImpl.h`).

A shallow embedding of the bidirected contig graph and of the operations on it:
edge bookkeeping on a vertex, `merge`, `removeVertex`, `removeTransitivity`,
`dijkstra`, `extractShortestPath`, `findSuperpaths`, `ConstrainedDFS`,
`getMinPathLength`, `calculatePathLength` and `makeDistanceMap`.

Conventions of the embedding.

* A `VertexType*` is the index of the vertex in `m_vertexTable` (the table is a
  vector and `findVertex` returns the address of its `key`-th element).
* `assert` failures, dereferencing a pointer that is null or outside the table,
  and changing a collection while a loop iterates over it are faults: the
  operations return `Except Fault`.
* Sizes and costs are natural numbers and `int` values are integers. Where the
  source narrows a `size_t` to an `int` (the cost in `dijkstra`, the map values
  and the cost in `makeDistanceMap`, the constant `INF`) or converts back, the
  conversion is explicit (`sizeToInt`, `intToSize`, `sizeAddInt`); the
  subtraction of `getMinPathLength` is the wrapping subtraction of `size_t`.
* The cost functor is a parameter `costFunctor : D → Nat`; `SimpleDataCost.cost`
  is the one of the source.
* A loop whose number of iterations is not bounded by the length of a list
  carries a `fuel` argument; the theorems show that the fuel supplied by the
  embedded method is never used up.
-/

namespace Abyss

/-! ## Definitions -/

/-- Ways in which an operation can fail to complete. -/
inductive Fault where
  /-- An `assert` did not hold. -/
  | assertion
  /-- A vertex pointer that is null or does not point into the table was used. -/
  | badPointer
  /-- A loop body changed the very collection the loop iterates over. -/
  | invalidatedIterator
  /-- The recursion budget of the embedding was used up (never a result of the code). -/
  | outOfFuel
deriving DecidableEq, Repr

/-- The two directions `SENSE` (index 0) and `ANTISENSE` (index 1). -/
inductive extDirection where
  | SENSE
  | ANTISENSE
deriving DecidableEq, Repr, Fintype

/-- The operator `!dir`. -/
def extDirection.flip : extDirection → extDirection
  | .SENSE => .ANTISENSE
  | .ANTISENSE => .SENSE

/-- The record `EdgeData`: the target vertex and the reverse flag. -/
structure EdgeData where
  pVertex : Nat
  reverse : Bool
deriving DecidableEq, Repr

/-- The class `Vertex<K,D>`: key, payload and one edge collection per direction. -/
structure Vertex (D : Type) where
  m_key : Nat
  m_data : D
  m_edgesSense : List EdgeData
  m_edgesAntisense : List EdgeData
deriving DecidableEq, Repr

variable {D : Type}

/-- The collection `m_edges[dir]`. -/
def Vertex.m_edges (v : Vertex D) : extDirection → List EdgeData
  | .SENSE => v.m_edgesSense
  | .ANTISENSE => v.m_edgesAntisense

/-- Assignment to `m_edges[dir]`. -/
def Vertex.setEdges (v : Vertex D) (dir : extDirection) (es : List EdgeData) : Vertex D :=
  match dir with
  | .SENSE => { v with m_edgesSense := es }
  | .ANTISENSE => { v with m_edgesAntisense := es }

/-- The method `numEdges(dir)`. -/
def Vertex.numEdges (v : Vertex D) (dir : extDirection) : Nat :=
  (v.m_edges dir).length

/-- The search loop of `getEdge`: position of the first edge equal to `data`. -/
def findEdge (data : EdgeData) : List EdgeData → Option Nat
  | [] => none
  | e :: rest => if e = data then some 0 else (findEdge data rest).map (· + 1)

/-- The method `Vertex::getEdge`: the position of the first edge equal to
`(pNode, reverse)` in `m_edges[dir]`; `none` is the end iterator (`found = false`). -/
def Vertex.getEdge (v : Vertex D) (pNode : Nat) (dir : extDirection) (reverse : Bool) :
    Option Nat :=
  findEdge ⟨pNode, reverse⟩ (v.m_edges dir)

/-- The method `Vertex::addEdge`. -/
def Vertex.addEdge (v : Vertex D) (pNode : Nat) (dir : extDirection) (reverse : Bool) :
    Except Fault (Vertex D) :=
  let data : EdgeData := ⟨pNode, reverse⟩
  if (v.m_edges dir).any (fun e => e = data) then .error .assertion
  else .ok (v.setEdges dir (v.m_edges dir ++ [data]))

/-- The method `Vertex::removeEdge`. -/
def Vertex.removeEdge (v : Vertex D) (pNode : Nat) (dir : extDirection) (reverse : Bool) :
    Except Fault (Vertex D) :=
  match v.getEdge pNode dir reverse with
  | none => .error .assertion
  | some i => .ok (v.setEdges dir ((v.m_edges dir).eraseIdx i))

/-- The method `Vertex::isEdgeUnique`. -/
def Vertex.isEdgeUnique (v : Vertex D) (pNode : Nat) (dir : extDirection) (reverse : Bool) :
    Except Fault Bool :=
  match v.getEdge pNode dir reverse with
  | none => .error .assertion
  | some _ => .ok (v.numEdges dir == 1)

/-- The class `DirectedGraph<D>`: the vertex table. -/
structure DirectedGraph (D : Type) where
  m_vertexTable : List (Vertex D)
deriving DecidableEq, Repr

/-- Number of vertices in the table. -/
def DirectedGraph.size (g : DirectedGraph D) : Nat := g.m_vertexTable.length

/-- Dereference of a vertex pointer. -/
def DirectedGraph.vertexAt (g : DirectedGraph D) (p : Nat) : Except Fault (Vertex D) :=
  match g.m_vertexTable[p]? with
  | some v => .ok v
  | none => .error .badPointer

/-- Store through a vertex pointer. -/
def DirectedGraph.setVertex (g : DirectedGraph D) (p : Nat) (v : Vertex D) : DirectedGraph D :=
  ⟨g.m_vertexTable.set p v⟩

/-- The collection `p->m_edges[dir]` (empty when `p` is not in the table). -/
def DirectedGraph.edgesOf (g : DirectedGraph D) (p : Nat) (dir : extDirection) : List EdgeData :=
  match g.m_vertexTable[p]? with
  | some v => v.m_edges dir
  | none => []

/-- The method `DirectedGraph::addVertex`. -/
def DirectedGraph.addVertex (g : DirectedGraph D) (key : Nat) (data : D) :
    Except Fault (DirectedGraph D) :=
  if g.size = key then .ok ⟨g.m_vertexTable ++ [⟨key, data, [], []⟩]⟩ else .error .assertion

/-- The method `DirectedGraph::findVertex`. -/
def DirectedGraph.findVertex (g : DirectedGraph D) (key : Nat) : Except Fault Nat :=
  if key < g.size then .ok key else .error .assertion

/-- The call `pVertex->addEdge(pNode, dir, reverse)` made inside a loop that
iterates over the collection `iterating`. -/
def DirectedGraph.addEdgeAt (g : DirectedGraph D) (iterating : Option (Nat × extDirection))
    (pVertex pNode : Nat) (dir : extDirection) (reverse : Bool) :
    Except Fault (DirectedGraph D) :=
  match g.vertexAt pVertex with
  | .error f => .error f
  | .ok v =>
    match v.addEdge pNode dir reverse with
    | .error f => .error f
    | .ok w =>
      if iterating = some (pVertex, dir) then .error .invalidatedIterator
      else .ok (g.setVertex pVertex w)

/-- The call `pVertex->removeEdge(pNode, dir, reverse)` made inside a loop that
iterates over the collection `iterating`. -/
def DirectedGraph.removeEdgeAt (g : DirectedGraph D) (iterating : Option (Nat × extDirection))
    (pVertex pNode : Nat) (dir : extDirection) (reverse : Bool) :
    Except Fault (DirectedGraph D) :=
  match g.vertexAt pVertex with
  | .error f => .error f
  | .ok v =>
    match v.removeEdge pNode dir reverse with
    | .error f => .error f
    | .ok w =>
      if iterating = some (pVertex, dir) then .error .invalidatedIterator
      else .ok (g.setVertex pVertex w)

/-- A value of type `ContigNode`: a vertex key and the sense it is visited in. -/
structure ContigNode where
  id : Nat
  sense : Bool
deriving DecidableEq, Repr

/-- The method `DirectedGraph::addEdge(parent, dir, child)`. -/
def DirectedGraph.addEdge (g : DirectedGraph D) (parent : Nat) (dir : extDirection)
    (child : ContigNode) : Except Fault (DirectedGraph D) :=
  match g.findVertex parent with
  | .error f => .error f
  | .ok pParentVertex =>
    match g.findVertex child.id with
    | .error f => .error f
    | .ok pChildVertex => g.addEdgeAt none pParentVertex pChildVertex dir child.sense

/-- The method `DirectedGraph::countEdges`. -/
def DirectedGraph.countEdges (g : DirectedGraph D) : Nat :=
  g.m_vertexTable.foldl
    (fun sum v => sum + (v.numEdges .SENSE + v.numEdges .ANTISENSE)) 0

/-- The method `DirectedGraph::getDegree`. -/
def DirectedGraph.getDegree (g : DirectedGraph D) (key : Nat) (dir : extDirection) :
    Except Fault Nat :=
  match g.findVertex key with
  | .error f => .error f
  | .ok p =>
    match g.vertexAt p with
    | .error f => .error f
    | .ok v => .ok (v.numEdges dir)

/-- The function `getTwinDir`. -/
def getTwinDir (refDir : extDirection) (reverse : Bool) : extDirection :=
  if reverse then refDir else refDir.flip

/-- The data merger passed to `merge`. It is an external collaborator: `merge`
receives both keys, both payloads, the direction and the three flags, and
changes the parent payload. `M` is whatever state of its own the merger keeps
(for instance a log of its invocations). -/
structure DataMerger (D M : Type) where
  merge : M → Nat → D → Nat → D → extDirection → Bool → Bool → Bool → M × D

/-- The loop shared by `merge` and `removeVertex`: for every edge `e` taken from
the collection `m_edges[dir]` of `pVertex`, call
`e.pVertex->removeEdge(pVertex, e.reverse ? dir : !dir, e.reverse)`. -/
def removeReciprocals (g : DirectedGraph D) (pVertex : Nat) (dir : extDirection) :
    List EdgeData → Except Fault (DirectedGraph D)
  | [] => .ok g
  | e :: rest =>
    let expectedDir := if e.reverse then dir else dir.flip
    let expectedReverse := e.reverse
    match g.removeEdgeAt (some (pVertex, dir)) e.pVertex pVertex expectedDir expectedReverse with
    | .error f => .error f
    | .ok g1 => removeReciprocals g1 pVertex dir rest

/-- The method `DirectedGraph::removeVertex`. -/
def DirectedGraph.removeVertex (g : DirectedGraph D) (pVertex : Nat) :
    Except Fault (DirectedGraph D) :=
  match removeReciprocals g pVertex .SENSE (g.edgesOf pVertex .SENSE) with
  | .error f => .error f
  | .ok g1 => removeReciprocals g1 pVertex .ANTISENSE (g1.edgesOf pVertex .ANTISENSE)

/-- The second loop of `merge`: every edge of the child on its far side is added
to the parent, and the far vertex gets the edge back to the parent. -/
def absorbChildEdges (g : DirectedGraph D) (pParent pChild : Nat)
    (parentsDir childUpdateEdgeDir : extDirection) (parentsReverse : Bool) :
    List EdgeData → Except Fault (DirectedGraph D)
  | [] => .ok g
  | ce :: rest =>
    let newEdgeReversed := parentsReverse != ce.reverse
    match g.addEdgeAt (some (pChild, childUpdateEdgeDir)) pParent ce.pVertex parentsDir
        newEdgeReversed with
    | .error f => .error f
    | .ok g1 =>
      let returnEdgeDir := if newEdgeReversed then parentsDir else parentsDir.flip
      match g1.addEdgeAt (some (pChild, childUpdateEdgeDir)) ce.pVertex pParent returnEdgeDir
          newEdgeReversed with
      | .error f => .error f
      | .ok g2 =>
        absorbChildEdges g2 pParent pChild parentsDir childUpdateEdgeDir parentsReverse rest

/-- Assignment to `p->m_data`. -/
def DirectedGraph.setData (g : DirectedGraph D) (p : Nat) (data : D) : DirectedGraph D :=
  match g.m_vertexTable[p]? with
  | some v => g.setVertex p { v with m_data := data }
  | none => g

/-- The statement `p->m_edges[dir].clear()`. -/
def DirectedGraph.clearEdges (g : DirectedGraph D) (p : Nat) (dir : extDirection) :
    DirectedGraph D :=
  match g.m_vertexTable[p]? with
  | some v => g.setVertex p (v.setEdges dir [])
  | none => g

/-- The method `DirectedGraph::merge`. The result carries the returned boolean,
the graph and the state of the merger. -/
def DirectedGraph.merge {M : Type} (g : DirectedGraph D) (pParent pChild : Nat)
    (parentsDir : extDirection) (parentsReverse removeChild usableChild : Bool)
    (dataMerger : DataMerger D M) (m : M) : Except Fault (Bool × DirectedGraph D × M) :=
  match g.vertexAt pParent with
  | .error f => .error f
  | .ok parent =>
  match g.vertexAt pChild with
  | .error f => .error f
  | .ok child =>
    let expectedChildsDir := if parentsReverse then parentsDir else parentsDir.flip
    let expectedChildsReverse := parentsReverse
    match child.getEdge pParent expectedChildsDir expectedChildsReverse with
    | none => .error .assertion
    | some _ =>
      let merged := dataMerger.merge m parent.m_key parent.m_data child.m_key child.m_data
        parentsDir parentsReverse removeChild usableChild
      let g1 := g.setData pParent merged.2
      match removeReciprocals g1 pParent parentsDir (g1.edgesOf pParent parentsDir) with
      | .error f => .error f
      | .ok g2 =>
        let g3 := g2.clearEdges pParent parentsDir
        let childUpdateEdgeDir := expectedChildsDir.flip
        match absorbChildEdges g3 pParent pChild parentsDir childUpdateEdgeDir parentsReverse
            (g3.edgesOf pChild childUpdateEdgeDir) with
        | .error f => .error f
        | .ok g4 =>
          if removeChild then
            match g4.removeVertex pChild with
            | .error f => .error f
            | .ok g5 => .ok (true, g5, merged.1)
          else .ok (true, g4, merged.1)

/-- The loop state of `removeTransitivity`: the counter, the graph and the
state of the merger. -/
abbrev SweepState (D M : Type) := Nat × DirectedGraph D × M

/-- The body of the inner loop of `removeTransitivity` for the vertex `pVertex`
and the direction `idx`. The call of `merge` in the source passes no
`usableChild`; its value is a parameter here. -/
def removeTransitivityStep {M : Type} (dataMerger : DataMerger D M) (usableChild : Bool)
    (pVertex : Nat) (s : SweepState D M) (idx : extDirection) :
    Except Fault (SweepState D M) :=
  let currEdges := s.2.1.edgesOf pVertex idx
  match currEdges with
  | [e] =>
    let pPartner := e.pVertex
    let parentRev := e.reverse
    let parentDir := idx
    let childDir := getTwinDir parentDir parentRev
    match s.2.1.vertexAt pPartner with
    | .error f => .error f
    | .ok partner =>
      match partner.isEdgeUnique pVertex childDir parentRev with
      | .error f => .error f
      | .ok removeChild =>
        if pVertex = pPartner then .ok s
        else
          match s.2.1.merge pVertex pPartner idx parentRev removeChild usableChild
              dataMerger s.2.2 with
          | .error f => .error f
          | .ok (merged, g1, m1) => .ok (if merged then s.1 + 1 else s.1, g1, m1)
  | _ => .ok s

/-- The body of the outer loop of `removeTransitivity`: both directions of one vertex. -/
def removeTransitivityVertex {M : Type} (dataMerger : DataMerger D M) (usableChild : Bool)
    (s : SweepState D M) (pVertex : Nat) : Except Fault (SweepState D M) :=
  match removeTransitivityStep dataMerger usableChild pVertex s .SENSE with
  | .error f => .error f
  | .ok s1 => removeTransitivityStep dataMerger usableChild pVertex s1 .ANTISENSE

/-- The loop of `removeTransitivity` over the given table positions. -/
def removeTransitivityLoop {M : Type} (dataMerger : DataMerger D M) (usableChild : Bool)
    (s : SweepState D M) : List Nat → Except Fault (SweepState D M)
  | [] => .ok s
  | p :: rest =>
    match removeTransitivityVertex dataMerger usableChild s p with
    | .error f => .error f
    | .ok s1 => removeTransitivityLoop dataMerger usableChild s1 rest

/-- The method `DirectedGraph::removeTransitivity`: the number of merges, the
graph and the state of the merger afterwards. -/
def DirectedGraph.removeTransitivity {M : Type} (g : DirectedGraph D)
    (dataMerger : DataMerger D M) (usableChild : Bool) (m : M) :
    Except Fault (SweepState D M) :=
  removeTransitivityLoop dataMerger usableChild (0, g, m) (List.range g.size)

/-! ## Specification vocabulary -/

/-- Key and payload of the vertex at a table position. -/
def DirectedGraph.labelOf (g : DirectedGraph D) (p : Nat) : Option (Nat × D) :=
  (g.m_vertexTable[p]?).map (fun v => (v.m_key, v.m_data))

/-- Replacing the collection `m_edges[d]` of the vertex at `p` by `f` of it. -/
def DirectedGraph.mapEdges (g : DirectedGraph D) (p : Nat) (d : extDirection)
    (f : List EdgeData → List EdgeData) : DirectedGraph D :=
  match g.m_vertexTable[p]? with
  | some v => g.setVertex p (v.setEdges d (f (v.m_edges d)))
  | none => g

/-- The reciprocity invariant: every edge `(w, r)` in `v.edges[d]` has the edge
`(v, r)` in `w.edges[r ? d : flip d]`. -/
def Reciprocal (g : DirectedGraph D) : Prop :=
  ∀ v < g.size, ∀ d : extDirection, ∀ e ∈ g.edgesOf v d,
    (⟨v, e.reverse⟩ : EdgeData) ∈ g.edgesOf e.pVertex (getTwinDir d e.reverse)

/-- No collection holds the same `(target, reverse)` twice. -/
def NoDuplicates (g : DirectedGraph D) : Prop :=
  ∀ v < g.size, ∀ d : extDirection, (g.edgesOf v d).Nodup

/-- The vertex `v` has no edge to itself. -/
def NoSelfLoopAt (g : DirectedGraph D) (v : Nat) : Prop :=
  ∀ d : extDirection, ∀ e ∈ g.edgesOf v d, e.pVertex ≠ v

/-- No vertex has an edge to itself. -/
def NoSelfLoops (g : DirectedGraph D) : Prop :=
  ∀ v < g.size, NoSelfLoopAt g v

/-- The edge `e'` held by `p'` in direction `d'` is the reciprocal of one of the
edges `es` held by `v` in direction `d`. -/
def isReciprocalOf (v : Nat) (d : extDirection) (es : List EdgeData) (p' : Nat)
    (d' : extDirection) (e' : EdgeData) : Bool :=
  decide (e'.pVertex = v ∧ (⟨p', e'.reverse⟩ : EdgeData) ∈ es ∧ getTwinDir d e'.reverse = d')

instance (g : DirectedGraph D) : Decidable (Reciprocal g) := by
  unfold Reciprocal; infer_instance

instance (g : DirectedGraph D) : Decidable (NoDuplicates g) := by
  unfold NoDuplicates; infer_instance

instance (g : DirectedGraph D) (v : Nat) : Decidable (NoSelfLoopAt g v) := by
  unfold NoSelfLoopAt; infer_instance

instance (g : DirectedGraph D) : Decidable (NoSelfLoops g) := by
  unfold NoSelfLoops; infer_instance

/-- The payload `SimpleContigData`: only its length matters here. -/
structure SimpleContigData where
  length : Nat
deriving DecidableEq, Repr

/-- The method `SimpleDataCost::cost`, `data.length - opt::k + 1`, for lengths
of at least `k - 1`. -/
def SimpleDataCost.cost (k : Nat) (data : SimpleContigData) : Nat :=
  data.length + 1 - k

/-- A merger that adds the length of the child to the parent and logs the
pair of keys it was called with. -/
def lengthMerger : DataMerger SimpleContigData (List (Nat × Nat)) :=
  ⟨fun log parentKey parentData childKey childData _ _ _ _ =>
    (log ++ [(parentKey, childKey)], ⟨parentData.length + childData.length⟩)⟩

/-- The chain `0 -> 1 -> 2` with all edges `reverse = false`, lengths 5, 3, 4. -/
def chain3 : DirectedGraph SimpleContigData :=
  ⟨[⟨0, ⟨5⟩, [⟨1, false⟩], []⟩,
    ⟨1, ⟨3⟩, [⟨2, false⟩], [⟨0, false⟩]⟩,
    ⟨2, ⟨4⟩, [], [⟨1, false⟩]⟩]⟩

/-- The scenario graph: vertices 0, 1, 2 of lengths 5, 3, 4; vertex 0 holds the
edge to vertex 1 in direction `SENSE` with `reverse = false`, vertex 1 holds the
reciprocal edge. -/
def pair3 : DirectedGraph SimpleContigData :=
  ⟨[⟨0, ⟨5⟩, [⟨1, false⟩], []⟩,
    ⟨1, ⟨3⟩, [], [⟨0, false⟩]⟩,
    ⟨2, ⟨4⟩, [], []⟩]⟩

/-- The type `ContigPath`. -/
abbrev ContigPath := List ContigNode

/-- The type `ContigPaths`. -/
abbrev ContigPaths := List ContigPath

/-- The type `KeyConstraintMap`, a map from nodes to the largest distance at
which the node may be reached, as the list of its entries. -/
abbrev KeyConstraintMap := List (ContigNode × Nat)

/-- The result of a call of `ConstrainedDFS`: the returned boolean and the
values of the reference parameters `solutions` and `visitedCount` on return. -/
abbrev SearchResult := Bool × ContigPaths × Int

/-- The copy `newConstraints` made for an edge: the constraints without the
entry of `nextNode` when that node is a target reached within its distance. -/
def dropConstraint (constraints : KeyConstraintMap) (nextNode : ContigNode) (currLen : Nat) :
    KeyConstraintMap :=
  match constraints.find? (fun kv => kv.1 = nextNode) with
  | some kv =>
    if currLen ≤ kv.2 then constraints.eraseP (fun kv => kv.1 = nextNode) else constraints
  | none => constraints

/-- The loop of `ConstrainedDFS` over the edges of the current vertex; `recurse`
is the recursive call. -/
def searchEdges (g : DirectedGraph D) (costFunctor : D → Nat)
    (recurse : Nat → Bool → KeyConstraintMap → ContigPath → ContigPaths → Nat → Int →
      Except Fault SearchResult)
    (isRC : Bool) (constraints : KeyConstraintMap) (path : ContigPath) (currLen : Nat) :
    List EdgeData → ContigPaths → Int → Except Fault SearchResult
  | [], solutions, visitedCount => .ok (true, solutions, visitedCount)
  | it :: rest, solutions, visitedCount =>
    match g.vertexAt it.pVertex with
    | .error f => .error f
    | .ok nextVertex =>
      let pNextVertex := it.pVertex
      let nextNode : ContigNode := ⟨nextVertex.m_key, it.reverse != isRC⟩
      let newPath := path ++ [nextNode]
      let newConstraints := dropConstraint constraints nextNode currLen
      if newConstraints.isEmpty then
        searchEdges g costFunctor recurse isRC constraints path currLen rest
          (solutions ++ [newPath]) visitedCount
      else
        let newLength := currLen + costFunctor nextVertex.m_data
        let constraintViolated := newConstraints.any (fun c => decide (newLength > c.2))
        if constraintViolated then
          searchEdges g costFunctor recurse isRC constraints path currLen rest
            solutions visitedCount
        else
          match recurse pNextVertex nextNode.sense newConstraints newPath solutions
              newLength visitedCount with
          | .error f => .error f
          | .ok (false, solutions1, visitedCount1) => .ok (false, solutions1, visitedCount1)
          | .ok (true, solutions1, visitedCount1) =>
            searchEdges g costFunctor recurse isRC constraints path currLen rest
              solutions1 visitedCount1

/-- The method `ConstrainedDFS` with a bound `fuel` on the depth of the recursion. -/
def ConstrainedDFSFuel (g : DirectedGraph D) (costFunctor : D → Nat) (dir : extDirection)
    (maxNumPaths maxCompCost : Int) :
    Nat → Nat → Bool → KeyConstraintMap → ContigPath → ContigPaths → Nat → Int →
      Except Fault SearchResult
  | 0, _, _, _, _, _, _, _ => .error .outOfFuel
  | fuel + 1, pCurrVertex, isRC, constraints, path, solutions, currLen, visitedCount =>
    if constraints.isEmpty then .error .assertion
    else if (solutions.length : Int) > maxNumPaths then .ok (false, solutions, visitedCount)
    else if visitedCount + 1 ≥ maxCompCost then .ok (false, solutions, visitedCount + 1)
    else
      match g.vertexAt pCurrVertex with
      | .error f => .error f
      | .ok currVertex =>
        let currEdges := currVertex.m_edges (if isRC then dir.flip else dir)
        searchEdges g costFunctor
          (ConstrainedDFSFuel g costFunctor dir maxNumPaths maxCompCost fuel)
          isRC constraints path currLen currEdges solutions (visitedCount + 1)

/-- The method `DirectedGraph::ConstrainedDFS`. Every call below the first one
is made with a larger `visitedCount` that is still below `maxCompCost`, so the
depth of the recursion is at most `maxCompCost - visitedCount`. -/
def DirectedGraph.ConstrainedDFS (g : DirectedGraph D) (costFunctor : D → Nat)
    (pCurrVertex : Nat) (dir : extDirection) (isRC : Bool) (constraints : KeyConstraintMap)
    (path : ContigPath) (solutions : ContigPaths) (currLen : Nat)
    (maxNumPaths maxCompCost visitedCount : Int) : Except Fault SearchResult :=
  ConstrainedDFSFuel g costFunctor dir maxNumPaths maxCompCost
    ((maxCompCost - visitedCount).toNat + 1)
    pCurrVertex isRC constraints path solutions currLen visitedCount

/-- The method `DirectedGraph::findSuperpaths`: the returned boolean and the
values of `superPaths` and `compCost` on return. -/
def DirectedGraph.findSuperpaths (g : DirectedGraph D) (costFunctor : D → Nat)
    (sourceKey : Nat) (dir : extDirection) (constraints : KeyConstraintMap)
    (superPaths : ContigPaths) (maxNumPaths maxCompCost compCost : Int) :
    Except Fault SearchResult :=
  if constraints.isEmpty then .ok (false, superPaths, compCost)
  else
    match g.findVertex sourceKey with
    | .error f => .error f
    | .ok pSource =>
      match g.ConstrainedDFS costFunctor pSource dir false constraints [] superPaths 0
          maxNumPaths maxCompCost compCost with
      | .error f => .error f
      | .ok (_, superPaths1, compCost1) =>
        .ok (if compCost1 ≥ maxCompCost then false else !superPaths1.isEmpty,
          superPaths1, compCost1)

/-- Every edge points to a vertex of the table. -/
def ValidPointers (g : DirectedGraph D) : Prop :=
  ∀ v < g.size, ∀ d : extDirection, ∀ e ∈ g.edgesOf v d, e.pVertex < g.size

instance (g : DirectedGraph D) : Decidable (ValidPointers g) := by
  unfold ValidPointers; infer_instance

/-- The cost `costFunctor.cost(p->m_data)` of the vertex `p` (0 when `p` is not
in the table). -/
def DirectedGraph.costOf (g : DirectedGraph D) (costFunctor : D → Nat) (p : Nat) : Nat :=
  match g.m_vertexTable[p]? with
  | some v => costFunctor v.m_data
  | none => 0

/-- Subtraction on `size_t` (64 bits): it wraps around when `b` exceeds `a`. -/
def sizeSub (a b : Nat) : Nat :=
  if b ≤ a then a - b else a + 2 ^ 64 - b

/-- The conversion of a `size_t` value to `int` (32 bits, two's complement):
the value is reduced modulo `2^32` and read as a signed number. -/
def sizeToInt (x : Nat) : Int :=
  if x % 2 ^ 32 < 2 ^ 31 then ((x % 2 ^ 32 : Nat) : Int) else ((x % 2 ^ 32 : Nat) : Int) - 2 ^ 32

/-- The conversion of an `int` to `size_t` (64 bits): the value modulo `2^64`. -/
def intToSize (c : Int) : Nat :=
  (c % 2 ^ 64).toNat

/-- The sum `a + c` of a `size_t` value and an `int`: the `int` is converted to
`size_t` and the sum wraps around. -/
def sizeAddInt (a : Nat) (c : Int) : Nat :=
  (a + intToSize c) % 2 ^ 64

/-- The loop of `getMinPathLength` over the elements of the set, with the
running values of `pathLength` and `maxCost`. -/
def getMinPathLengthLoop (g : DirectedGraph D) (costFunctor : D → Nat) :
    List Nat → Nat → Nat → Except Fault (Nat × Nat)
  | [], pathLength, maxCost => .ok (pathLength, maxCost)
  | p :: rest, pathLength, maxCost =>
    match g.vertexAt p with
    | .error f => .error f
    | .ok v =>
      let vertexCost := costFunctor v.m_data
      getMinPathLengthLoop g costFunctor rest (pathLength + vertexCost)
        (if vertexCost > maxCost then vertexCost else maxCost)

/-- The method `DirectedGraph::getMinPathLength`. The set of vertex pointers is
visited in increasing order. -/
def DirectedGraph.getMinPathLength (g : DirectedGraph D) (costFunctor : D → Nat)
    (vertexSet : Finset Nat) : Except Fault Nat :=
  match getMinPathLengthLoop g costFunctor (vertexSet.sort (· ≤ ·)) 0 0 with
  | .error f => .error f
  | .ok (pathLength, maxCost) => .ok (sizeSub pathLength maxCost)

/-- The set with the three vertices of the chain. -/
def chain3Set : Finset Nat := {0, 1, 2}

/-- The colours of `visitedMap`. -/
inductive VisitColor where
  | VC_WHITE
  | VC_BLACK
deriving DecidableEq, Repr

/-- The record `ShortestPathData`: three maps keyed by vertex pointer. A null
predecessor is `none`. -/
structure ShortestPathData where
  distanceMap : Nat → Nat
  visitedMap : Nat → VisitColor
  previousMap : Nat → Option Nat

/-- The constant `INF` of `dijkstra`, `const size_t INF = 2 << 30`: the shift
is done on `int` and gives `-2^31`, which the conversion to `size_t` (64 bits)
turns into `2^64 - 2^31`. It is an ordinary distance value, so a vertex whose
distance is not below it cannot be told from an unreached one. -/
def INF : Nat := intToSize (sizeToInt (2 <<< 30))

/-- The body of the innermost loop of `dijkstra` for one edge of the current
vertex. The distances are `size_t` values and `cost` is an `int`. -/
def relaxEdge (pCurrVertex : Nat) (cost : Int) (spd : ShortestPathData) (e : EdgeData) :
    ShortestPathData :=
  let pAdjVertex := e.pVertex
  if spd.distanceMap pAdjVertex > sizeAddInt (spd.distanceMap pCurrVertex) cost then
    { spd with
      distanceMap := Function.update spd.distanceMap pAdjVertex
        (sizeAddInt (spd.distanceMap pCurrVertex) cost)
      previousMap := Function.update spd.previousMap pAdjVertex (some pCurrVertex) }
  else spd

/-- The loop of `dijkstra` that selects the next vertex: a scan over the entries
of `distanceMap` in the order of the map, with the running `minCost` and `bestIter`. -/
def selectScan (spd : ShortestPathData) : List Nat → Nat → Option Nat → Nat × Option Nat
  | [], minCost, bestIter => (minCost, bestIter)
  | p :: rest, minCost, bestIter =>
    if spd.visitedMap p ≠ .VC_BLACK then
      if spd.distanceMap p ≤ minCost then selectScan spd rest (spd.distanceMap p) (some p)
      else selectScan spd rest minCost bestIter
    else selectScan spd rest minCost bestIter

/-- The `while` loop of `dijkstra`; `fuel` bounds the number of iterations. The
statement `int cost = costFunctor.cost(...)` narrows the cost to an `int`. -/
def dijkstraLoop (g : DirectedGraph D) (costFunctor : D → Nat) :
    Nat → Nat → ShortestPathData → Except Fault ShortestPathData
  | 0, _, _ => .error .outOfFuel
  | fuel + 1, pCurrVertex, spd =>
    match g.vertexAt pCurrVertex with
    | .error f => .error f
    | .ok currVertex =>
      let spd1 := { spd with
        visitedMap := Function.update spd.visitedMap pCurrVertex .VC_BLACK }
      let cost := sizeToInt (costFunctor currVertex.m_data)
      let spd2 := (currVertex.m_edges .SENSE).foldl (relaxEdge pCurrVertex cost) spd1
      let spd3 := (currVertex.m_edges .ANTISENSE).foldl (relaxEdge pCurrVertex cost) spd2
      match (selectScan spd3 (List.range g.size) INF none).2 with
      | none => .ok spd3
      | some best => dijkstraLoop g costFunctor fuel best spd3

/-- The method `DirectedGraph::dijkstra`. Every iteration of the loop colours
one more vertex black, so the loop makes at most as many iterations as there
are vertices. -/
def DirectedGraph.dijkstra (g : DirectedGraph D) (costFunctor : D → Nat) (sourceKey : Nat) :
    Except Fault ShortestPathData :=
  match g.findVertex sourceKey with
  | .error f => .error f
  | .ok pSourceVertex =>
    let spd0 : ShortestPathData :=
      { distanceMap := fun _ => INF
        visitedMap := fun _ => .VC_WHITE
        previousMap := fun _ => none }
    let spd1 := { spd0 with distanceMap := Function.update spd0.distanceMap pSourceVertex 0 }
    dijkstraLoop g costFunctor g.size pSourceVertex spd1

/-- The loop of `extractShortestPath`; `fuel` bounds the number of iterations. -/
def extractShortestPathLoop (g : DirectedGraph D) (previousMap : Nat → Option Nat)
    (pSource : Nat) : Nat → Option Nat → List Nat → Except Fault (List Nat)
  | 0, _, _ => .error .outOfFuel
  | fuel + 1, pCurrVertex, path =>
    if pCurrVertex = some pSource then .ok path
    else
      match pCurrVertex with
      | none => .error .badPointer
      | some p =>
        match g.vertexAt p with
        | .error f => .error f
        | .ok v =>
          extractShortestPathLoop g previousMap pSource fuel (previousMap p) (path ++ [v.m_key])

/-- The method `DirectedGraph::extractShortestPath`. The predecessors of a
chain are distinct vertices, so the loop makes at most one iteration per vertex
and a last test. -/
def DirectedGraph.extractShortestPath (g : DirectedGraph D) (pSource pTarget : Nat)
    (shortestPathData : ShortestPathData) (path : List Nat) : Except Fault (List Nat) :=
  match extractShortestPathLoop g shortestPathData.previousMap pSource (g.size + 1)
      (some pTarget) path with
  | .error f => .error f
  | .ok path1 => .ok path1.reverse

/-- The vertices `w` one edge away from `u`, in either direction collection. -/
def DirectedGraph.Adjacent (g : DirectedGraph D) (u w : Nat) : Prop :=
  ∃ d : extDirection, ∃ e ∈ g.edgesOf u d, e.pVertex = w

/-- The walks from `s`: `Walk g cost s t len` says that there are vertices
`s = u0, u1, ..., un = t`, each adjacent to the one before, whose costs except
that of the last one add up to `len`. -/
inductive Walk (g : DirectedGraph D) (costFunctor : D → Nat) (s : Nat) : Nat → Nat → Prop where
  | nil : Walk g costFunctor s s 0
  | snoc {u w len : Nat} : Walk g costFunctor s u len → g.Adjacent u w →
      Walk g costFunctor s w (len + g.costOf costFunctor u)

/-- The line `A - B - C - D`: four vertices of cost 1 (length 1 with `k = 1`),
neighbours joined by a reciprocal pair of edges. -/
def line4 : DirectedGraph SimpleContigData :=
  ⟨[⟨0, ⟨1⟩, [⟨1, false⟩], []⟩,
    ⟨1, ⟨1⟩, [⟨2, false⟩], [⟨0, false⟩]⟩,
    ⟨2, ⟨1⟩, [⟨3, false⟩], [⟨1, false⟩]⟩,
    ⟨3, ⟨1⟩, [], [⟨2, false⟩]⟩]⟩

/-- The invariant of the `while` loop of `dijkstra` on the three maps, for the
source `s`. The black vertices are the first `k` selected ones and `rank` orders
the vertices by the iteration in which they were selected. -/
structure DijkstraInv (g : DirectedGraph D) (costFunctor : D → Nat) (s : Nat)
    (spd : ShortestPathData) (k : Nat) (rank : Nat → Nat) : Prop where
  dist_src : spd.distanceMap s = 0
  prev_src : spd.previousMap s = none
  dist_le : ∀ p, spd.distanceMap p ≤ INF
  sound : ∀ p, spd.distanceMap p < INF → Walk g costFunctor s p (spd.distanceMap p)
  unreached : ∀ p, spd.distanceMap p = INF → spd.previousMap p = none
  reached : ∀ p, spd.distanceMap p < INF → p = s ∨ ∃ u, spd.previousMap p = some u
  closed : ∀ u, spd.visitedMap u = .VC_BLACK → ∀ w, g.Adjacent u w →
    spd.distanceMap w ≤ spd.distanceMap u + g.costOf costFunctor u
  black_lt : ∀ u, spd.visitedMap u = .VC_BLACK → u < g.size
  prev_some : ∀ p u, spd.previousMap p = some u →
    spd.visitedMap u = .VC_BLACK ∧ rank u < rank p ∧ g.Adjacent u p ∧
      spd.distanceMap p = spd.distanceMap u + g.costOf costFunctor u
  rank_black : ∀ u, spd.visitedMap u = .VC_BLACK → rank u ≤ k
  rank_white : ∀ w, spd.visitedMap w ≠ .VC_BLACK → rank w = k + 1
  count : ((Finset.range g.size).filter (fun p => spd.visitedMap p = .VC_BLACK)).card = k

/-- The vertex selected for the next iteration of the loop of `dijkstra`: a
white vertex of the table with the least distance, not below any black one. -/
structure DijkstraCurr (g : DirectedGraph D) (spd : ShortestPathData) (curr : Nat) : Prop where
  curr_lt : curr < g.size
  curr_white : spd.visitedMap curr ≠ .VC_BLACK
  black_le : ∀ u, spd.visitedMap u = .VC_BLACK → spd.distanceMap u ≤ spd.distanceMap curr
  curr_min : ∀ w < g.size, spd.visitedMap w ≠ .VC_BLACK →
    spd.distanceMap curr ≤ spd.distanceMap w

/-- The key of every vertex is its position in the table (`addVertex` asserts it). -/
def KeysDense (g : DirectedGraph D) : Prop :=
  ∀ p < g.size, (g.labelOf p).map Prod.fst = some p

instance (g : DirectedGraph D) : Decidable (KeysDense g) := by
  unfold KeysDense; infer_instance

/-- Three vertices joined pairwise by reciprocal edges, of costs 1, `2^32 - 1`
and 1 (lengths with `k = 1`): the cost of the second one does not fit an `int`. -/
def triangle3 : DirectedGraph SimpleContigData :=
  ⟨[⟨0, ⟨1⟩, [⟨1, false⟩], [⟨2, false⟩]⟩,
    ⟨1, ⟨2 ^ 32 - 1⟩, [⟨2, false⟩], [⟨0, false⟩]⟩,
    ⟨2, ⟨1⟩, [⟨0, false⟩], [⟨1, false⟩]⟩]⟩

/-- A run of `addEdge` calls on one vertex, one call per listed
`(target, direction, reverse)`. -/
def Vertex.addEdges (v : Vertex D) : List (Nat × extDirection × Bool) → Except Fault (Vertex D)
  | [] => .ok v
  | (pNode, dir, reverse) :: rest =>
    match v.addEdge pNode dir reverse with
    | .error f => .error f
    | .ok w => w.addEdges rest

/-- A vertex of key 7 that holds the edges `(1, false)` and `(2, true)` in
direction `SENSE` and `(3, false)` in direction `ANTISENSE`. -/
def sampleVertex : Vertex SimpleContigData :=
  ⟨7, ⟨9⟩, [⟨1, false⟩, ⟨2, true⟩], [⟨3, false⟩]⟩

/-- One half of an edge: the vertex and direction that hold it, and the edge. -/
abbrev HalfEdge := (_ : Nat × extDirection) × EdgeData

/-- The reciprocal of a half edge: the edge `(v, r)` held by `w` in direction
`r ? d : flip d`, for the edge `(w, r)` held by `v` in direction `d`. -/
def reciprocalHalf (h : HalfEdge) : HalfEdge :=
  ⟨(h.2.pVertex, getTwinDir h.1.2 h.2.reverse), ⟨h.1.1, h.2.reverse⟩⟩

/-- All half edges of the graph. -/
def DirectedGraph.halfEdges (g : DirectedGraph D) : Finset HalfEdge :=
  (Finset.range g.size ×ˢ Finset.univ).sigma (fun vd => (g.edgesOf vd.1 vd.2).toFinset)

/-- The reciprocal pairs of the graph: every half edge together with its reciprocal. -/
def DirectedGraph.reciprocalPairs (g : DirectedGraph D) : Finset (Finset HalfEdge) :=
  g.halfEdges.image (fun h => {h, reciprocalHalf h})

/-- No edge is its own reciprocal, that is, no vertex holds an edge to itself
with `reverse = true`. -/
def NoSelfReciprocal (g : DirectedGraph D) : Prop :=
  ∀ v < g.size, ∀ d : extDirection, ∀ e ∈ g.edgesOf v d, ¬ (e.pVertex = v ∧ e.reverse = true)

instance (g : DirectedGraph D) : Decidable (NoSelfReciprocal g) := by
  unfold NoSelfReciprocal; infer_instance

/-- One vertex that holds, in direction `SENSE`, an edge to itself with
`reverse = true`. -/
def hairpin1 : DirectedGraph SimpleContigData :=
  ⟨[⟨0, ⟨5⟩, [⟨0, true⟩], []⟩]⟩

/-- The node `b` is reached from the node `a` in a search in direction `dir`:
the vertex of `a` holds, in the collection of direction `a.sense XOR dir`, an
edge `e` to the vertex of `b`, and `b.sense = e.reverse XOR a.sense`. -/
def Follows (g : DirectedGraph D) (dir : extDirection) (a b : ContigNode) : Prop :=
  ∃ e ∈ g.edgesOf a.id (if a.sense then dir.flip else dir),
    e.pVertex = b.id ∧ b.sense = (e.reverse != a.sense)

/-- The path meets the constraint `(n, limit)`: some position `i` holds `n` and
the costs of the elements before position `i` add up to at most `limit`. -/
def MeetsConstraint (g : DirectedGraph D) (costFunctor : D → Nat) (path : ContigPath)
    (c : ContigNode × Nat) : Prop :=
  ∃ i, ∃ hi : i < path.length, path[i] = c.1 ∧
    ((path.take i).map (fun n => g.costOf costFunctor n.id)).sum ≤ c.2

/-- A path that `findSuperpaths` may report for the source `sourceKey`, the
direction `dir` and the constraints `constraints`: a walk from the source in
its forward sense that meets every constraint and ends in a constraint target. -/
def ValidSuperpath (g : DirectedGraph D) (costFunctor : D → Nat) (sourceKey : Nat)
    (dir : extDirection) (constraints : KeyConstraintMap) (path : ContigPath) : Prop :=
  path ≠ [] ∧ List.Chain (Follows g dir) ⟨sourceKey, false⟩ path ∧
    (∀ c ∈ constraints, MeetsConstraint g costFunctor path c) ∧
    ∃ n limit, path.getLast? = some n ∧ (n, limit) ∈ constraints

/-- The state of one call of `ConstrainedDFS` inside the search that
`findSuperpaths` starts: the path so far is a walk from the source to the
current vertex, `currLen` is its cost, and every constraint of the search is
either still to be met or met by the path. -/
structure SearchInv (g : DirectedGraph D) (costFunctor : D → Nat) (sourceKey : Nat)
    (dir : extDirection) (all : KeyConstraintMap) (pCurrVertex : Nat) (isRC : Bool)
    (constraints : KeyConstraintMap) (path : ContigPath) (currLen : Nat) : Prop where
  walk : List.Chain (Follows g dir) ⟨sourceKey, false⟩ path
  last : ((⟨sourceKey, false⟩ : ContigNode) :: path).getLast? = some ⟨pCurrVertex, isRC⟩
  len : currLen = (path.map (fun n => g.costOf costFunctor n.id)).sum
  met : ∀ c ∈ all, c ∈ constraints ∨ MeetsConstraint g costFunctor path c
  sub : ∀ c ∈ constraints, c ∈ all

/-- A diamond: vertex 0 has edges to 1, 2 and 3 in direction `SENSE`, vertex 2
has an edge to 1; all edges `reverse = false`, all lengths 1. -/
def diamond4 : DirectedGraph SimpleContigData :=
  ⟨[⟨0, ⟨1⟩, [⟨1, false⟩, ⟨2, false⟩, ⟨3, false⟩], []⟩,
    ⟨1, ⟨1⟩, [], [⟨0, false⟩, ⟨2, false⟩]⟩,
    ⟨2, ⟨1⟩, [⟨1, false⟩], [⟨0, false⟩]⟩,
    ⟨3, ⟨1⟩, [], [⟨0, false⟩]⟩]⟩

/-- The loop of `accumulateVertices` over the edges of the vertex; `recurse` is
the recursive call. -/
def accumulateEdges (recurse : Nat → extDirection → Nat → Finset Nat → Except Fault (Finset Nat))
    (dir : extDirection) (currCost : Nat) :
    List EdgeData → Finset Nat → Except Fault (Finset Nat)
  | [], accumulator => .ok accumulator
  | e :: rest, accumulator =>
    let newDir := if e.reverse then dir.flip else dir
    match recurse e.pVertex newDir currCost accumulator with
    | .error f => .error f
    | .ok accumulator1 => accumulateEdges recurse dir currCost rest accumulator1

/-- The method `accumulateVertices` with a bound `fuel` on the depth of the
recursion. The accumulator is a set of vertex pointers. -/
def accumulateVerticesFuel (g : DirectedGraph D) (costFunctor : D → Nat) (maxCost : Nat) :
    Nat → Nat → extDirection → Nat → Finset Nat → Except Fault (Finset Nat)
  | 0, _, _, _, _ => .error .outOfFuel
  | fuel + 1, pVertex, dir, currCost, accumulator =>
    let accumulator1 := insert pVertex accumulator
    match g.vertexAt pVertex with
    | .error f => .error f
    | .ok v =>
      let currCost1 := currCost + costFunctor v.m_data
      if currCost1 > maxCost then .ok accumulator1
      else
        accumulateEdges (accumulateVerticesFuel g costFunctor maxCost fuel) dir currCost1
          (v.m_edges dir) accumulator1

/-- The method `DirectedGraph::accumulateVertices`. When every cost is at least
1 each nested call has a larger `currCost`, and a call is nested only while
`currCost` is at most `maxCost`, so the depth of the recursion is at most
`maxCost - currCost + 1`. -/
def DirectedGraph.accumulateVertices (g : DirectedGraph D) (costFunctor : D → Nat)
    (pVertex : Nat) (dir : extDirection) (currCost maxCost : Nat) (accumulator : Finset Nat) :
    Except Fault (Finset Nat) :=
  accumulateVerticesFuel g costFunctor maxCost (maxCost - currCost + 1) pVertex dir currCost
    accumulator

/-- The cost-bounded walks: `CostWalk g cost maxCost v d c u` says that there is
a walk `(u0, d0) = (v, d), ..., (un, dn)` with `un = u`, each `u(i+1)` the target
of an edge `e` in the collection of direction `d(i)` of `u(i)` and
`d(i+1) = e.reverse ? flip(d(i)) : d(i)`, such that `c` plus the costs of
`u0, ..., u(n-1)` is at most `maxCost`. -/
inductive CostWalk (g : DirectedGraph D) (costFunctor : D → Nat) (maxCost : Nat) :
    Nat → extDirection → Nat → Nat → Prop where
  | nil {v : Nat} {d : extDirection} {c : Nat} : c ≤ maxCost →
      CostWalk g costFunctor maxCost v d c v
  | cons {v : Nat} {d : extDirection} {c : Nat} {e : EdgeData} {u : Nat} :
      e ∈ g.edgesOf v d →
      CostWalk g costFunctor maxCost e.pVertex (if e.reverse then d.flip else d)
        (c + g.costOf costFunctor v) u →
      CostWalk g costFunctor maxCost v d c u

/-- The events of a run of `ConstrainedDFS`: `call` is recorded when an
invocation is entered, `ret b` when an invocation executes `return b`. -/
inductive SearchEvent where
  | call
  | ret (b : Bool)
  deriving DecidableEq

/-- The result of a traced call: the result of the call and the log of events
on return. -/
abbrev TracedResult := SearchResult × List SearchEvent

/-- The loop of `ConstrainedDFS` over the edges of the current vertex, as
`searchEdges`, with the log of events threaded through: the two `return`
statements of the loop record their value. -/
def searchEdgesTraced (g : DirectedGraph D) (costFunctor : D → Nat)
    (recurse : Nat → Bool → KeyConstraintMap → ContigPath → ContigPaths → Nat → Int →
      List SearchEvent → Except Fault TracedResult)
    (isRC : Bool) (constraints : KeyConstraintMap) (path : ContigPath) (currLen : Nat) :
    List EdgeData → ContigPaths → Int → List SearchEvent → Except Fault TracedResult
  | [], solutions, visitedCount, log => .ok ((true, solutions, visitedCount), log ++ [.ret true])
  | it :: rest, solutions, visitedCount, log =>
    match g.vertexAt it.pVertex with
    | .error f => .error f
    | .ok nextVertex =>
      let pNextVertex := it.pVertex
      let nextNode : ContigNode := ⟨nextVertex.m_key, it.reverse != isRC⟩
      let newPath := path ++ [nextNode]
      let newConstraints := dropConstraint constraints nextNode currLen
      if newConstraints.isEmpty then
        searchEdgesTraced g costFunctor recurse isRC constraints path currLen rest
          (solutions ++ [newPath]) visitedCount log
      else
        let newLength := currLen + costFunctor nextVertex.m_data
        let constraintViolated := newConstraints.any (fun c => decide (newLength > c.2))
        if constraintViolated then
          searchEdgesTraced g costFunctor recurse isRC constraints path currLen rest
            solutions visitedCount log
        else
          match recurse pNextVertex nextNode.sense newConstraints newPath solutions
              newLength visitedCount log with
          | .error f => .error f
          | .ok ((false, solutions1, visitedCount1), log1) =>
            .ok ((false, solutions1, visitedCount1), log1 ++ [.ret false])
          | .ok ((true, solutions1, visitedCount1), log1) =>
            searchEdgesTraced g costFunctor recurse isRC constraints path currLen rest
              solutions1 visitedCount1 log1

/-- The method `ConstrainedDFS` with a bound `fuel` on the depth of the
recursion, as `ConstrainedDFSFuel`, with the log of events threaded through:
every invocation records `call` on entry and its value at each `return`. -/
def ConstrainedDFSTracedFuel (g : DirectedGraph D) (costFunctor : D → Nat) (dir : extDirection)
    (maxNumPaths maxCompCost : Int) :
    Nat → Nat → Bool → KeyConstraintMap → ContigPath → ContigPaths → Nat → Int →
      List SearchEvent → Except Fault TracedResult
  | 0, _, _, _, _, _, _, _, _ => .error .outOfFuel
  | fuel + 1, pCurrVertex, isRC, constraints, path, solutions, currLen, visitedCount, log =>
    let log1 := log ++ [.call]
    if constraints.isEmpty then .error .assertion
    else if (solutions.length : Int) > maxNumPaths then
      .ok ((false, solutions, visitedCount), log1 ++ [.ret false])
    else if visitedCount + 1 ≥ maxCompCost then
      .ok ((false, solutions, visitedCount + 1), log1 ++ [.ret false])
    else
      match g.vertexAt pCurrVertex with
      | .error f => .error f
      | .ok currVertex =>
        let currEdges := currVertex.m_edges (if isRC then dir.flip else dir)
        searchEdgesTraced g costFunctor
          (ConstrainedDFSTracedFuel g costFunctor dir maxNumPaths maxCompCost fuel)
          isRC constraints path currLen currEdges solutions (visitedCount + 1) log1

/-- The method `DirectedGraph::ConstrainedDFS` run from an empty log. -/
def DirectedGraph.ConstrainedDFSTraced (g : DirectedGraph D) (costFunctor : D → Nat)
    (pCurrVertex : Nat) (dir : extDirection) (isRC : Bool) (constraints : KeyConstraintMap)
    (path : ContigPath) (solutions : ContigPaths) (currLen : Nat)
    (maxNumPaths maxCompCost visitedCount : Int) : Except Fault TracedResult :=
  ConstrainedDFSTracedFuel g costFunctor dir maxNumPaths maxCompCost
    ((maxCompCost - visitedCount).toNat + 1)
    pCurrVertex isRC constraints path solutions currLen visitedCount []

/-- The shape of a log segment `L` recorded by a search that was entered with
the count `vc` below `maxCompCost` and returned `r`: the count never decreases
and ends at most at `maxCompCost`; a search that returns true made exactly
`r.2.2 - vc` invocations, ended below the budget and saw no `return false`; a
search that returns false made at most `maxCompCost - vc` invocations and its
log ends in a run of `return false` with none before that run. -/
def SearchTrace (maxCompCost vc : Int) (r : SearchResult) (L : List SearchEvent) : Prop :=
  vc ≤ r.2.2 ∧ r.2.2 ≤ maxCompCost ∧
  (r.1 = true → (L.count .call : Int) = r.2.2 - vc ∧ r.2.2 < maxCompCost ∧
    SearchEvent.ret false ∉ L) ∧
  (r.1 = false → (L.count .call : Int) ≤ maxCompCost - vc ∧
    ∃ L1 k, L = L1 ++ List.replicate (k + 1) (.ret false) ∧ SearchEvent.ret false ∉ L1)

/-- The type `VertexComponent`: the key of the seed vertex and a set of vertex
pointers. -/
abbrev VertexComponent := Nat × Finset Nat

/-- The loop of `generateComponents` over the edges of the vertex: a component
labelled with the key of the target and holding no vertex is pushed to the
output, then `accumulateVertices` fills the vertex set of that last entry. -/
def generateComponentsLoop (g : DirectedGraph D) (costFunctor : D → Nat) (dir : extDirection)
    (maxCost : Nat) : List EdgeData → List VertexComponent → Except Fault (List VertexComponent)
  | [], outComponents => .ok outComponents
  | it :: rest, outComponents =>
    match g.vertexAt it.pVertex with
    | .error f => .error f
    | .ok target =>
      let newComp : VertexComponent := (target.m_key, ∅)
      let newDir := if it.reverse then dir.flip else dir
      match g.accumulateVertices costFunctor it.pVertex newDir 0 maxCost newComp.2 with
      | .error f => .error f
      | .ok accumulator =>
        generateComponentsLoop g costFunctor dir maxCost rest
          (outComponents ++ [(newComp.1, accumulator)])

/-- The method `DirectedGraph::generateComponents`. -/
def DirectedGraph.generateComponents (g : DirectedGraph D) (costFunctor : D → Nat)
    (pVertex : Nat) (dir : extDirection) (maxCost : Nat)
    (outComponents : List VertexComponent) : Except Fault (List VertexComponent) :=
  match g.vertexAt pVertex with
  | .error f => .error f
  | .ok v => generateComponentsLoop g costFunctor dir maxCost (v.m_edges dir) outComponents

/-- The component that `generateComponents` builds for the edge `e` taken from
a collection of direction `dir`: its label is the key of the target of `e` and
its vertex set is what `accumulateVertices` returns from the target, in the
direction flipped when `e.reverse` is set, from cost 0 and the empty set. -/
def IsComponentOf (g : DirectedGraph D) (costFunctor : D → Nat) (dir : extDirection)
    (maxCost : Nat) (e : EdgeData) (c : VertexComponent) : Prop :=
  (∃ target, g.vertexAt e.pVertex = .ok target ∧ c.1 = target.m_key) ∧
  g.accumulateVertices costFunctor e.pVertex (if e.reverse then dir.flip else dir) 0 maxCost ∅
    = .ok c.2 ∧
  e.pVertex ∈ c.2 ∧
  (g.costOf costFunctor e.pVertex > maxCost → c.2 = {e.pVertex})

/-- The star: vertex 0 of length 1 with the edges to vertex 1 (length 9) and to
vertex 2 (length 2) in direction `SENSE`, and vertex 2 with the edge to vertex 3
(length 2); every edge has its reciprocal. -/
def star4 : DirectedGraph SimpleContigData :=
  ⟨[⟨0, ⟨1⟩, [⟨1, false⟩, ⟨2, false⟩], []⟩,
    ⟨1, ⟨9⟩, [], [⟨0, false⟩]⟩,
    ⟨2, ⟨2⟩, [⟨3, false⟩], [⟨0, false⟩]⟩,
    ⟨3, ⟨2⟩, [], [⟨2, false⟩]⟩]⟩

/-- The calls of `merge` made so far, as pairs `(pParent, pChild)`, together
with the outcome of the code that made them; the calls are kept when the code
fails. -/
abbrev MergeTraced (D M : Type) := List (Nat × Nat) × Except Fault (SweepState D M)

/-- The body of the inner loop of `removeTransitivity`, as
`removeTransitivityStep`, recording the arguments `(pVertex, pPartner)` of the
call of `merge` when the call is made. -/
def removeTransitivityStepTraced {M : Type} (dataMerger : DataMerger D M) (usableChild : Bool)
    (pVertex : Nat) (s : SweepState D M) (idx : extDirection) (calls : List (Nat × Nat)) :
    MergeTraced D M :=
  let currEdges := s.2.1.edgesOf pVertex idx
  match currEdges with
  | [e] =>
    let pPartner := e.pVertex
    let parentRev := e.reverse
    let parentDir := idx
    let childDir := getTwinDir parentDir parentRev
    match s.2.1.vertexAt pPartner with
    | .error f => (calls, .error f)
    | .ok partner =>
      match partner.isEdgeUnique pVertex childDir parentRev with
      | .error f => (calls, .error f)
      | .ok removeChild =>
        if pVertex = pPartner then (calls, .ok s)
        else
          (calls ++ [(pVertex, pPartner)],
            match s.2.1.merge pVertex pPartner idx parentRev removeChild usableChild
                dataMerger s.2.2 with
            | .error f => .error f
            | .ok (merged, g1, m1) => .ok (if merged then s.1 + 1 else s.1, g1, m1))
  | _ => (calls, .ok s)

/-- The body of the outer loop of `removeTransitivity` with the calls of `merge`
recorded. -/
def removeTransitivityVertexTraced {M : Type} (dataMerger : DataMerger D M)
    (usableChild : Bool) (s : SweepState D M) (pVertex : Nat) (calls : List (Nat × Nat)) :
    MergeTraced D M :=
  match removeTransitivityStepTraced dataMerger usableChild pVertex s .SENSE calls with
  | (calls1, .error f) => (calls1, .error f)
  | (calls1, .ok s1) =>
    removeTransitivityStepTraced dataMerger usableChild pVertex s1 .ANTISENSE calls1

/-- The loop of `removeTransitivity` over the given table positions with the
calls of `merge` recorded. -/
def removeTransitivityLoopTraced {M : Type} (dataMerger : DataMerger D M) (usableChild : Bool)
    (s : SweepState D M) : List Nat → List (Nat × Nat) → MergeTraced D M
  | [], calls => (calls, .ok s)
  | p :: rest, calls =>
    match removeTransitivityVertexTraced dataMerger usableChild s p calls with
    | (calls1, .error f) => (calls1, .error f)
    | (calls1, .ok s1) => removeTransitivityLoopTraced dataMerger usableChild s1 rest calls1

/-- The method `DirectedGraph::removeTransitivity` with the calls of `merge`
recorded. -/
def DirectedGraph.removeTransitivityTraced {M : Type} (g : DirectedGraph D)
    (dataMerger : DataMerger D M) (usableChild : Bool) (m : M) : MergeTraced D M :=
  removeTransitivityLoopTraced dataMerger usableChild (0, g, m) (List.range g.size) []

/-- Every edge of the graph is a self-loop. -/
def OnlySelfLoops (g : DirectedGraph D) : Prop :=
  ∀ v < g.size, ∀ d : extDirection, ∀ e ∈ g.edgesOf v d, e.pVertex = v

instance (g : DirectedGraph D) : Decidable (OnlySelfLoops g) := by
  unfold OnlySelfLoops; infer_instance

/-- Three vertices whose edges are all self-loops: vertex 0 holds the edge
`(0, true)`, which is its own reciprocal, in direction `SENSE`; vertex 1 holds
the edge `(1, false)` in both directions; vertex 2 holds `(2, false)` and
`(2, true)` in direction `SENSE` and `(2, false)` in direction `ANTISENSE`. -/
def loops3 : DirectedGraph SimpleContigData :=
  ⟨[⟨0, ⟨5⟩, [⟨0, true⟩], []⟩,
    ⟨1, ⟨3⟩, [⟨1, false⟩], [⟨1, false⟩]⟩,
    ⟨2, ⟨4⟩, [⟨2, false⟩, ⟨2, true⟩], [⟨2, false⟩]⟩]⟩

/-! ## Theorems -/

/-! ## Edge collections as lists -/

theorem findEdge_eq_none {data : EdgeData} {l : List EdgeData} :
    findEdge data l = none ↔ data ∉ l := by
  induction l with
  | nil => simp [findEdge]
  | cons e rest ih =>
    by_cases h : e = data
    · simp [findEdge, h]
    · simp [findEdge, h, ih, Ne.symm h]

theorem findEdge_isSome {data : EdgeData} {l : List EdgeData} :
    (∃ i, findEdge data l = some i) ↔ data ∈ l := by
  rw [← not_iff_not, ← findEdge_eq_none]
  cases findEdge data l <;> simp

theorem eraseIdx_findEdge {data : EdgeData} {l : List EdgeData} {i : Nat}
    (h : findEdge data l = some i) : l.eraseIdx i = l.erase data := by
  induction l generalizing i with
  | nil => simp [findEdge] at h
  | cons e rest ih =>
    by_cases he : e = data
    · subst he
      simp [findEdge] at h
      subst h
      simp
    · simp only [findEdge, he, if_false, Option.map_eq_some'] at h
      obtain ⟨j, hj, rfl⟩ := h
      rw [List.eraseIdx_cons_succ, ih hj, List.erase_cons_tail]
      simpa using he

@[simp] theorem Vertex.m_edges_setEdges (v : Vertex D) (d d' : extDirection) (es : List EdgeData) :
    (v.setEdges d es).m_edges d' = if d' = d then es else v.m_edges d' := by
  cases d <;> cases d' <;> simp [Vertex.setEdges, Vertex.m_edges]

@[simp] theorem Vertex.m_key_setEdges (v : Vertex D) (d : extDirection) (es : List EdgeData) :
    (v.setEdges d es).m_key = v.m_key := by
  cases d <;> rfl

@[simp] theorem Vertex.m_data_setEdges (v : Vertex D) (d : extDirection) (es : List EdgeData) :
    (v.setEdges d es).m_data = v.m_data := by
  cases d <;> rfl

theorem Vertex.setEdges_self (v : Vertex D) (d : extDirection) :
    v.setEdges d (v.m_edges d) = v := by
  cases d <;> rfl

theorem DirectedGraph.edgesOf_mapEdges (g : DirectedGraph D) (p : Nat) (d : extDirection)
    (f : List EdgeData → List EdgeData) (p' : Nat) (d' : extDirection) :
    (g.mapEdges p d f).edgesOf p' d' =
      if p' = p ∧ d' = d ∧ p < g.size then f (g.edgesOf p d) else g.edgesOf p' d' := by
  unfold DirectedGraph.mapEdges DirectedGraph.edgesOf DirectedGraph.size
  cases hp : g.m_vertexTable[p]? with
  | none =>
    have : ¬ p < g.m_vertexTable.length := by
      intro h; simp [List.getElem?_eq_getElem h] at hp
    simp [this]
  | some v =>
    have hlt : p < g.m_vertexTable.length := by
      by_contra h; simp [List.getElem?_eq_none (Nat.le_of_not_lt h)] at hp
    simp only [DirectedGraph.setVertex, List.getElem?_set, hlt, and_true]
    by_cases h1 : p = p'
    · subst h1
      by_cases h2 : d' = d
      · simp [h2, hlt]
      · simp [h2, hlt, hp]
    · simp [h1, Ne.symm h1]

theorem DirectedGraph.size_mapEdges (g : DirectedGraph D) (p : Nat) (d : extDirection)
    (f : List EdgeData → List EdgeData) : (g.mapEdges p d f).size = g.size := by
  unfold DirectedGraph.mapEdges DirectedGraph.size
  cases hp : g.m_vertexTable[p]? <;> simp [DirectedGraph.setVertex]

theorem DirectedGraph.labelOf_mapEdges (g : DirectedGraph D) (p : Nat) (d : extDirection)
    (f : List EdgeData → List EdgeData) (q : Nat) :
    (g.mapEdges p d f).labelOf q = g.labelOf q := by
  unfold DirectedGraph.mapEdges DirectedGraph.labelOf
  cases hp : g.m_vertexTable[p]? with
  | none => rfl
  | some v =>
    have hlt : p < g.m_vertexTable.length := by
      by_contra h; simp [List.getElem?_eq_none (Nat.le_of_not_lt h)] at hp
    simp only [DirectedGraph.setVertex, List.getElem?_set, hlt]
    by_cases h1 : p = q
    · subst h1; simp [hp]
    · simp [h1]

theorem DirectedGraph.edgesOf_of_size_le {g : DirectedGraph D} {p : Nat} (h : g.size ≤ p)
    (d : extDirection) : g.edgesOf p d = [] := by
  unfold DirectedGraph.edgesOf
  rw [List.getElem?_eq_none h]

theorem DirectedGraph.lt_size_of_mem {g : DirectedGraph D} {p : Nat} {d : extDirection}
    {e : EdgeData} (h : e ∈ g.edgesOf p d) : p < g.size := by
  by_contra hlt
  rw [DirectedGraph.edgesOf_of_size_le (Nat.le_of_not_lt hlt)] at h
  simp at h

theorem DirectedGraph.vertexAt_eq_ok {g : DirectedGraph D} {p : Nat} {v : Vertex D} :
    g.vertexAt p = .ok v ↔ g.m_vertexTable[p]? = some v := by
  unfold DirectedGraph.vertexAt
  cases g.m_vertexTable[p]? <;> simp

theorem DirectedGraph.vertexAt_of_lt {g : DirectedGraph D} {p : Nat} (h : p < g.size) :
    ∃ v, g.vertexAt p = .ok v ∧ g.m_vertexTable[p]? = some v ∧
      ∀ d, g.edgesOf p d = v.m_edges d := by
  refine ⟨g.m_vertexTable[p], ?_, List.getElem?_eq_getElem h, ?_⟩
  · rw [DirectedGraph.vertexAt_eq_ok]; exact List.getElem?_eq_getElem h
  · intro d; unfold DirectedGraph.edgesOf; rw [List.getElem?_eq_getElem h]

theorem DirectedGraph.lt_size_of_getElem? {g : DirectedGraph D} {p : Nat} {v : Vertex D}
    (h : g.m_vertexTable[p]? = some v) : p < g.size := by
  by_contra hlt
  rw [List.getElem?_eq_none (Nat.le_of_not_lt hlt)] at h
  cases h

/-- When `removeEdgeAt` completes. -/
theorem DirectedGraph.removeEdgeAt_eq_ok {g g' : DirectedGraph D}
    {it : Option (Nat × extDirection)} {p t : Nat} {d : extDirection} {r : Bool} :
    g.removeEdgeAt it p t d r = .ok g' ↔
      (⟨t, r⟩ : EdgeData) ∈ g.edgesOf p d ∧ it ≠ some (p, d) ∧
        g' = g.mapEdges p d (fun l => l.erase ⟨t, r⟩) := by
  unfold DirectedGraph.removeEdgeAt DirectedGraph.vertexAt DirectedGraph.mapEdges
    DirectedGraph.edgesOf Vertex.removeEdge Vertex.getEdge
  cases hp : g.m_vertexTable[p]? with
  | none => simp
  | some v =>
    simp only []
    cases hf : findEdge ⟨t, r⟩ (v.m_edges d) with
    | none =>
      have := findEdge_eq_none.mp hf
      simp [this]
    | some i =>
      have hmem : (⟨t, r⟩ : EdgeData) ∈ v.m_edges d := findEdge_isSome.mp ⟨i, hf⟩
      simp only [eraseIdx_findEdge hf, hmem, true_and]
      by_cases hit : it = some (p, d)
      · simp [hit]
      · simp only [hit, if_false, Except.ok.injEq, ne_eq, not_false_eq_true, true_and]
        exact eq_comm

/-- When `addEdgeAt` completes. -/
theorem DirectedGraph.addEdgeAt_eq_ok {g g' : DirectedGraph D}
    {it : Option (Nat × extDirection)} {p t : Nat} {d : extDirection} {r : Bool} :
    g.addEdgeAt it p t d r = .ok g' ↔
      p < g.size ∧ (⟨t, r⟩ : EdgeData) ∉ g.edgesOf p d ∧ it ≠ some (p, d) ∧
        g' = g.mapEdges p d (fun l => l ++ [⟨t, r⟩]) := by
  unfold DirectedGraph.addEdgeAt DirectedGraph.vertexAt DirectedGraph.mapEdges
    DirectedGraph.edgesOf Vertex.addEdge
  cases hp : g.m_vertexTable[p]? with
  | none =>
    have : ¬ p < g.size := fun h => by
      unfold DirectedGraph.size at h
      simp [List.getElem?_eq_getElem h] at hp
    simp [this]
  | some v =>
    have hlt := DirectedGraph.lt_size_of_getElem? hp
    simp only [hlt, true_and]
    by_cases hmem : (⟨t, r⟩ : EdgeData) ∈ v.m_edges d
    · have : (v.m_edges d).any (fun e => decide (e = ⟨t, r⟩)) = true := by
        simpa using hmem
      simp [this, hmem]
    · have : (v.m_edges d).any (fun e => decide (e = ⟨t, r⟩)) = false := by
        simp only [List.any_eq_false, decide_eq_true_eq]
        intro x hx hxe
        exact hmem (hxe ▸ hx)
      simp only [this, hmem, not_false_eq_true, true_and]
      by_cases hit : it = some (p, d)
      · simp [hit]
      · simp only [hit, if_false, Except.ok.injEq, ne_eq, not_false_eq_true, true_and,
          Bool.false_eq_true]
        exact eq_comm

/-! ## Twin directions -/

@[simp] theorem extDirection.flip_flip (d : extDirection) : d.flip.flip = d := by
  cases d <;> rfl

@[simp] theorem extDirection.flip_ne (d : extDirection) : d.flip ≠ d := by
  cases d <;> simp [extDirection.flip]

@[simp] theorem extDirection.ne_flip (d : extDirection) : d ≠ d.flip := by
  cases d <;> simp [extDirection.flip]

@[simp] theorem getTwinDir_getTwinDir (d : extDirection) (r : Bool) :
    getTwinDir (getTwinDir d r) r = d := by
  cases r <;> simp [getTwinDir]

theorem getTwinDir_eq_iff (d d' : extDirection) (r : Bool) :
    getTwinDir d r = d' ↔ getTwinDir d' r = d := by
  constructor <;> (intro h; rw [← h, getTwinDir_getTwinDir])

theorem getTwinDir_injective {d d' : extDirection} {r : Bool}
    (h : getTwinDir d r = getTwinDir d' r) : d = d' := by
  cases r <;> cases d <;> cases d' <;> simp [getTwinDir, extDirection.flip] at h ⊢

theorem getTwinDir_eq_ite (d : extDirection) (r : Bool) :
    (if r = true then d else d.flip) = getTwinDir d r := rfl

/-! ## Invariants on graphs -/

theorem NoDuplicates.nodup {g : DirectedGraph D} (h : NoDuplicates g) (p : Nat)
    (d : extDirection) : (g.edgesOf p d).Nodup := by
  by_cases hp : p < g.size
  · exact h p hp d
  · rw [DirectedGraph.edgesOf_of_size_le (Nat.le_of_not_lt hp)]
    exact List.nodup_nil

theorem noDuplicates_of_forall {g : DirectedGraph D}
    (h : ∀ p d, (g.edgesOf p d).Nodup) : NoDuplicates g :=
  fun p _ d => h p d

theorem Reciprocal.mem {g : DirectedGraph D} (h : Reciprocal g) {p : Nat} {d : extDirection}
    {e : EdgeData} (he : e ∈ g.edgesOf p d) :
    (⟨p, e.reverse⟩ : EdgeData) ∈ g.edgesOf e.pVertex (getTwinDir d e.reverse) :=
  h p (DirectedGraph.lt_size_of_mem he) d e he

theorem NoSelfLoops.ne {g : DirectedGraph D} (h : NoSelfLoops g) {p : Nat} {d : extDirection}
    {e : EdgeData} (he : e ∈ g.edgesOf p d) : e.pVertex ≠ p :=
  h p (DirectedGraph.lt_size_of_mem he) d e he

/-! ## Removing the reciprocals of a list of edges -/

theorem isReciprocalOf_nil (v : Nat) (d : extDirection) (p' : Nat) (d' : extDirection)
    (e' : EdgeData) : isReciprocalOf v d [] p' d' e' = false := by
  simp [isReciprocalOf]

theorem isReciprocalOf_eq_true {v : Nat} {d : extDirection} {es : List EdgeData} {p' : Nat}
    {d' : extDirection} {e' : EdgeData} :
    isReciprocalOf v d es p' d' e' = true ↔
      e'.pVertex = v ∧ (⟨p', e'.reverse⟩ : EdgeData) ∈ es ∧ getTwinDir d e'.reverse = d' := by
  simp [isReciprocalOf]

/-- What a completed run of the loop `removeReciprocals` leaves behind: table
size, keys and payloads are untouched and every collection has lost exactly the
reciprocals of the listed edges. -/
theorem removeReciprocals_ok {g g' : DirectedGraph D} {v : Nat} {d : extDirection}
    {es : List EdgeData} (hnd : NoDuplicates g)
    (h : removeReciprocals g v d es = .ok g') :
    g'.size = g.size ∧ (∀ q, g'.labelOf q = g.labelOf q) ∧
      ∀ p' d', g'.edgesOf p' d' =
        (g.edgesOf p' d').filter (fun e' => !(isReciprocalOf v d es p' d' e')) := by
  induction es generalizing g with
  | nil =>
    simp only [removeReciprocals, Except.ok.injEq] at h
    subst h
    simp [isReciprocalOf_nil]
  | cons e rest ih =>
    simp only [removeReciprocals] at h
    split at h
    · cases h
    · rename_i g1 h1
      rw [getTwinDir_eq_ite, DirectedGraph.removeEdgeAt_eq_ok] at h1
      obtain ⟨hmem, -, rfl⟩ := h1
      have hlt := DirectedGraph.lt_size_of_mem hmem
      have hnd1 : NoDuplicates (g.mapEdges e.pVertex (getTwinDir d e.reverse)
          (fun l => l.erase ⟨v, e.reverse⟩)) := by
        apply noDuplicates_of_forall
        intro p d1
        rw [DirectedGraph.edgesOf_mapEdges]
        split
        · exact (hnd.nodup _ _).erase _
        · exact hnd.nodup _ _
      obtain ⟨hs, hl, he⟩ := ih hnd1 h
      refine ⟨by rw [hs, DirectedGraph.size_mapEdges], ?_, ?_⟩
      · intro q; rw [hl, DirectedGraph.labelOf_mapEdges]
      · intro p' d'
        rw [he, DirectedGraph.edgesOf_mapEdges]
        by_cases hc : p' = e.pVertex ∧ d' = getTwinDir d e.reverse ∧ e.pVertex < g.size
        · rw [if_pos hc]
          obtain ⟨rfl, rfl, -⟩ := hc
          rw [(hnd.nodup _ _).erase_eq_filter, List.filter_filter]
          apply List.filter_congr
          intro x _
          rw [Bool.eq_iff_iff]
          simp only [Bool.and_eq_true, Bool.not_eq_true', bne_iff_ne, ne_eq,
            ← Bool.not_eq_true, isReciprocalOf_eq_true, List.mem_cons]
          constructor
          · rintro ⟨h1, h2⟩ ⟨h3, h4, h5⟩
            rcases h4 with h4 | h4
            · apply h2
              cases x; cases e
              simp only [EdgeData.mk.injEq] at h4 h3 ⊢
              exact ⟨h3, h4.2⟩
            · exact h1 ⟨h3, h4, h5⟩
          · intro h1
            refine ⟨fun ⟨h3, h4, h5⟩ => h1 ⟨h3, Or.inr h4, h5⟩, ?_⟩
            rintro rfl
            exact h1 ⟨rfl, Or.inl rfl, rfl⟩
        · rw [if_neg hc]
          apply List.filter_congr
          intro x _
          rw [Bool.eq_iff_iff]
          simp only [Bool.not_eq_true', ← Bool.not_eq_true, isReciprocalOf_eq_true,
            List.mem_cons]
          constructor
          · rintro h1 ⟨h3, h4, h5⟩
            rcases h4 with h4 | h4
            · apply hc
              cases e
              simp only [EdgeData.mk.injEq] at h4
              obtain ⟨rfl, rfl⟩ := h4
              exact ⟨rfl, h5.symm, hlt⟩
            · exact h1 ⟨h3, h4, h5⟩
          · exact fun h1 ⟨h3, h4, h5⟩ => h1 ⟨h3, Or.inr h4, h5⟩

/-- The loop `removeReciprocals` completes when the listed edges are distinct,
none of them targets the vertex itself and each has its reciprocal. -/
theorem removeReciprocals_completes {g : DirectedGraph D} {v : Nat} {d : extDirection}
    {es : List EdgeData} (hes : es.Nodup) (hself : ∀ e ∈ es, e.pVertex ≠ v)
    (hrec : ∀ e ∈ es, (⟨v, e.reverse⟩ : EdgeData) ∈
      g.edgesOf e.pVertex (getTwinDir d e.reverse)) :
    ∃ g', removeReciprocals g v d es = .ok g' := by
  induction es generalizing g with
  | nil => exact ⟨g, rfl⟩
  | cons e rest ih =>
    have hmem := hrec e (List.mem_cons_self _ _)
    have hne : (some (v, d) : Option (Nat × extDirection)) ≠
        some (e.pVertex, getTwinDir d e.reverse) := by
      intro hc
      simp only [Option.some.injEq, Prod.mk.injEq] at hc
      exact hself e (List.mem_cons_self _ _) hc.1.symm
    have h1 : g.removeEdgeAt (some (v, d)) e.pVertex v (getTwinDir d e.reverse) e.reverse =
        .ok (g.mapEdges e.pVertex (getTwinDir d e.reverse) (fun l => l.erase ⟨v, e.reverse⟩)) :=
      DirectedGraph.removeEdgeAt_eq_ok.mpr ⟨hmem, hne, rfl⟩
    simp only [removeReciprocals, getTwinDir_eq_ite, h1]
    apply ih (List.nodup_cons.mp hes).2
    · exact fun x hx => hself x (List.mem_cons_of_mem _ hx)
    · intro x hx
      rw [DirectedGraph.edgesOf_mapEdges]
      split
      · rename_i hc
        have hx' := hrec x (List.mem_cons_of_mem _ hx)
        rw [hc.1, hc.2.1] at hx'
        refine (List.mem_erase_of_ne ?_).mpr hx'
        intro heq
        simp only [EdgeData.mk.injEq, true_and] at heq
        have : x = e := by
          cases x; cases e
          simp only [EdgeData.mk.injEq]
          exact ⟨hc.1, heq⟩
        exact (List.nodup_cons.mp hes).1 (this ▸ hx)
      · exact hrec x (List.mem_cons_of_mem _ hx)

/-! ## The absorbing loop of `merge` -/

theorem DirectedGraph.edgesOf_mapEdges_append (g : DirectedGraph D) {p : Nat}
    (hp : p < g.size) (d : extDirection) (x : EdgeData) (p' : Nat) (d' : extDirection) :
    (g.mapEdges p d (fun l => l ++ [x])).edgesOf p' d' =
      g.edgesOf p' d' ++ (if p' = p ∧ d' = d then [x] else []) := by
  rw [DirectedGraph.edgesOf_mapEdges]
  by_cases hc : p' = p ∧ d' = d
  · obtain ⟨rfl, rfl⟩ := hc
    simp [hp]
  · have : ¬ (p' = p ∧ d' = d ∧ p < g.size) := fun h => hc ⟨h.1, h.2.1⟩
    simp [hc, this]

/-- The edges that the absorbing loop of `merge` appends to the collection
`m_edges[d']` of the vertex `p'`. -/
theorem absorbChildEdges_ok {g g' : DirectedGraph D} {pParent pChild : Nat}
    {parentsDir cud : extDirection} {parentsReverse : Bool} {ces : List EdgeData}
    (hnd : NoDuplicates g)
    (h : absorbChildEdges g pParent pChild parentsDir cud parentsReverse ces = .ok g') :
    g'.size = g.size ∧ (∀ q, g'.labelOf q = g.labelOf q) ∧ NoDuplicates g' ∧
      ∀ p' d', g'.edgesOf p' d' = g.edgesOf p' d' ++
        ces.flatMap (fun ce =>
          (if p' = pParent ∧ d' = parentsDir then
            [(⟨ce.pVertex, parentsReverse != ce.reverse⟩ : EdgeData)] else []) ++
          (if p' = ce.pVertex ∧ d' = getTwinDir parentsDir (parentsReverse != ce.reverse) then
            [(⟨pParent, parentsReverse != ce.reverse⟩ : EdgeData)] else [])) := by
  induction ces generalizing g with
  | nil =>
    simp only [absorbChildEdges, Except.ok.injEq] at h
    subst h
    simp [hnd]
  | cons ce rest ih =>
    simp only [absorbChildEdges] at h
    split at h
    · cases h
    · rename_i g1 h1
      split at h
      · cases h
      · rename_i g2 h2
        rw [DirectedGraph.addEdgeAt_eq_ok] at h1
        obtain ⟨hlt1, hn1, -, rfl⟩ := h1
        rw [getTwinDir_eq_ite, DirectedGraph.addEdgeAt_eq_ok] at h2
        obtain ⟨hlt2, hn2, -, rfl⟩ := h2
        rw [DirectedGraph.size_mapEdges] at hlt2
        have hnd1 : NoDuplicates (g.mapEdges pParent parentsDir
            (fun l => l ++ [⟨ce.pVertex, parentsReverse != ce.reverse⟩])) := by
          apply noDuplicates_of_forall
          intro p d1
          rw [DirectedGraph.edgesOf_mapEdges]
          split
          · exact List.Nodup.append (hnd.nodup _ _) (List.nodup_singleton _)
              (by simpa using hn1)
          · exact hnd.nodup _ _
        have hnd2 : NoDuplicates ((g.mapEdges pParent parentsDir
            (fun l => l ++ [⟨ce.pVertex, parentsReverse != ce.reverse⟩])).mapEdges ce.pVertex
            (getTwinDir parentsDir (parentsReverse != ce.reverse))
            (fun l => l ++ [⟨pParent, parentsReverse != ce.reverse⟩])) := by
          apply noDuplicates_of_forall
          intro p d1
          rw [DirectedGraph.edgesOf_mapEdges]
          split
          · exact List.Nodup.append (hnd1.nodup _ _) (List.nodup_singleton _)
              (by simpa using hn2)
          · exact hnd1.nodup _ _
        obtain ⟨hs, hl, hnd', he⟩ := ih hnd2 h
        refine ⟨?_, ?_, hnd', ?_⟩
        · rw [hs, DirectedGraph.size_mapEdges, DirectedGraph.size_mapEdges]
        · intro q
          rw [hl, DirectedGraph.labelOf_mapEdges, DirectedGraph.labelOf_mapEdges]
        · intro p' d'
          rw [he, DirectedGraph.edgesOf_mapEdges_append _ (by rwa [DirectedGraph.size_mapEdges]),
            DirectedGraph.edgesOf_mapEdges_append _ hlt1, List.flatMap_cons]
          simp only [List.append_assoc]

/-! ## Reciprocity through the steps of `merge` -/

theorem reciprocal_of_forall {g : DirectedGraph D}
    (h : ∀ p d e, e ∈ g.edgesOf p d →
      (⟨p, e.reverse⟩ : EdgeData) ∈ g.edgesOf e.pVertex (getTwinDir d e.reverse)) :
    Reciprocal g :=
  fun p _ d e he => h p d e he

theorem DirectedGraph.clearEdges_eq_mapEdges (g : DirectedGraph D) (p : Nat)
    (d : extDirection) : g.clearEdges p d = g.mapEdges p d (fun _ => []) := rfl

theorem DirectedGraph.edgesOf_clearEdges (g : DirectedGraph D) (p : Nat) (d : extDirection)
    (p' : Nat) (d' : extDirection) :
    (g.clearEdges p d).edgesOf p' d' = if p' = p ∧ d' = d then [] else g.edgesOf p' d' := by
  rw [DirectedGraph.clearEdges_eq_mapEdges, DirectedGraph.edgesOf_mapEdges]
  by_cases hc : p' = p ∧ d' = d
  · obtain ⟨rfl, rfl⟩ := hc
    by_cases hp : p' < g.size
    · simp [hp]
    · simp [hp, DirectedGraph.edgesOf_of_size_le (Nat.le_of_not_lt hp)]
  · have : ¬ (p' = p ∧ d' = d ∧ p < g.size) := fun h => hc ⟨h.1, h.2.1⟩
    simp [hc, this]

theorem DirectedGraph.size_clearEdges (g : DirectedGraph D) (p : Nat) (d : extDirection) :
    (g.clearEdges p d).size = g.size := by
  rw [DirectedGraph.clearEdges_eq_mapEdges, DirectedGraph.size_mapEdges]

theorem DirectedGraph.labelOf_clearEdges (g : DirectedGraph D) (p : Nat) (d : extDirection)
    (q : Nat) : (g.clearEdges p d).labelOf q = g.labelOf q := by
  rw [DirectedGraph.clearEdges_eq_mapEdges, DirectedGraph.labelOf_mapEdges]

theorem DirectedGraph.edgesOf_setData (g : DirectedGraph D) (p : Nat) (data : D) (p' : Nat)
    (d' : extDirection) : (g.setData p data).edgesOf p' d' = g.edgesOf p' d' := by
  unfold DirectedGraph.setData DirectedGraph.edgesOf
  cases hp : g.m_vertexTable[p]? with
  | none => simp [hp]
  | some v =>
    have hlt := DirectedGraph.lt_size_of_getElem? hp
    unfold DirectedGraph.size at hlt
    simp only [DirectedGraph.setVertex, List.getElem?_set, hlt]
    by_cases h1 : p = p'
    · subst h1; simp [hp]; cases d' <;> rfl
    · simp [h1]

theorem DirectedGraph.size_setData (g : DirectedGraph D) (p : Nat) (data : D) :
    (g.setData p data).size = g.size := by
  unfold DirectedGraph.setData DirectedGraph.size
  cases hp : g.m_vertexTable[p]? <;> simp [DirectedGraph.setVertex]

theorem DirectedGraph.labelOf_setData (g : DirectedGraph D) (p : Nat) (data : D) (q : Nat) :
    (g.setData p data).labelOf q =
      if q = p then (g.labelOf p).map (fun kd => (kd.1, data)) else g.labelOf q := by
  unfold DirectedGraph.setData DirectedGraph.labelOf
  cases hp : g.m_vertexTable[p]? with
  | none =>
    by_cases h1 : q = p
    · subst h1; simp [hp]
    · simp [h1]
  | some v =>
    have hlt := DirectedGraph.lt_size_of_getElem? hp
    unfold DirectedGraph.size at hlt
    simp only [DirectedGraph.setVertex, List.getElem?_set, hlt]
    by_cases h1 : q = p
    · subst h1; simp
    · simp [h1, Ne.symm h1]

theorem noDuplicates_congr {g g' : DirectedGraph D} (h : NoDuplicates g)
    (he : ∀ p d, g'.edgesOf p d = g.edgesOf p d) : NoDuplicates g' :=
  noDuplicates_of_forall fun p d => by rw [he]; exact h.nodup p d

theorem reciprocal_congr {g g' : DirectedGraph D} (h : Reciprocal g)
    (he : ∀ p d, g'.edgesOf p d = g.edgesOf p d) : Reciprocal g' :=
  reciprocal_of_forall fun p d e hmem => by
    rw [he] at hmem ⊢
    exact h.mem hmem

/-- Detaching a vertex from one direction (removing the reciprocals of all its
edges there and clearing the collection) keeps the graph reciprocal. -/
theorem Reciprocal.detach {g g2 : DirectedGraph D} {v : Nat} {d : extDirection}
    (hrec : Reciprocal g) (hnd : NoDuplicates g)
    (h : removeReciprocals g v d (g.edgesOf v d) = .ok g2) :
    Reciprocal (g2.clearEdges v d) ∧ NoDuplicates (g2.clearEdges v d) := by
  obtain ⟨-, -, he⟩ := removeReciprocals_ok hnd h
  constructor
  · apply reciprocal_of_forall
    intro p d' e hmem
    rw [DirectedGraph.edgesOf_clearEdges] at hmem ⊢
    split at hmem
    · simp at hmem
    · rename_i hc
      rw [he, List.mem_filter] at hmem
      obtain ⟨hin, hnr⟩ := hmem
      simp only [Bool.not_eq_true', ← Bool.not_eq_true, isReciprocalOf_eq_true] at hnr
      have hback := hrec.mem hin
      rw [if_neg, he, List.mem_filter]
      · refine ⟨hback, ?_⟩
        simp only [Bool.not_eq_true', ← Bool.not_eq_true, isReciprocalOf_eq_true]
        rintro ⟨h1, -, h3⟩
        exact hc ⟨h1, (getTwinDir_injective h3).symm⟩
      · rintro ⟨h1, h2⟩
        apply hnr
        refine ⟨h1, ?_, (getTwinDir_eq_iff _ _ _).mp h2⟩
        rw [h1, h2] at hback
        exact hback
  · apply noDuplicates_of_forall
    intro p d'
    rw [DirectedGraph.edgesOf_clearEdges]
    split
    · exact List.nodup_nil
    · rw [he]
      exact (hnd.nodup p d').filter _

/-- The absorbing loop of `merge` keeps the graph reciprocal. -/
theorem Reciprocal.absorb {g g' : DirectedGraph D} {pParent pChild : Nat}
    {parentsDir cud : extDirection} {parentsReverse : Bool} {ces : List EdgeData}
    (hrec : Reciprocal g) (hnd : NoDuplicates g)
    (h : absorbChildEdges g pParent pChild parentsDir cud parentsReverse ces = .ok g') :
    Reciprocal g' := by
  obtain ⟨-, -, -, he⟩ := absorbChildEdges_ok hnd h
  apply reciprocal_of_forall
  intro p d e hmem
  rw [he, List.mem_append, List.mem_flatMap] at hmem
  rw [he, List.mem_append, List.mem_flatMap]
  rcases hmem with hmem | ⟨ce, hce, hmem⟩
  · exact Or.inl (hrec.mem hmem)
  · right
    refine ⟨ce, hce, ?_⟩
    rw [List.mem_append] at hmem ⊢
    rcases hmem with hmem | hmem
    · split at hmem
      · rename_i hc
        obtain ⟨rfl, rfl⟩ := hc
        simp only [List.mem_singleton] at hmem
        subst hmem
        right
        simp
      · simp at hmem
    · split at hmem
      · rename_i hc
        obtain ⟨rfl, rfl⟩ := hc
        simp only [List.mem_singleton] at hmem
        subst hmem
        left
        simp
      · simp at hmem

/-! ## `removeVertex` -/

/-- What a completed `removeVertex` leaves behind. -/
theorem DirectedGraph.removeVertex_ok {g g' : DirectedGraph D} {v : Nat}
    (hnd : NoDuplicates g) (h : g.removeVertex v = .ok g') :
    g'.size = g.size ∧ (∀ q, g'.labelOf q = g.labelOf q) ∧
      ∀ p' d', g'.edgesOf p' d' = (g.edgesOf p' d').filter (fun e' =>
        !(isReciprocalOf v .SENSE (g.edgesOf v .SENSE) p' d' e') &&
        !(isReciprocalOf v .ANTISENSE
            ((g.edgesOf v .ANTISENSE).filter (fun e =>
              !(isReciprocalOf v .SENSE (g.edgesOf v .SENSE) v .ANTISENSE e))) p' d' e')) := by
  unfold DirectedGraph.removeVertex at h
  split at h
  · cases h
  · rename_i g1 h1
    obtain ⟨hs1, hl1, he1⟩ := removeReciprocals_ok hnd h1
    have hnd1 : NoDuplicates g1 :=
      noDuplicates_of_forall fun p d => by rw [he1]; exact (hnd.nodup p d).filter _
    obtain ⟨hs2, hl2, he2⟩ := removeReciprocals_ok hnd1 h
    refine ⟨hs2.trans hs1, fun q => (hl2 q).trans (hl1 q), ?_⟩
    intro p' d'
    rw [he2, he1, he1, List.filter_filter]
    apply List.filter_congr
    intro x _
    rw [Bool.and_comm]

/-- After `removeVertex(v)` on a reciprocal graph every other vertex has lost
exactly its edges to `v`. -/
theorem DirectedGraph.removeVertex_edges_other {g g' : DirectedGraph D} {v : Nat}
    (hrec : Reciprocal g) (hnd : NoDuplicates g) (h : g.removeVertex v = .ok g')
    {u : Nat} (hu : u ≠ v) (d : extDirection) :
    g'.edgesOf u d = (g.edgesOf u d).filter (fun e => decide (e.pVertex ≠ v)) := by
  obtain ⟨-, -, he⟩ := DirectedGraph.removeVertex_ok hnd h
  rw [he]
  apply List.filter_congr
  intro x hx
  rw [Bool.eq_iff_iff]
  simp only [Bool.and_eq_true, Bool.not_eq_true', ← Bool.not_eq_true, isReciprocalOf_eq_true,
    decide_eq_true_eq, ne_eq, List.mem_filter]
  constructor
  · rintro ⟨h1, h2⟩ hxv
    have hback := hrec.mem hx
    rw [hxv] at hback
    cases htw : getTwinDir d x.reverse with
    | SENSE =>
      rw [htw] at hback
      exact h1 ⟨hxv, hback, (getTwinDir_eq_iff _ _ _).mp htw⟩
    | ANTISENSE =>
      rw [htw] at hback
      refine h2 ⟨hxv, ⟨hback, ?_⟩, (getTwinDir_eq_iff _ _ _).mp htw⟩
      rintro ⟨h3, -⟩
      exact hu h3
  · intro hxv
    exact ⟨fun hc => hxv hc.1, fun hc => hxv hc.1⟩

/-- The vertex removed by `removeVertex` keeps its own collections when it has
no edge to itself. -/
theorem DirectedGraph.removeVertex_edges_self {g g' : DirectedGraph D} {v : Nat}
    (hnd : NoDuplicates g) (hself : NoSelfLoopAt g v) (h : g.removeVertex v = .ok g')
    (d : extDirection) : g'.edgesOf v d = g.edgesOf v d := by
  obtain ⟨-, -, he⟩ := DirectedGraph.removeVertex_ok hnd h
  rw [he, List.filter_eq_self]
  intro x hx
  have := hself d x hx
  simp only [Bool.and_eq_true, Bool.not_eq_true', ← Bool.not_eq_true, isReciprocalOf_eq_true]
  exact ⟨fun hc => this hc.1, fun hc => this hc.1⟩

/-- On a reciprocal graph without duplicates `removeVertex(v)` completes when
`v` has no edge to itself. -/
theorem DirectedGraph.removeVertex_completes {g : DirectedGraph D} {v : Nat}
    (hrec : Reciprocal g) (hnd : NoDuplicates g) (hself : NoSelfLoopAt g v) :
    ∃ g', g.removeVertex v = .ok g' := by
  obtain ⟨g1, h1⟩ := @removeReciprocals_completes D g v .SENSE (g.edgesOf v .SENSE)
    (hnd.nodup v .SENSE) (fun e he => hself _ e he) (fun e he => hrec.mem he)
  obtain ⟨-, -, he1⟩ := removeReciprocals_ok hnd h1
  have hown : ∀ d, g1.edgesOf v d = g.edgesOf v d := by
    intro d
    rw [he1, List.filter_eq_self]
    intro x hx
    simp only [Bool.not_eq_true', ← Bool.not_eq_true, isReciprocalOf_eq_true]
    exact fun hc => hself d x hx hc.1
  obtain ⟨g2, h2⟩ := @removeReciprocals_completes D g1 v .ANTISENSE
    (g1.edgesOf v .ANTISENSE)
    (by rw [hown]; exact hnd.nodup v .ANTISENSE)
    (fun e he => hself .ANTISENSE e (by rwa [hown] at he))
    (by
      intro e he
      rw [hown] at he
      rw [he1, List.mem_filter]
      refine ⟨hrec.mem he, ?_⟩
      simp only [Bool.not_eq_true', ← Bool.not_eq_true, isReciprocalOf_eq_true]
      rintro ⟨-, -, h3⟩
      have := getTwinDir_injective h3
      cases this)
  exact ⟨g2, by unfold DirectedGraph.removeVertex; rw [h1]; exact h2⟩

/-- After `removeVertex(v)` on a reciprocal graph every vertex other than `v`
still has the reciprocal of each of its edges. -/
theorem DirectedGraph.removeVertex_reciprocal {g g' : DirectedGraph D} {v : Nat}
    (hrec : Reciprocal g) (hnd : NoDuplicates g) (h : g.removeVertex v = .ok g')
    {u : Nat} (hu : u ≠ v) {d : extDirection} {e : EdgeData} (he : e ∈ g'.edgesOf u d) :
    (⟨u, e.reverse⟩ : EdgeData) ∈ g'.edgesOf e.pVertex (getTwinDir d e.reverse) := by
  obtain ⟨-, -, hedges⟩ := DirectedGraph.removeVertex_ok hnd h
  rw [hedges, List.mem_filter] at he
  rw [hedges, List.mem_filter]
  refine ⟨hrec.mem he.1, ?_⟩
  simp only [Bool.and_eq_true, Bool.not_eq_true', ← Bool.not_eq_true, isReciprocalOf_eq_true]
  exact ⟨fun hc => hu hc.1, fun hc => hu hc.1⟩

/-! ## `merge` -/

/-- The steps of a completed `merge`. -/
theorem DirectedGraph.merge_eq_ok {M : Type} {g : DirectedGraph D} {pParent pChild : Nat}
    {parentsDir : extDirection} {parentsReverse removeChild usableChild : Bool}
    {dataMerger : DataMerger D M} {m : M} {r : Bool × DirectedGraph D × M}
    (h : g.merge pParent pChild parentsDir parentsReverse removeChild usableChild
      dataMerger m = .ok r) :
    ∃ parent child g2 g4,
      g.m_vertexTable[pParent]? = some parent ∧ g.m_vertexTable[pChild]? = some child ∧
      (⟨pParent, parentsReverse⟩ : EdgeData) ∈
        g.edgesOf pChild (getTwinDir parentsDir parentsReverse) ∧
      removeReciprocals
        (g.setData pParent (dataMerger.merge m parent.m_key parent.m_data child.m_key
          child.m_data parentsDir parentsReverse removeChild usableChild).2)
        pParent parentsDir (g.edgesOf pParent parentsDir) = .ok g2 ∧
      absorbChildEdges (g2.clearEdges pParent parentsDir) pParent pChild parentsDir
        (getTwinDir parentsDir parentsReverse).flip parentsReverse
        ((g2.clearEdges pParent parentsDir).edgesOf pChild
          (getTwinDir parentsDir parentsReverse).flip) = .ok g4 ∧
      r.1 = true ∧
      r.2.2 = (dataMerger.merge m parent.m_key parent.m_data child.m_key
          child.m_data parentsDir parentsReverse removeChild usableChild).1 ∧
      (if removeChild = true then g4.removeVertex pChild = .ok r.2.1 else r.2.1 = g4) := by
  unfold DirectedGraph.merge at h
  split at h
  · cases h
  rename_i parent hparent
  split at h
  · cases h
  rename_i child hchild
  simp only [getTwinDir_eq_ite] at h
  split at h
  · cases h
  rename_i i hfind
  split at h
  · cases h
  rename_i g2 hg2
  split at h
  · cases h
  rename_i g4 hg4
  rw [DirectedGraph.vertexAt_eq_ok] at hparent hchild
  refine ⟨parent, child, g2, g4, hparent, hchild, ?_, ?_, hg4, ?_⟩
  · have : g.edgesOf pChild (getTwinDir parentsDir parentsReverse) =
        child.m_edges (getTwinDir parentsDir parentsReverse) := by
      unfold DirectedGraph.edgesOf; rw [hchild]
    rw [this]
    exact findEdge_isSome.mp ⟨i, hfind⟩
  · rw [DirectedGraph.edgesOf_setData] at hg2
    exact hg2
  · cases removeChild with
    | true =>
      simp only [if_true] at h ⊢
      split at h
      · cases h
      · rename_i g5 hg5
        cases h
        exact ⟨rfl, rfl, hg5⟩
    | false =>
      simp only [Bool.false_eq_true, if_false, Except.ok.injEq] at h ⊢
      cases h
      exact ⟨rfl, rfl, rfl⟩

/-- The graph just before the last step of a completed `merge` (the removal of
the child) is reciprocal and has no duplicate edges. -/
theorem DirectedGraph.merge_before_removal {M : Type} {g : DirectedGraph D}
    {pParent pChild : Nat} {parentsDir : extDirection}
    {parentsReverse removeChild usableChild : Bool}
    {dataMerger : DataMerger D M} {m : M} {r : Bool × DirectedGraph D × M}
    (hrec : Reciprocal g) (hnd : NoDuplicates g)
    (h : g.merge pParent pChild parentsDir parentsReverse removeChild usableChild
      dataMerger m = .ok r) :
    ∃ g4, Reciprocal g4 ∧ NoDuplicates g4 ∧
      (if removeChild = true then g4.removeVertex pChild = .ok r.2.1 else r.2.1 = g4) := by
  obtain ⟨parent, child, g2, g4, -, -, -, hg2, hg4, -, -, hlast⟩ :=
    DirectedGraph.merge_eq_ok h
  have hrec1 := reciprocal_congr hrec (DirectedGraph.edgesOf_setData g pParent
    (dataMerger.merge m parent.m_key parent.m_data child.m_key child.m_data parentsDir
      parentsReverse removeChild usableChild).2)
  have hnd1 := noDuplicates_congr hnd (DirectedGraph.edgesOf_setData g pParent
    (dataMerger.merge m parent.m_key parent.m_data child.m_key child.m_data parentsDir
      parentsReverse removeChild usableChild).2)
  rw [← DirectedGraph.edgesOf_setData g pParent (dataMerger.merge m parent.m_key parent.m_data
    child.m_key child.m_data parentsDir parentsReverse removeChild usableChild).2] at hg2
  obtain ⟨hrec3, hnd3⟩ := hrec1.detach hnd1 hg2
  exact ⟨g4, hrec3.absorb hnd3 hg4, (absorbChildEdges_ok hnd3 hg4).2.2.1, hlast⟩

/-- C1: `merge` preserves reciprocity. On a reciprocal graph without duplicate
and self-loop edges, after a completed `merge(parent, child, parentDir,
parentReverse, removeChild, merger)` with `parent != child` along an edge the
parent holds, every edge `(w, r)` in `v.edges[d]` of every vertex `v`, the
removed child excepted, has its reciprocal `(v, r)` in `w.edges[r ? d : flip d]`. -/
theorem merge_preserves_reciprocity {M : Type} (g : DirectedGraph D) (pParent pChild : Nat)
    (parentsDir : extDirection) (parentsReverse removeChild usableChild : Bool)
    (dataMerger : DataMerger D M) (m : M) (r : Bool × DirectedGraph D × M)
    (hrec : Reciprocal g) (hnd : NoDuplicates g) (_hself : NoSelfLoops g)
    (_hne : pParent ≠ pChild)
    (_hedge : (⟨pChild, parentsReverse⟩ : EdgeData) ∈ g.edgesOf pParent parentsDir)
    (h : g.merge pParent pChild parentsDir parentsReverse removeChild usableChild
      dataMerger m = .ok r) :
    ∀ v d, (removeChild = true → v ≠ pChild) → ∀ e ∈ r.2.1.edgesOf v d,
      (⟨v, e.reverse⟩ : EdgeData) ∈ r.2.1.edgesOf e.pVertex (getTwinDir d e.reverse) := by
  obtain ⟨g4, hrec4, hnd4, hlast⟩ := DirectedGraph.merge_before_removal hrec hnd h
  intro v d hv e he
  cases removeChild with
  | true =>
    simp only [if_true] at hlast
    exact DirectedGraph.removeVertex_reciprocal hrec4 hnd4 hlast (hv rfl) he
  | false =>
    simp only [Bool.false_eq_true, if_false] at hlast
    rw [hlast] at he ⊢
    exact hrec4.mem he

/-- C1, at the chain `0 -> 1 -> 2`: merging vertex 1 into vertex 0, both with
and without removal of the child. -/
theorem merge_preserves_reciprocity_witness :
    Reciprocal chain3 ∧ NoDuplicates chain3 ∧ NoSelfLoops chain3 ∧
    (∃ r, chain3.merge 0 1 .SENSE false true true lengthMerger [] = .ok r ∧
      ∀ v d, ((true : Bool) = true → v ≠ 1) → ∀ e ∈ r.2.1.edgesOf v d,
        (⟨v, e.reverse⟩ : EdgeData) ∈ r.2.1.edgesOf e.pVertex (getTwinDir d e.reverse)) ∧
    (∃ r, chain3.merge 0 1 .SENSE false false true lengthMerger [] = .ok r ∧
      ∀ v d, ((false : Bool) = true → v ≠ 1) → ∀ e ∈ r.2.1.edgesOf v d,
        (⟨v, e.reverse⟩ : EdgeData) ∈ r.2.1.edgesOf e.pVertex (getTwinDir d e.reverse)) :=
  ⟨by decide, by decide, by decide,
    ⟨_, rfl, merge_preserves_reciprocity chain3 0 1 .SENSE false true true lengthMerger []
      _ (by decide) (by decide) (by decide) (by decide) (by decide) rfl⟩,
    ⟨_, rfl, merge_preserves_reciprocity chain3 0 1 .SENSE false false true lengthMerger []
      _ (by decide) (by decide) (by decide) (by decide) (by decide) rfl⟩⟩

theorem flatMap_eq_map_of_singleton {α β : Type} {l : List α} {f : α → List β} {h : α → β}
    (hf : ∀ x ∈ l, f x = [h x]) : l.flatMap f = l.map h := by
  induction l with
  | nil => rfl
  | cons a rest ih =>
    rw [List.flatMap_cons, List.map_cons, hf a (List.mem_cons_self _ _),
      ih (fun x hx => hf x (List.mem_cons_of_mem _ hx))]
    rfl

/-- C2: merge conservation. After a completed `merge` with `removeChild = true`
along the only edge of the parent in `parentDir`, the parent collection in
`parentDir` is the child collection on its far side with every reverse flag
combined with `parentReverse`, in the same order, and no vertex other than the
child holds an edge to the child. -/
theorem merge_conservation {M : Type} (g : DirectedGraph D) (pParent pChild : Nat)
    (parentsDir : extDirection) (parentsReverse usableChild : Bool)
    (dataMerger : DataMerger D M) (m : M) (r : Bool × DirectedGraph D × M)
    (hrec : Reciprocal g) (hnd : NoDuplicates g) (hself : NoSelfLoops g)
    (hne : pParent ≠ pChild)
    (honly : g.edgesOf pParent parentsDir = [⟨pChild, parentsReverse⟩])
    (h : g.merge pParent pChild parentsDir parentsReverse true usableChild
      dataMerger m = .ok r) :
    r.2.1.edgesOf pParent parentsDir =
      (g.edgesOf pChild (if parentsReverse then parentsDir else parentsDir.flip).flip).map
        (fun e => ⟨e.pVertex, parentsReverse != e.reverse⟩) ∧
    ∀ v, v ≠ pChild → ∀ d, ∀ e ∈ r.2.1.edgesOf v d, e.pVertex ≠ pChild := by
  rw [getTwinDir_eq_ite]
  obtain ⟨g4, hrec4, hnd4, hlast⟩ := DirectedGraph.merge_before_removal hrec hnd h
  obtain ⟨parent, child, g2, g4', -, -, -, hg2, hg4, -, -, hlast'⟩ :=
    DirectedGraph.merge_eq_ok h
  simp only [if_true] at hlast hlast'
  constructor
  · have hnd1 := noDuplicates_congr hnd (DirectedGraph.edgesOf_setData g pParent
      (dataMerger.merge m parent.m_key parent.m_data child.m_key child.m_data parentsDir
        parentsReverse true usableChild).2)
    have hrec1 := reciprocal_congr hrec (DirectedGraph.edgesOf_setData g pParent
      (dataMerger.merge m parent.m_key parent.m_data child.m_key child.m_data parentsDir
        parentsReverse true usableChild).2)
    have hg2' := hg2
    rw [← DirectedGraph.edgesOf_setData g pParent (dataMerger.merge m parent.m_key
      parent.m_data child.m_key child.m_data parentsDir parentsReverse true usableChild).2]
      at hg2'
    obtain ⟨hrec3, hnd3⟩ := hrec1.detach hnd1 hg2'
    obtain ⟨-, -, he2⟩ := removeReciprocals_ok hnd1 hg2
    obtain ⟨-, -, hnd4', he4⟩ := absorbChildEdges_ok hnd3 hg4
    have hrec4' := hrec3.absorb hnd3 hg4
    -- the far side of the child is untouched by the detaching step
    have hces : (g2.clearEdges pParent parentsDir).edgesOf pChild
        (getTwinDir parentsDir parentsReverse).flip =
        g.edgesOf pChild (getTwinDir parentsDir parentsReverse).flip := by
      rw [DirectedGraph.edgesOf_clearEdges, if_neg (fun hc => hne hc.1.symm), he2,
        DirectedGraph.edgesOf_setData, List.filter_eq_self]
      intro x _
      simp only [Bool.not_eq_true', ← Bool.not_eq_true, isReciprocalOf_eq_true, honly,
        List.mem_singleton, EdgeData.mk.injEq, true_and]
      rintro ⟨-, h2, h3⟩
      rw [h2] at h3
      exact extDirection.ne_flip _ h3
    rw [hces] at he4
    rw [DirectedGraph.removeVertex_edges_other hrec4' hnd4' hlast' hne, he4,
      DirectedGraph.edgesOf_clearEdges]
    simp only [and_self, if_true, List.nil_append, true_and]
    have hflat : (g.edgesOf pChild (getTwinDir parentsDir parentsReverse).flip).flatMap
        (fun ce =>
          [(⟨ce.pVertex, parentsReverse != ce.reverse⟩ : EdgeData)] ++
          (if pParent = ce.pVertex ∧
              parentsDir = getTwinDir parentsDir (parentsReverse != ce.reverse) then
            [(⟨pParent, parentsReverse != ce.reverse⟩ : EdgeData)] else [])) =
        (g.edgesOf pChild (getTwinDir parentsDir parentsReverse).flip).map
          (fun e => ⟨e.pVertex, parentsReverse != e.reverse⟩) := by
      apply flatMap_eq_map_of_singleton
      intro x hx
      rw [if_neg, List.append_nil]
      rintro ⟨h1, h2⟩
      have hdup := hnd4'.nodup pParent parentsDir
      rw [he4, DirectedGraph.edgesOf_clearEdges] at hdup
      simp only [and_self, if_true, List.nil_append, true_and] at hdup
      have := (List.nodup_flatMap.mp hdup).1 x hx
      rw [if_pos ⟨h1, h2⟩, ← h1] at this
      simp at this
    rw [hflat, List.filter_eq_self]
    intro x hx
    rw [List.mem_map] at hx
    obtain ⟨ce, hce, rfl⟩ := hx
    simpa using hself.ne hce
  · intro v hv d e he
    rw [DirectedGraph.removeVertex_edges_other hrec4 hnd4 hlast hv, List.mem_filter] at he
    simpa using he.2

/-- C2, at the chain `0 -> 1 -> 2`: merging vertex 1 into vertex 0. -/
theorem merge_conservation_witness :
    Reciprocal chain3 ∧ NoDuplicates chain3 ∧ NoSelfLoops chain3 ∧
    chain3.edgesOf 0 .SENSE = [⟨1, false⟩] ∧
    ∃ r, chain3.merge 0 1 .SENSE false true true lengthMerger [] = .ok r ∧
      r.2.1.edgesOf 0 .SENSE =
        (chain3.edgesOf 1 (if false then extDirection.SENSE
          else extDirection.SENSE.flip).flip).map
          (fun e => ⟨e.pVertex, false != e.reverse⟩) ∧
      ∀ v, v ≠ 1 → ∀ d, ∀ e ∈ r.2.1.edgesOf v d, e.pVertex ≠ 1 :=
  ⟨by decide, by decide, by decide, by decide, _, rfl,
    merge_conservation chain3 0 1 .SENSE false true lengthMerger [] _
      (by decide) (by decide) (by decide) (by decide) (by decide) rfl⟩

/-- C4: `removeVertex` postcondition. On a reciprocal graph without duplicate
edges, for a vertex `v` of the table without an edge to itself,
`removeVertex(v)` completes; afterwards no other vertex holds an edge to `v`,
every other collection is the old one without its edges to `v` (same order),
and `v` is still in the table with key, payload and both collections unchanged. -/
theorem removeVertex_postcondition (g : DirectedGraph D) (v : Nat) (hv : v < g.size)
    (hrec : Reciprocal g) (hnd : NoDuplicates g) (hself : NoSelfLoopAt g v) :
    ∃ g', g.removeVertex v = .ok g' ∧
      (∀ u, u ≠ v → ∀ d, ∀ e ∈ g'.edgesOf u d, e.pVertex ≠ v) ∧
      (∀ u, u ≠ v → ∀ d,
        g'.edgesOf u d = (g.edgesOf u d).filter (fun e => decide (e.pVertex ≠ v))) ∧
      (v < g'.size ∧ g'.labelOf v = g.labelOf v ∧ ∀ d, g'.edgesOf v d = g.edgesOf v d) := by
  obtain ⟨g', h⟩ := DirectedGraph.removeVertex_completes hrec hnd hself
  obtain ⟨hs, hl, -⟩ := DirectedGraph.removeVertex_ok hnd h
  refine ⟨g', h, ?_, ?_, ?_⟩
  · intro u hu d e he
    rw [DirectedGraph.removeVertex_edges_other hrec hnd h hu, List.mem_filter] at he
    simpa using he.2
  · exact fun u hu d => DirectedGraph.removeVertex_edges_other hrec hnd h hu d
  · exact ⟨hs ▸ hv, hl v, DirectedGraph.removeVertex_edges_self hnd hself h⟩

/-- C4, at the middle vertex of the chain `0 -> 1 -> 2`. -/
theorem removeVertex_postcondition_witness :
    1 < chain3.size ∧ Reciprocal chain3 ∧ NoDuplicates chain3 ∧ NoSelfLoopAt chain3 1 ∧
    ∃ g', chain3.removeVertex 1 = .ok g' ∧
      (∀ u, u ≠ 1 → ∀ d, ∀ e ∈ g'.edgesOf u d, e.pVertex ≠ 1) ∧
      (∀ u, u ≠ 1 → ∀ d,
        g'.edgesOf u d = (chain3.edgesOf u d).filter (fun e => decide (e.pVertex ≠ 1))) ∧
      (1 < g'.size ∧ g'.labelOf 1 = chain3.labelOf 1 ∧
        ∀ d, g'.edgesOf 1 d = chain3.edgesOf 1 d) :=
  ⟨by decide, by decide, by decide, by decide,
    removeVertex_postcondition chain3 1 (by decide) (by decide) (by decide) (by decide)⟩

/-! ## `removeTransitivity` -/

theorem removeTransitivityStep_skip {M : Type} (dataMerger : DataMerger D M)
    (usableChild : Bool) (p : Nat) (s : SweepState D M) (idx : extDirection)
    (h : s.2.1.edgesOf p idx = []) :
    removeTransitivityStep dataMerger usableChild p s idx = .ok s := by
  unfold removeTransitivityStep
  simp only [h]

theorem removeTransitivityVertex_skip {M : Type} (dataMerger : DataMerger D M)
    (usableChild : Bool) (p : Nat) (s : SweepState D M)
    (h : ∀ d, s.2.1.edgesOf p d = []) :
    removeTransitivityVertex dataMerger usableChild s p = .ok s := by
  unfold removeTransitivityVertex
  rw [removeTransitivityStep_skip _ _ _ _ _ (h _)]
  simp only
  rw [removeTransitivityStep_skip _ _ _ _ _ (h _)]

theorem removeTransitivityLoop_skip {M : Type} (dataMerger : DataMerger D M)
    (usableChild : Bool) (s : SweepState D M) (l : List Nat)
    (h : ∀ p ∈ l, ∀ d, s.2.1.edgesOf p d = []) :
    removeTransitivityLoop dataMerger usableChild s l = .ok s := by
  induction l with
  | nil => rfl
  | cons p rest ih =>
    unfold removeTransitivityLoop
    rw [removeTransitivityVertex_skip _ _ _ _ (h p (List.mem_cons_self _ _))]
    exact ih (fun q hq => h q (List.mem_cons_of_mem _ hq))

theorem removeTransitivityLoop_append {M : Type} (dataMerger : DataMerger D M)
    (usableChild : Bool) (s : SweepState D M) (l1 l2 : List Nat) :
    removeTransitivityLoop dataMerger usableChild s (l1 ++ l2) =
      match removeTransitivityLoop dataMerger usableChild s l1 with
      | .error f => .error f
      | .ok s1 => removeTransitivityLoop dataMerger usableChild s1 l2 := by
  induction l1 generalizing s with
  | nil => rfl
  | cons p rest ih =>
    simp only [List.cons_append, removeTransitivityLoop]
    cases removeTransitivityVertex dataMerger usableChild s p with
    | error f => rfl
    | ok s1 => exact ih s1

theorem DirectedGraph.countEdges_eq_sum (g : DirectedGraph D) :
    g.countEdges =
      (g.m_vertexTable.map (fun v => v.numEdges .SENSE + v.numEdges .ANTISENSE)).sum := by
  unfold DirectedGraph.countEdges
  have : ∀ (l : List (Vertex D)) (n : Nat),
      l.foldl (fun sum v => sum + (v.numEdges .SENSE + v.numEdges .ANTISENSE)) n =
        n + (l.map (fun v => v.numEdges .SENSE + v.numEdges .ANTISENSE)).sum := by
    intro l
    induction l with
    | nil => intro n; simp
    | cons v rest ih => intro n; simp [ih, Nat.add_assoc]
  simpa using this g.m_vertexTable 0

theorem DirectedGraph.countEdges_eq_zero {g : DirectedGraph D}
    (h : ∀ p d, g.edgesOf p d = []) : g.countEdges = 0 := by
  rw [DirectedGraph.countEdges_eq_sum, List.sum_eq_zero]
  intro n hn
  rw [List.mem_map] at hn
  obtain ⟨v, hv, rfl⟩ := hn
  obtain ⟨i, hi, rfl⟩ := List.mem_iff_getElem.mp hv
  have h1 := h i .SENSE
  have h2 := h i .ANTISENSE
  unfold DirectedGraph.edgesOf at h1 h2
  rw [List.getElem?_eq_getElem hi] at h1 h2
  simp only at h1 h2
  simp [Vertex.numEdges, h1, h2]

/-- The merge performed by the sweep on an isolated reciprocal pair. -/
theorem DirectedGraph.merge_isolated_pair {M : Type} (g : DirectedGraph D) (a b : Nat)
    (d : extDirection) (r : Bool) (dataMerger : DataMerger D M) (usableChild : Bool) (m : M)
    (va vb : Vertex D) (hab : a ≠ b)
    (ha : g.m_vertexTable[a]? = some va) (hb : g.m_vertexTable[b]? = some vb)
    (hEa : g.edgesOf a d = [⟨b, r⟩]) (hEb : g.edgesOf b (getTwinDir d r) = [⟨a, r⟩])
    (hother : ∀ p d', ¬(p = a ∧ d' = d) → ¬(p = b ∧ d' = getTwinDir d r) →
      g.edgesOf p d' = []) :
    ∃ g', g.merge a b d r true usableChild dataMerger m =
        .ok (true, g', (dataMerger.merge m va.m_key va.m_data vb.m_key vb.m_data d r true
          usableChild).1) ∧
      (∀ p d', g'.edgesOf p d' = []) ∧ g'.size = g.size ∧
      (∀ q, g'.labelOf q = if q = a then some (va.m_key, (dataMerger.merge m va.m_key
          va.m_data vb.m_key vb.m_data d r true usableChild).2) else g.labelOf q) := by
  have hvb : vb.m_edges (getTwinDir d r) = [⟨a, r⟩] := by
    rw [← hEb]; unfold DirectedGraph.edgesOf; rw [hb]
  generalize hmd : dataMerger.merge m va.m_key va.m_data vb.m_key vb.m_data d r true
    usableChild = merged
  -- the graph after the payload update and the detaching step
  have hstep2 : removeReciprocals (g.setData a merged.2) a d
      ((g.setData a merged.2).edgesOf a d) =
      .ok ((g.setData a merged.2).mapEdges b (getTwinDir d r) (fun l => l.erase ⟨a, r⟩)) := by
    rw [DirectedGraph.edgesOf_setData, hEa]
    simp only [removeReciprocals, getTwinDir_eq_ite]
    have : (g.setData a merged.2).removeEdgeAt (some (a, d)) b a (getTwinDir d r) r =
        .ok ((g.setData a merged.2).mapEdges b (getTwinDir d r) (fun l => l.erase ⟨a, r⟩)) := by
      rw [DirectedGraph.removeEdgeAt_eq_ok, DirectedGraph.edgesOf_setData, hEb]
      refine ⟨List.mem_singleton_self _, ?_, rfl⟩
      intro hc
      simp only [Option.some.injEq, Prod.mk.injEq] at hc
      exact hab hc.1
    rw [this]
  have hlt : b < (g.setData a merged.2).size := by
    rw [DirectedGraph.size_setData]; exact DirectedGraph.lt_size_of_getElem? hb
  have hempty : ∀ p d', ((((g.setData a merged.2).mapEdges b (getTwinDir d r)
      (fun l => l.erase ⟨a, r⟩))).clearEdges a d).edgesOf p d' = [] := by
    intro p d'
    rw [DirectedGraph.edgesOf_clearEdges]
    split
    · rfl
    · rename_i hc1
      rw [DirectedGraph.edgesOf_mapEdges]
      split
      · rw [DirectedGraph.edgesOf_setData, hEb]
        simp
      · rename_i hc2
        rw [DirectedGraph.edgesOf_setData]
        exact hother p d' hc1 (fun hc => hc2 ⟨hc.1, hc.2, hlt⟩)
  refine ⟨_, ?_, hempty, ?_, ?_⟩
  · unfold DirectedGraph.merge
    rw [DirectedGraph.vertexAt_eq_ok.mpr ha, DirectedGraph.vertexAt_eq_ok.mpr hb]
    simp only [getTwinDir_eq_ite, Vertex.getEdge, hvb, findEdge, if_true, hmd, hstep2,
      hempty, absorbChildEdges, DirectedGraph.removeVertex, removeReciprocals]
  · rw [DirectedGraph.size_clearEdges, DirectedGraph.size_mapEdges, DirectedGraph.size_setData]
  · intro q
    rw [DirectedGraph.labelOf_clearEdges, DirectedGraph.labelOf_mapEdges,
      DirectedGraph.labelOf_setData]
    split
    · simp [DirectedGraph.labelOf, ha]
    · rfl

theorem range_split {a n : Nat} (h : a < n) :
    List.range n = List.range a ++ a :: List.range' (a + 1) (n - a - 1) := by
  rw [List.range_eq_range', List.range_eq_range']
  have h1 : n = (n - a - 1 + 1) + a := by omega
  have h2 := List.range'_append 0 a (n - a - 1 + 1) 1
  rw [← h1, List.range'_succ] at h2
  simp only [Nat.zero_add, Nat.one_mul] at h2
  exact h2.symm

/-- C3: transitivity removal on an isolated reciprocal pair. When the only
edges of the graph are `(b, r)` held by `a` in direction `d` and `(a, r)` held
by `b` in direction `r ? d : flip d`, with `a < b`, the sweep returns 1, the
merger has been invoked exactly once, with parent `a`, child `b`, direction
`d`, reverse `r` and `removeChild = true`, and no edge is left. -/
theorem removeTransitivity_isolated_pair {M : Type} (g : DirectedGraph D) (a b : Nat)
    (d : extDirection) (r : Bool) (dataMerger : DataMerger D M) (usableChild : Bool) (m : M)
    (va vb : Vertex D) (hab : a < b)
    (ha : g.m_vertexTable[a]? = some va) (hb : g.m_vertexTable[b]? = some vb)
    (hka : va.m_key = a) (hkb : vb.m_key = b)
    (hEa : g.edgesOf a d = [⟨b, r⟩])
    (hEb : g.edgesOf b (if r then d else d.flip) = [⟨a, r⟩])
    (hother : ∀ p d', ¬(p = a ∧ d' = d) → ¬(p = b ∧ d' = (if r then d else d.flip)) →
      g.edgesOf p d' = []) :
    ∃ g', g.removeTransitivity dataMerger usableChild m =
        .ok (1, g', (dataMerger.merge m a va.m_data b vb.m_data d r true usableChild).1) ∧
      (∀ p d', g'.edgesOf p d' = []) ∧ g'.countEdges = 0 ∧ g'.size = g.size ∧
      (∀ q, g'.labelOf q = if q = a then
        some (a, (dataMerger.merge m a va.m_data b vb.m_data d r true usableChild).2)
        else g.labelOf q) := by
  rw [getTwinDir_eq_ite] at hEb
  simp only [getTwinDir_eq_ite] at hother
  obtain ⟨g', hmerge, hempty, hsize, hlabel⟩ := DirectedGraph.merge_isolated_pair g a b d r
    dataMerger usableChild m va vb (Nat.ne_of_lt hab) ha hb hEa hEb hother
  rw [hka, hkb] at hmerge hlabel
  refine ⟨g', ?_, hempty, DirectedGraph.countEdges_eq_zero hempty, hsize, hlabel⟩
  have halt : a < g.size := DirectedGraph.lt_size_of_getElem? ha
  have hvb : vb.m_edges (getTwinDir d r) = [⟨a, r⟩] := by
    rw [← hEb]; unfold DirectedGraph.edgesOf; rw [hb]
  -- the step that merges
  have hstep : ∀ n : Nat, removeTransitivityStep dataMerger usableChild a (n, g, m) d =
      .ok (n + 1, g', (dataMerger.merge m a va.m_data b vb.m_data d r true usableChild).1) := by
    intro n
    unfold removeTransitivityStep
    simp only [hEa, DirectedGraph.vertexAt_eq_ok.mpr hb, Vertex.isEdgeUnique, Vertex.getEdge,
      hvb, findEdge, if_true, Vertex.numEdges, List.length_singleton, beq_self_eq_true,
      Nat.ne_of_lt hab, if_false, hmerge]
  -- the vertex `a`
  have hvertex : removeTransitivityVertex dataMerger usableChild (0, g, m) a =
      .ok (1, g', (dataMerger.merge m a va.m_data b vb.m_data d r true usableChild).1) := by
    unfold removeTransitivityVertex
    cases d with
    | SENSE =>
      rw [hstep 0]
      exact removeTransitivityStep_skip _ _ _ _ _ (hempty _ _)
    | ANTISENSE =>
      rw [removeTransitivityStep_skip _ _ _ _ _
        (hother a .SENSE (by simp) (by intro hc; exact Nat.ne_of_lt hab hc.1))]
      exact hstep 0
  unfold DirectedGraph.removeTransitivity
  rw [range_split halt, removeTransitivityLoop_append, removeTransitivityLoop_skip]
  · simp only [removeTransitivityLoop, hvertex]
    exact removeTransitivityLoop_skip _ _ _ _ (fun p _ d' => hempty p d')
  · intro p hp d'
    rw [List.mem_range] at hp
    exact hother p d' (fun hc => Nat.ne_of_lt hp hc.1)
      (fun hc => Nat.ne_of_lt (Nat.lt_trans hp hab) hc.1)

/-- C3, the scenario of the specification: lengths 5, 3 and 4 with `k = 1`, one
reciprocal pair between 0 and 1, and a merger that adds lengths. The sweep makes
one merge, the merger is called once (for the keys 0 and 1), vertex 0 ends with
cost 8 and vertex 2 is untouched. -/
theorem removeTransitivity_isolated_pair_witness :
    (0 < 1 ∧
      pair3.m_vertexTable[0]? = some ⟨0, ⟨5⟩, [⟨1, false⟩], []⟩ ∧
      pair3.m_vertexTable[1]? = some ⟨1, ⟨3⟩, [], [⟨0, false⟩]⟩ ∧
      pair3.edgesOf 0 .SENSE = [⟨1, false⟩] ∧
      pair3.edgesOf 1 (if false then extDirection.SENSE else extDirection.SENSE.flip) =
        [⟨0, false⟩]) ∧
    ∃ g', pair3.removeTransitivity lengthMerger true [] = .ok (1, g', [(0, 1)]) ∧
      (∀ p d', g'.edgesOf p d' = []) ∧ g'.countEdges = 0 ∧ g'.size = 3 ∧
      (g'.labelOf 0).map (fun kd => SimpleDataCost.cost 1 kd.2) = some 8 ∧
      g'.labelOf 2 = some (2, ⟨4⟩) := by
  refine ⟨⟨by decide, rfl, rfl, rfl, rfl⟩, ?_⟩
  obtain ⟨g', h1, h2, h3, h4, h5⟩ := removeTransitivity_isolated_pair pair3 0 1 .SENSE false
    lengthMerger true [] ⟨0, ⟨5⟩, [⟨1, false⟩], []⟩ ⟨1, ⟨3⟩, [], [⟨0, false⟩]⟩
    (by decide) rfl rfl rfl rfl rfl rfl
    (by
      intro p d' hp1 hp2
      match p, d' with
      | 0, .SENSE => exact absurd ⟨rfl, rfl⟩ hp1
      | 0, .ANTISENSE => rfl
      | 1, .SENSE => rfl
      | 1, .ANTISENSE => exact absurd ⟨rfl, rfl⟩ hp2
      | 2, .SENSE => rfl
      | 2, .ANTISENSE => rfl
      | n + 3, .SENSE => rfl
      | n + 3, .ANTISENSE => rfl)
  refine ⟨g', h1, h2, h3, h4, ?_, ?_⟩
  · rw [h5]; rfl
  · rw [h5]; rfl

/-! ## Constrained search -/

/-- The loop over the edges completes when every recursive call does. -/
theorem searchEdges_completes (g : DirectedGraph D) (costFunctor : D → Nat)
    (recurse : Nat → Bool → KeyConstraintMap → ContigPath → ContigPaths → Nat → Int →
      Except Fault SearchResult)
    (isRC : Bool) (constraints : KeyConstraintMap) (path : ContigPath) (currLen : Nat)
    (lo : Int)
    (hrec : ∀ p rc c pa s len vc, p < g.size → c ≠ [] → lo ≤ vc →
      ∃ r, recurse p rc c pa s len vc = .ok r ∧ vc ≤ r.2.2)
    (edges : List EdgeData) (hedges : ∀ e ∈ edges, e.pVertex < g.size)
    (solutions : ContigPaths) (visitedCount : Int) (hlo : lo ≤ visitedCount) :
    ∃ r, searchEdges g costFunctor recurse isRC constraints path currLen edges solutions
      visitedCount = .ok r ∧ visitedCount ≤ r.2.2 := by
  induction edges generalizing solutions visitedCount with
  | nil => exact ⟨_, rfl, le_refl _⟩
  | cons it rest ih =>
    have hrest : ∀ e ∈ rest, e.pVertex < g.size := fun e he =>
      hedges e (List.mem_cons_of_mem _ he)
    obtain ⟨nextVertex, hv, -, -⟩ :=
      DirectedGraph.vertexAt_of_lt (hedges it (List.mem_cons_self _ _))
    simp only [searchEdges, hv]
    split
    · exact ih hrest _ _ hlo
    · rename_i hne
      split
      · exact ih hrest _ _ hlo
      · obtain ⟨r, hr, hle⟩ := hrec it.pVertex (it.reverse != isRC)
          (dropConstraint constraints ⟨nextVertex.m_key, it.reverse != isRC⟩ currLen)
          (path ++ [⟨nextVertex.m_key, it.reverse != isRC⟩]) solutions
          (currLen + costFunctor nextVertex.m_data) visitedCount
          (hedges it (List.mem_cons_self _ _))
          (by simpa using hne) hlo
        obtain ⟨b, s1, vc1⟩ := r
        rw [hr]
        cases b with
        | false => exact ⟨_, rfl, hle⟩
        | true =>
          obtain ⟨r2, hr2, hle2⟩ := ih hrest s1 vc1 (le_trans hlo hle)
          exact ⟨r2, hr2, le_trans hle hle2⟩

/-- With fuel above `maxCompCost - visitedCount` the search completes, and it
never decreases `visitedCount`. -/
theorem ConstrainedDFSFuel_completes (g : DirectedGraph D) (costFunctor : D → Nat)
    (dir : extDirection) (maxNumPaths maxCompCost : Int) (hvalid : ValidPointers g)
    (fuel : Nat) :
    ∀ (pCurrVertex : Nat) (isRC : Bool) (constraints : KeyConstraintMap) (path : ContigPath)
      (solutions : ContigPaths) (currLen : Nat) (visitedCount : Int),
      pCurrVertex < g.size → constraints ≠ [] →
      (maxCompCost - visitedCount).toNat < fuel →
      ∃ r, ConstrainedDFSFuel g costFunctor dir maxNumPaths maxCompCost fuel pCurrVertex isRC
        constraints path solutions currLen visitedCount = .ok r ∧ visitedCount ≤ r.2.2 := by
  induction fuel with
  | zero => intro _ _ _ _ _ _ _ _ _ h; omega
  | succ fuel ih =>
    intro pCurrVertex isRC constraints path solutions currLen visitedCount hp hc hfuel
    have hc' : constraints.isEmpty = false := by
      cases constraints with
      | nil => exact absurd rfl hc
      | cons _ _ => rfl
    simp only [ConstrainedDFSFuel, hc', Bool.false_eq_true, if_false]
    split
    · exact ⟨_, rfl, le_refl _⟩
    · split
      · exact ⟨_, rfl, by simp⟩
      · rename_i hbudget
        obtain ⟨currVertex, hv, -, hedges⟩ := DirectedGraph.vertexAt_of_lt hp
        simp only [hv]
        obtain ⟨r, hr, hle⟩ := searchEdges_completes g costFunctor
          (ConstrainedDFSFuel g costFunctor dir maxNumPaths maxCompCost fuel) isRC
          constraints path currLen (visitedCount + 1)
          (fun p rc c pa s len vc hp' hc'' hlo =>
            ih p rc c pa s len vc hp' hc'' (by omega))
          (currVertex.m_edges (if isRC then dir.flip else dir))
          (fun e he => hvalid pCurrVertex hp _ e (by rw [hedges]; exact he))
          solutions (visitedCount + 1) (le_refl _)
        exact ⟨r, hr, by omega⟩

/-- C7: the result of `findSuperpaths`. For a source key in range the call
returns, and it returns true exactly when the constraint map is non-empty, the
final `compCost` is below `maxCompCost` and the output list is non-empty. On an
empty constraint map it returns false with the output list and `compCost`
unchanged; it returns false whenever `compCost` has reached `maxCompCost`. -/
theorem findSuperpaths_result (g : DirectedGraph D) (costFunctor : D → Nat)
    (sourceKey : Nat) (dir : extDirection) (constraints : KeyConstraintMap)
    (superPaths : ContigPaths) (maxNumPaths maxCompCost compCost : Int)
    (hsrc : sourceKey < g.size) (hvalid : ValidPointers g) :
    ∃ r, g.findSuperpaths costFunctor sourceKey dir constraints superPaths maxNumPaths
        maxCompCost compCost = .ok r ∧
      (r.1 = true ↔ constraints ≠ [] ∧ r.2.2 < maxCompCost ∧ r.2.1 ≠ []) ∧
      (constraints = [] → r = (false, superPaths, compCost)) ∧
      (maxCompCost ≤ r.2.2 → r.1 = false) := by
  unfold DirectedGraph.findSuperpaths
  cases constraints with
  | nil => exact ⟨_, rfl, by simp, fun _ => rfl, fun _ => rfl⟩
  | cons c rest =>
    obtain ⟨r, hr, -⟩ := ConstrainedDFSFuel_completes g costFunctor dir maxNumPaths maxCompCost
      hvalid ((maxCompCost - compCost).toNat + 1) sourceKey false (c :: rest) [] superPaths 0
      compCost hsrc (by simp) (Nat.lt_succ_self _)
    obtain ⟨b, paths, cc⟩ := r
    simp only [List.isEmpty_cons, Bool.false_eq_true, if_false, DirectedGraph.findVertex, hsrc,
      if_true, DirectedGraph.ConstrainedDFS, hr]
    refine ⟨_, rfl, ?_, by simp, ?_⟩
    · by_cases hcc : cc ≥ maxCompCost
      · simp [hcc]
      · have : cc < maxCompCost := by omega
        cases paths <;> simp [hcc, this]
    · intro hcc
      have : cc ≥ maxCompCost := hcc
      simp [this]

/-- C7, on the chain `0 -> 1 -> 2` from vertex 0. -/
theorem findSuperpaths_result_witness :
    0 < chain3.size ∧ ValidPointers chain3 ∧
    ∃ r, chain3.findSuperpaths (SimpleDataCost.cost 1) 0 .SENSE [(⟨2, false⟩, 10)] [] 5 100 0
        = .ok r ∧
      (r.1 = true ↔ [((⟨2, false⟩ : ContigNode), 10)] ≠ [] ∧ r.2.2 < 100 ∧ r.2.1 ≠ []) ∧
      ([((⟨2, false⟩ : ContigNode), 10)] = [] → r = (false, [], 0)) ∧
      ((100 : Int) ≤ r.2.2 → r.1 = false) :=
  ⟨by decide, by decide,
    findSuperpaths_result chain3 (SimpleDataCost.cost 1) 0 .SENSE [(⟨2, false⟩, 10)] [] 5 100 0
      (by decide) (by decide)⟩

/-- C8: the constrained search budget. With a non-empty constraint set and a
solution list no longer than `maxNumPaths`, a call with `maxCompCost = 1` and
`visitedCount = 0` returns false, records nothing and leaves `visitedCount = 1`;
in general a call with `visitedCount + 1 >= maxCompCost` returns false with the
solution list unchanged and `visitedCount` one larger. -/
theorem ConstrainedDFS_budget (g : DirectedGraph D) (costFunctor : D → Nat)
    (pCurrVertex : Nat) (dir : extDirection) (isRC : Bool) (constraints : KeyConstraintMap)
    (path : ContigPath) (solutions : ContigPaths) (currLen : Nat) (maxNumPaths : Int)
    (hc : constraints ≠ []) (hsol : (solutions.length : Int) ≤ maxNumPaths) :
    g.ConstrainedDFS costFunctor pCurrVertex dir isRC constraints path solutions currLen
        maxNumPaths 1 0 = .ok (false, solutions, 1) ∧
    ∀ maxCompCost visitedCount : Int, visitedCount + 1 ≥ maxCompCost →
      g.ConstrainedDFS costFunctor pCurrVertex dir isRC constraints path solutions currLen
        maxNumPaths maxCompCost visitedCount = .ok (false, solutions, visitedCount + 1) := by
  have hc' : constraints.isEmpty = false := by
    cases constraints with
    | nil => exact absurd rfl hc
    | cons _ _ => rfl
  have hsol' : ¬ ((solutions.length : Int) > maxNumPaths) := by omega
  have key : ∀ maxCompCost visitedCount : Int, visitedCount + 1 ≥ maxCompCost →
      g.ConstrainedDFS costFunctor pCurrVertex dir isRC constraints path solutions currLen
        maxNumPaths maxCompCost visitedCount = .ok (false, solutions, visitedCount + 1) := by
    intro maxCompCost visitedCount hb
    simp only [DirectedGraph.ConstrainedDFS, ConstrainedDFSFuel, hc', Bool.false_eq_true,
      if_false, hsol', hb, if_true]
  exact ⟨key 1 0 (by decide), key⟩

/-- C8, on the chain `0 -> 1 -> 2`, where reaching vertex 2 from vertex 0 needs
two visits. -/
theorem ConstrainedDFS_budget_witness :
    [((⟨2, false⟩ : ContigNode), 10)] ≠ [] ∧ (([] : ContigPaths).length : Int) ≤ 5 ∧
    (chain3.ConstrainedDFS (SimpleDataCost.cost 1) 0 .SENSE false [(⟨2, false⟩, 10)] [] [] 0
        5 1 0 = .ok (false, [], 1) ∧
    ∀ maxCompCost visitedCount : Int, visitedCount + 1 ≥ maxCompCost →
      chain3.ConstrainedDFS (SimpleDataCost.cost 1) 0 .SENSE false [(⟨2, false⟩, 10)] [] [] 0
        5 maxCompCost visitedCount = .ok (false, [], visitedCount + 1)) :=
  ⟨by decide, by decide,
    ConstrainedDFS_budget chain3 (SimpleDataCost.cost 1) 0 .SENSE false [(⟨2, false⟩, 10)] [] []
      0 5 (by decide) (by decide)⟩

/-! ## Conversions between `size_t` and `int` -/

theorem INF_eq : INF = 18446744071562067968 := by decide

theorem sizeToInt_of_lt {x : Nat} (h : x < 2 ^ 31) : sizeToInt x = (x : Int) := by
  unfold sizeToInt
  have h1 : x % 2 ^ 32 = x := Nat.mod_eq_of_lt (by omega)
  rw [h1, if_pos h]

theorem intToSize_natCast {x : Nat} (h : x < 2 ^ 64) : intToSize (x : Int) = x := by
  unfold intToSize
  omega

/-- A cost that fits an `int` is added exactly as long as the sum fits a `size_t`. -/
theorem sizeAddInt_of_lt {a c : Nat} (hc : c < 2 ^ 31) (h : a + c < 2 ^ 64) :
    sizeAddInt a (sizeToInt c) = a + c := by
  unfold sizeAddInt
  rw [sizeToInt_of_lt hc, intToSize_natCast (by omega)]
  exact Nat.mod_eq_of_lt h

/-! ## Path metrics -/

theorem DirectedGraph.costOf_eq {g : DirectedGraph D} {p : Nat} {v : Vertex D}
    (h : g.vertexAt p = .ok v) (costFunctor : D → Nat) :
    g.costOf costFunctor p = costFunctor v.m_data := by
  rw [DirectedGraph.vertexAt_eq_ok] at h
  unfold DirectedGraph.costOf
  rw [h]

theorem getMinPathLengthLoop_eq (g : DirectedGraph D) (costFunctor : D → Nat)
    (l : List Nat) (hl : ∀ p ∈ l, p < g.size) (pathLength maxCost : Nat) :
    getMinPathLengthLoop g costFunctor l pathLength maxCost =
      .ok (pathLength + (l.map (g.costOf costFunctor)).sum,
        max maxCost (l.toFinset.sup (g.costOf costFunctor))) := by
  induction l generalizing pathLength maxCost with
  | nil => simp [getMinPathLengthLoop]
  | cons p rest ih =>
    obtain ⟨v, hv, -, -⟩ := DirectedGraph.vertexAt_of_lt (hl p (List.mem_cons_self _ _))
    simp only [getMinPathLengthLoop, hv]
    rw [ih (fun q hq => hl q (List.mem_cons_of_mem _ hq))]
    simp only [List.map_cons, List.sum_cons, List.toFinset_cons, Finset.sup_insert,
      DirectedGraph.costOf_eq hv, Except.ok.injEq, Prod.mk.injEq]
    refine ⟨by omega, ?_⟩
    split
    · rename_i hgt
      rw [← sup_assoc, sup_eq_right.mpr (le_of_lt hgt)]
    · rename_i hgt
      rw [← sup_assoc, sup_eq_left.mpr (not_lt.mp hgt)]

/-- C10: `getMinPathLength`. For a non-empty set of vertices the result is the
sum of the costs minus the largest cost, and the subtraction does not wrap
around (the largest cost is at most the sum); for the empty set it is 0. -/
theorem getMinPathLength_eq (g : DirectedGraph D) (costFunctor : D → Nat)
    (vertexSet : Finset Nat) (hvalid : ∀ p ∈ vertexSet, p < g.size) :
    (vertexSet = ∅ → g.getMinPathLength costFunctor vertexSet = .ok 0) ∧
    ∀ hne : vertexSet.Nonempty,
      g.getMinPathLength costFunctor vertexSet =
        .ok ((∑ p ∈ vertexSet, g.costOf costFunctor p) -
          vertexSet.sup' hne (g.costOf costFunctor)) ∧
      vertexSet.sup' hne (g.costOf costFunctor) ≤ ∑ p ∈ vertexSet, g.costOf costFunctor p := by
  have hloop := getMinPathLengthLoop_eq g costFunctor (vertexSet.sort (· ≤ ·))
    (fun p hp => hvalid p ((Finset.mem_sort _).mp hp)) 0 0
  have hsum : ((vertexSet.sort (· ≤ ·)).map (g.costOf costFunctor)).sum =
      ∑ p ∈ vertexSet, g.costOf costFunctor p := by
    rw [← List.sum_toFinset _ (Finset.sort_nodup _ _), Finset.sort_toFinset]
  rw [Finset.sort_toFinset, hsum] at hloop
  simp only [Nat.zero_add, Nat.zero_max] at hloop
  constructor
  · rintro rfl
    simp [DirectedGraph.getMinPathLength, getMinPathLengthLoop, sizeSub]
  · intro hne
    have hle : vertexSet.sup' hne (g.costOf costFunctor) ≤
        ∑ p ∈ vertexSet, g.costOf costFunctor p := by
      obtain ⟨q, hq, hqe⟩ := Finset.exists_mem_eq_sup' hne (g.costOf costFunctor)
      rw [hqe]
      exact Finset.single_le_sum (fun _ _ => Nat.zero_le _) hq
    refine ⟨?_, hle⟩
    unfold DirectedGraph.getMinPathLength
    rw [hloop]
    simp only [sizeSub, ← Finset.sup'_eq_sup hne, hle, if_true]

/-- C10, on the three vertices of the chain with `k = 1` (costs 5, 3, 4). -/
theorem getMinPathLength_eq_witness :
    (∀ p ∈ chain3Set, p < chain3.size) ∧
    (chain3Set = ∅ → chain3.getMinPathLength (SimpleDataCost.cost 1) chain3Set = .ok 0) ∧
    ∀ hne : chain3Set.Nonempty,
      chain3.getMinPathLength (SimpleDataCost.cost 1) chain3Set =
        .ok ((∑ p ∈ chain3Set, chain3.costOf (SimpleDataCost.cost 1) p) -
          chain3Set.sup' hne (chain3.costOf (SimpleDataCost.cost 1))) ∧
      chain3Set.sup' hne (chain3.costOf (SimpleDataCost.cost 1)) ≤
        ∑ p ∈ chain3Set, chain3.costOf (SimpleDataCost.cost 1) p :=
  ⟨by decide, getMinPathLength_eq chain3 (SimpleDataCost.cost 1) chain3Set (by decide)⟩

/-- The effect of relaxing a list of edges of the current vertex. -/
theorem relaxEdges_spec (curr cost : Nat) (hcost : cost < 2 ^ 31) (es : List EdgeData)
    (spd : ShortestPathData) (hd : spd.distanceMap curr ≤ INF) :
    let spd' := es.foldl (relaxEdge curr (sizeToInt cost)) spd
    spd'.visitedMap = spd.visitedMap ∧
    spd'.distanceMap curr = spd.distanceMap curr ∧
    (∀ p, (spd'.distanceMap p = spd.distanceMap p ∧ spd'.previousMap p = spd.previousMap p) ∨
      (spd'.distanceMap p = spd.distanceMap curr + cost ∧ spd'.previousMap p = some curr ∧
        spd.distanceMap curr + cost < spd.distanceMap p ∧ ∃ e ∈ es, e.pVertex = p)) ∧
    (∀ e ∈ es, spd'.distanceMap e.pVertex ≤ spd.distanceMap curr + cost) := by
  induction es generalizing spd with
  | nil => simp
  | cons e rest ih =>
    simp only [List.foldl_cons]
    have hsum : sizeAddInt (spd.distanceMap curr) (sizeToInt cost) =
        spd.distanceMap curr + cost :=
      sizeAddInt_of_lt hcost (by rw [INF_eq] at hd; omega)
    -- one step
    have hstep_v : (relaxEdge curr (sizeToInt cost) spd e).visitedMap = spd.visitedMap := by
      simp only [relaxEdge, hsum]; split <;> rfl
    have hstep_c : (relaxEdge curr (sizeToInt cost) spd e).distanceMap curr = spd.distanceMap curr := by
      simp only [relaxEdge, hsum]
      split
      · rename_i hgt
        have : curr ≠ e.pVertex := by
          intro h; rw [← h] at hgt; omega
        simp [Function.update, this]
      · rfl
    have hstep_p : ∀ p,
        ((relaxEdge curr (sizeToInt cost) spd e).distanceMap p = spd.distanceMap p ∧
          (relaxEdge curr (sizeToInt cost) spd e).previousMap p = spd.previousMap p) ∨
        ((relaxEdge curr (sizeToInt cost) spd e).distanceMap p = spd.distanceMap curr + cost ∧
          (relaxEdge curr (sizeToInt cost) spd e).previousMap p = some curr ∧
          spd.distanceMap curr + cost < spd.distanceMap p ∧ e.pVertex = p) := by
      intro p
      simp only [relaxEdge, hsum]
      split
      · rename_i hgt
        by_cases hpe : p = e.pVertex
        · right; subst hpe; simp [Function.update]; exact hgt
        · left; simp [Function.update, hpe]
      · left; exact ⟨rfl, rfl⟩
    have hstep_e : (relaxEdge curr (sizeToInt cost) spd e).distanceMap e.pVertex ≤
        spd.distanceMap curr + cost := by
      simp only [relaxEdge, hsum]
      split
      · simp [Function.update]
      · rename_i hgt; simpa using hgt
    obtain ⟨hv, hc, hp, he⟩ := ih (relaxEdge curr (sizeToInt cost) spd e)
      (by rw [hstep_c]; exact hd)
    refine ⟨hv.trans hstep_v, hc.trans hstep_c, ?_, ?_⟩
    · intro p
      rcases hp p with ⟨h1, h2⟩ | ⟨h1, h2, h3, x, hx, hxp⟩
      · rcases hstep_p p with ⟨h4, h5⟩ | ⟨h4, h5, h6, h7⟩
        · left; exact ⟨h1.trans h4, h2.trans h5⟩
        · right
          exact ⟨h1.trans h4, h2.trans h5, h6, e, List.mem_cons_self _ _, h7⟩
      · right
        rw [hstep_c] at h1 h3
        refine ⟨h1, h2, ?_, x, List.mem_cons_of_mem _ hx, hxp⟩
        rcases hstep_p p with ⟨h4, -⟩ | ⟨h4, -, h6, -⟩
        · rw [← h4]; exact h3
        · rw [h4] at h3; omega
    · intro x hx
      rcases List.mem_cons.mp hx with rfl | hx
      · rcases hp x.pVertex with ⟨h1, -⟩ | ⟨h1, -, -, -⟩
        · rw [h1]; exact hstep_e
        · rw [h1, hstep_c]
      · have := he x hx
        rw [hstep_c] at this
        exact this

/-- The result of the selecting scan. -/
theorem selectScan_spec (spd : ShortestPathData) (l : List Nat) (minCost : Nat)
    (bestIter : Option Nat) :
    let r := selectScan spd l minCost bestIter
    r.1 ≤ minCost ∧
    (∀ p ∈ l, spd.visitedMap p ≠ .VC_BLACK → r.1 ≤ spd.distanceMap p) ∧
    ((r.2 = bestIter ∧ r.1 = minCost ∧
        ∀ p ∈ l, spd.visitedMap p ≠ .VC_BLACK → minCost < spd.distanceMap p) ∨
      (∃ b ∈ l, r.2 = some b ∧ spd.visitedMap b ≠ .VC_BLACK ∧ spd.distanceMap b = r.1)) := by
  induction l generalizing minCost bestIter with
  | nil => simp [selectScan]
  | cons p rest ih =>
    simp only [selectScan]
    by_cases hw : spd.visitedMap p ≠ .VC_BLACK
    · by_cases hle : spd.distanceMap p ≤ minCost
      · rw [if_pos hw, if_pos hle]
        obtain ⟨h1, h2, h3⟩ := ih (spd.distanceMap p) (some p)
        refine ⟨le_trans h1 hle, ?_, ?_⟩
        · intro q hq hqw
          rcases List.mem_cons.mp hq with rfl | hq
          · exact h1
          · exact h2 q hq hqw
        · right
          rcases h3 with ⟨h4, h5, -⟩ | ⟨b, hb, h4, h5, h6⟩
          · exact ⟨p, List.mem_cons_self _ _, h4, hw, h5.symm⟩
          · exact ⟨b, List.mem_cons_of_mem _ hb, h4, h5, h6⟩
      · rw [if_pos hw, if_neg hle]
        obtain ⟨h1, h2, h3⟩ := ih minCost bestIter
        refine ⟨h1, ?_, ?_⟩
        · intro q hq hqw
          rcases List.mem_cons.mp hq with rfl | hq
          · omega
          · exact h2 q hq hqw
        · rcases h3 with ⟨h4, h5, h6⟩ | ⟨b, hb, h4, h5, h6⟩
          · left
            refine ⟨h4, h5, ?_⟩
            intro q hq hqw
            rcases List.mem_cons.mp hq with rfl | hq
            · omega
            · exact h6 q hq hqw
          · right; exact ⟨b, List.mem_cons_of_mem _ hb, h4, h5, h6⟩
    · rw [if_neg hw]
      obtain ⟨h1, h2, h3⟩ := ih minCost bestIter
      refine ⟨h1, ?_, ?_⟩
      · intro q hq hqw
        rcases List.mem_cons.mp hq with rfl | hq
        · exact absurd hqw hw
        · exact h2 q hq hqw
      · rcases h3 with ⟨h4, h5, h6⟩ | ⟨b, hb, h4, h5, h6⟩
        · left
          refine ⟨h4, h5, ?_⟩
          intro q hq hqw
          rcases List.mem_cons.mp hq with rfl | hq
          · exact absurd hqw hw
          · exact h6 q hq hqw
        · right; exact ⟨b, List.mem_cons_of_mem _ hb, h4, h5, h6⟩

theorem DirectedGraph.adjacent_iff {g : DirectedGraph D} {u w : Nat} {v : Vertex D}
    (hv : g.vertexAt u = .ok v) :
    g.Adjacent u w ↔ ∃ e ∈ v.m_edges .SENSE ++ v.m_edges .ANTISENSE, e.pVertex = w := by
  rw [DirectedGraph.vertexAt_eq_ok] at hv
  unfold DirectedGraph.Adjacent DirectedGraph.edgesOf
  rw [hv]
  constructor
  · rintro ⟨d, e, he, rfl⟩
    refine ⟨e, ?_, rfl⟩
    cases d
    · exact List.mem_append_left _ he
    · exact List.mem_append_right _ he
  · rintro ⟨e, he, rfl⟩
    rcases List.mem_append.mp he with he | he
    · exact ⟨.SENSE, e, he, rfl⟩
    · exact ⟨.ANTISENSE, e, he, rfl⟩

/-- One iteration of the loop of `dijkstra` (colouring the current vertex and
relaxing its edges) keeps the invariant. -/
theorem DijkstraInv.step {g : DirectedGraph D} {costFunctor : D → Nat} {s : Nat}
    {spd : ShortestPathData} {k : Nat} {rank : Nat → Nat} {curr : Nat} {v : Vertex D}
    (hinv : DijkstraInv g costFunctor s spd k rank) (hcurr : DijkstraCurr g spd curr)
    (hv : g.vertexAt curr = .ok v) (hfit : costFunctor v.m_data < 2 ^ 31) :
    let spd3 := (v.m_edges .ANTISENSE).foldl (relaxEdge curr (sizeToInt (costFunctor v.m_data)))
      ((v.m_edges .SENSE).foldl (relaxEdge curr (sizeToInt (costFunctor v.m_data)))
        { spd with visitedMap := Function.update spd.visitedMap curr .VC_BLACK })
    DijkstraInv g costFunctor s spd3 (k + 1)
        (fun p => if spd3.visitedMap p = .VC_BLACK then rank p else k + 2) ∧
      (∀ u, spd3.visitedMap u = .VC_BLACK → spd3.distanceMap u ≤ spd.distanceMap curr) ∧
      (∀ w < g.size, spd3.visitedMap w ≠ .VC_BLACK →
        spd.distanceMap curr ≤ spd3.distanceMap w) := by
  intro spd3
  have hcost : costFunctor v.m_data = g.costOf costFunctor curr :=
    (DirectedGraph.costOf_eq hv costFunctor).symm
  have hspd3 : spd3 = (v.m_edges .SENSE ++ v.m_edges .ANTISENSE).foldl
      (relaxEdge curr (sizeToInt (costFunctor v.m_data)))
      { spd with visitedMap := Function.update spd.visitedMap curr .VC_BLACK } := by
    rw [List.foldl_append]
  obtain ⟨R1, R2, R3, R4⟩ := relaxEdges_spec curr (costFunctor v.m_data) hfit
    (v.m_edges .SENSE ++ v.m_edges .ANTISENSE)
    { spd with visitedMap := Function.update spd.visitedMap curr .VC_BLACK }
    (hinv.dist_le curr)
  rw [← hspd3] at R1 R2 R3 R4
  simp only [hcost] at R1 R2 R3 R4
  -- colours after the iteration
  have hblack : ∀ u, spd3.visitedMap u = .VC_BLACK ↔
      (u = curr ∨ spd.visitedMap u = .VC_BLACK) := by
    intro u
    rw [R1]
    by_cases hu : u = curr
    · subst hu; simp
    · simp [Function.update, hu]
  -- black vertices keep distance and predecessor
  have hkeep : ∀ u, spd.distanceMap u ≤ spd.distanceMap curr →
      spd3.distanceMap u = spd.distanceMap u ∧ spd3.previousMap u = spd.previousMap u := by
    intro u hu
    rcases R3 u with h | ⟨-, -, h, -⟩
    · exact h
    · omega
  have hle : ∀ p, spd3.distanceMap p ≤ spd.distanceMap p := by
    intro p
    rcases R3 p with ⟨h, -⟩ | ⟨h1, -, h2, -⟩
    · exact le_of_eq h
    · omega
  have hadj : ∀ w, g.Adjacent curr w →
      spd3.distanceMap w ≤ spd.distanceMap curr + g.costOf costFunctor curr := by
    intro w hw
    obtain ⟨e, he, rfl⟩ := (DirectedGraph.adjacent_iff hv).mp hw
    exact R4 e he
  have hupd_adj : ∀ p, (∃ e ∈ v.m_edges .SENSE ++ v.m_edges .ANTISENSE, e.pVertex = p) →
      g.Adjacent curr p := fun p h => (DirectedGraph.adjacent_iff hv).mpr h
  have hdist_black : ∀ u, spd3.visitedMap u = .VC_BLACK →
      spd.distanceMap u ≤ spd.distanceMap curr := by
    intro u hu
    rcases (hblack u).mp hu with rfl | hu
    · exact le_refl _
    · exact hcurr.black_le u hu
  refine ⟨⟨?_, ?_, ?_, ?_, ?_, ?_, ?_, ?_, ?_, ?_, ?_, ?_⟩, ?_, ?_⟩
  · -- dist_src
    rcases R3 s with ⟨h, -⟩ | ⟨-, -, h, -⟩
    · rw [h]; exact hinv.dist_src
    · rw [hinv.dist_src] at h; omega
  · -- prev_src
    rcases R3 s with ⟨-, h⟩ | ⟨-, -, h, -⟩
    · rw [h]; exact hinv.prev_src
    · rw [hinv.dist_src] at h; omega
  · -- dist_le
    exact fun p => le_trans (hle p) (hinv.dist_le p)
  · -- sound
    intro p hp
    rcases R3 p with ⟨h, -⟩ | ⟨h1, -, h2, h3⟩
    · rw [h] at hp ⊢; exact hinv.sound p hp
    · rw [h1]
      have hc : spd.distanceMap curr < INF := by
        have := hinv.dist_le p
        omega
      exact Walk.snoc (hinv.sound curr hc) (hupd_adj p h3)
  · -- unreached
    intro p hp
    rcases R3 p with ⟨h1, h2⟩ | ⟨h1, -, h2, -⟩
    · rw [h2]; rw [h1] at hp; exact hinv.unreached p hp
    · have := hinv.dist_le p
      omega
  · -- reached
    intro p hp
    rcases R3 p with ⟨h1, h2⟩ | ⟨-, h2, -, -⟩
    · rw [h2]; rw [h1] at hp; exact hinv.reached p hp
    · exact Or.inr ⟨curr, h2⟩
  · -- closed
    intro u hu w hw
    rcases (hblack u).mp hu with rfl | hu'
    · rw [R2]; exact hadj w hw
    · rw [(hkeep u (hcurr.black_le u hu')).1]
      exact le_trans (hle w) (hinv.closed u hu' w hw)
  · -- black_lt
    intro u hu
    rcases (hblack u).mp hu with rfl | hu'
    · exact hcurr.curr_lt
    · exact hinv.black_lt u hu'
  · -- prev_some
    intro p u hpu
    rcases R3 p with ⟨h1, h2⟩ | ⟨h1, h2, h3, h4⟩
    · rw [h2] at hpu
      obtain ⟨hb, hr, ha, hd⟩ := hinv.prev_some p u hpu
      have hb3 : spd3.visitedMap u = .VC_BLACK := (hblack u).mpr (Or.inr hb)
      refine ⟨hb3, ?_, ha, ?_⟩
      · simp only [hb3, if_true]
        have hru := hinv.rank_black u hb
        by_cases hp3 : spd3.visitedMap p = .VC_BLACK
        · simp only [hp3, if_true]; exact hr
        · simp only [hp3, if_false]; omega
      · rw [h1, (hkeep u (hcurr.black_le u hb)).1]; exact hd
    · rw [h2] at hpu
      cases hpu
      have hb3 : spd3.visitedMap curr = .VC_BLACK := (hblack curr).mpr (Or.inl rfl)
      have hp3 : spd3.visitedMap p ≠ .VC_BLACK := by
        intro hp3
        have := hdist_black p hp3
        omega
      refine ⟨hb3, ?_, hupd_adj p h4, by rw [h1, R2]⟩
      simp only [hb3, if_true, hp3, if_false]
      rw [hinv.rank_white curr hcurr.curr_white]
      omega
  · -- rank_black
    intro u hu
    simp only [hu, if_true]
    rcases (hblack u).mp hu with rfl | hu'
    · rw [hinv.rank_white u hcurr.curr_white]
    · exact le_trans (hinv.rank_black u hu') (Nat.le_succ _)
  · -- rank_white
    intro w hw
    simp only [hw, if_false]
  · -- count
    have hset : (Finset.range g.size).filter (fun p => spd3.visitedMap p = .VC_BLACK) =
        insert curr ((Finset.range g.size).filter (fun p => spd.visitedMap p = .VC_BLACK)) := by
      ext u
      simp only [Finset.mem_filter, Finset.mem_range, Finset.mem_insert, hblack]
      constructor
      · rintro ⟨h1, h2 | h2⟩
        · exact Or.inl h2
        · exact Or.inr ⟨h1, h2⟩
      · rintro (rfl | ⟨h1, h2⟩)
        · exact ⟨hcurr.curr_lt, Or.inl rfl⟩
        · exact ⟨h1, Or.inr h2⟩
    rw [hset, Finset.card_insert_of_not_mem, hinv.count]
    simp only [Finset.mem_filter, not_and]
    exact fun _ => hcurr.curr_white
  · -- black vertices stay below the current one
    intro u hu
    rw [(hkeep u (hdist_black u hu)).1]
    exact hdist_black u hu
  · -- every other vertex of the table stays above it
    intro w hwlt hw3
    rcases R3 w with ⟨h1, -⟩ | ⟨h1, -, -, -⟩
    · rw [h1]
      exact hcurr.curr_min w hwlt (fun h => hw3 ((hblack w).mpr (Or.inr h)))
    · omega

/-- The loop of `dijkstra` returns, with every vertex of the table black and
the invariant in force. -/
theorem dijkstraLoop_spec (g : DirectedGraph D) (costFunctor : D → Nat) (s : Nat)
    (hcost : ∀ p < g.size, g.costOf costFunctor p < 2 ^ 31) (fuel : Nat) :
    ∀ (spd : ShortestPathData) (curr k : Nat) (rank : Nat → Nat),
      DijkstraInv g costFunctor s spd k rank → DijkstraCurr g spd curr → k + fuel = g.size →
      ∃ spd' k' rank', dijkstraLoop g costFunctor fuel curr spd = .ok spd' ∧
        DijkstraInv g costFunctor s spd' k' rank' ∧
        ∀ p < g.size, spd'.visitedMap p = .VC_BLACK := by
  induction fuel with
  | zero =>
    intro spd curr k rank hinv hcurr hk
    exfalso
    have hsub : (Finset.range g.size).filter (fun p => spd.visitedMap p = .VC_BLACK) ⊂
        Finset.range g.size := by
      rw [Finset.ssubset_iff_of_subset (Finset.filter_subset _ _)]
      refine ⟨curr, Finset.mem_range.mpr hcurr.curr_lt, ?_⟩
      simp only [Finset.mem_filter, not_and]
      exact fun _ => hcurr.curr_white
    have := Finset.card_lt_card hsub
    rw [hinv.count, Finset.card_range] at this
    omega
  | succ fuel ih =>
    intro spd curr k rank hinv hcurr hk
    obtain ⟨v, hv, -, -⟩ := DirectedGraph.vertexAt_of_lt hcurr.curr_lt
    have hfit : costFunctor v.m_data < 2 ^ 31 := by
      rw [← DirectedGraph.costOf_eq hv costFunctor]
      exact hcost curr hcurr.curr_lt
    obtain ⟨hinv3, hblack3, hwhite3⟩ := hinv.step hcurr hv hfit
    simp only [dijkstraLoop, hv]
    generalize hspd3 : (v.m_edges .ANTISENSE).foldl
      (relaxEdge curr (sizeToInt (costFunctor v.m_data)))
      ((v.m_edges .SENSE).foldl (relaxEdge curr (sizeToInt (costFunctor v.m_data)))
        { spd with visitedMap := Function.update spd.visitedMap curr .VC_BLACK }) = spd3
      at hinv3 hblack3 hwhite3 ⊢
    obtain ⟨-, hmin, hsel⟩ := selectScan_spec spd3 (List.range g.size) INF none
    cases hbest : (selectScan spd3 (List.range g.size) INF none).2 with
    | none =>
      simp only []
      refine ⟨spd3, _, _, rfl, hinv3, ?_⟩
      intro p hp
      rcases hsel with ⟨-, -, hall⟩ | ⟨b, -, hb, -, -⟩
      · by_contra hw
        have := hall p (List.mem_range.mpr hp) hw
        have := hinv3.dist_le p
        omega
      · rw [hbest] at hb; cases hb
    | some best =>
      simp only []
      rcases hsel with ⟨hnone, -, -⟩ | ⟨b, hbmem, hb, hbw, hbd⟩
      · rw [hbest] at hnone; cases hnone
      · rw [hbest] at hb
        cases hb
        have hblt : best < g.size := List.mem_range.mp hbmem
        refine ih spd3 best (k + 1) _ hinv3 ⟨hblt, hbw, ?_, ?_⟩ (by omega)
        · intro u hu
          exact le_trans (hblack3 u hu) (hwhite3 best hblt hbw)
        · intro w hw hww
          rw [hbd]
          exact hmin w (List.mem_range.mpr hw) hww

/-- The call `dijkstra(source)` returns maps that satisfy the invariant with
every vertex of the table black. -/
theorem DirectedGraph.dijkstra_inv (g : DirectedGraph D) (costFunctor : D → Nat) (s : Nat)
    (hs : s < g.size) (hcost : ∀ p < g.size, g.costOf costFunctor p < 2 ^ 31) :
    ∃ spd k rank, g.dijkstra costFunctor s = .ok spd ∧
      DijkstraInv g costFunctor s spd k rank ∧ ∀ p < g.size, spd.visitedMap p = .VC_BLACK := by
  unfold DirectedGraph.dijkstra
  simp only [DirectedGraph.findVertex, hs, if_true]
  have hINF : 0 < INF := by rw [INF_eq]; decide
  have hd : ∀ p, (Function.update (fun _ : Nat => INF) s 0) p = if p = s then 0 else INF := by
    intro p
    by_cases hp : p = s <;> simp [Function.update, hp]
  apply dijkstraLoop_spec g costFunctor s hcost g.size _ s 0 (fun _ => 1)
  · refine ⟨?_, rfl, ?_, ?_, ?_, ?_, ?_, ?_, ?_, ?_, ?_, ?_⟩
    · simp
    · intro p; simp only [hd]; split <;> omega
    · intro p hp
      simp only [hd] at hp ⊢
      split at hp
      · rename_i hps; subst hps; simp only [if_true]; exact Walk.nil
      · omega
    · intro p _; rfl
    · intro p hp
      simp only [hd] at hp
      split at hp
      · rename_i hps; exact Or.inl hps
      · omega
    · intro u hu; cases hu
    · intro u hu; cases hu
    · intro p u hpu; cases hpu
    · intro u hu; cases hu
    · intro w _; rfl
    · simp
  · refine ⟨hs, by simp, ?_, ?_⟩
    · intro u hu; cases hu
    · intro w _ _; simp
  · omega

/-- Under the loop invariant with every vertex of the table black, no walk is
shorter than the recorded distance of its end. -/
theorem DijkstraInv.le_walk {g : DirectedGraph D} {costFunctor : D → Nat} {s : Nat}
    {spd : ShortestPathData} {k : Nat} {rank : Nat → Nat}
    (hinv : DijkstraInv g costFunctor s spd k rank)
    (hall : ∀ p < g.size, spd.visitedMap p = .VC_BLACK)
    {t len : Nat} (hw : Walk g costFunctor s t len) : spd.distanceMap t ≤ len := by
  induction hw with
  | nil => rw [hinv.dist_src]
  | snoc hw' hadj ih =>
    rename_i u w len'
    have hu : u < g.size := by
      obtain ⟨d, e, he, -⟩ := hadj
      exact DirectedGraph.lt_size_of_mem he
    have := hinv.closed u (hall u hu) w hadj
    omega

/-- A walk that does not end at the source has a last step. -/
theorem Walk.last_step {g : DirectedGraph D} {costFunctor : D → Nat} {s t len : Nat}
    (hw : Walk g costFunctor s t len) (hts : t ≠ s) :
    ∃ u len', Walk g costFunctor s u len' ∧ g.Adjacent u t ∧
      len = len' + g.costOf costFunctor u := by
  cases hw with
  | nil => exact absurd rfl hts
  | snoc hw' hadj => exact ⟨_, _, hw', hadj, rfl⟩

/-- C5, as amended: correctness of `dijkstra` for costs that fit an `int`. When
every cost is below `2^31` and every reachable vertex has a walk from the
source of length below `INF`, the call returns; the distance of the source is
0; the distance of every reachable vertex is the least length of a walk from
the source to it through edges of either direction; every unreachable vertex
keeps the distance `INF` and a null predecessor. -/
theorem dijkstra_correct (g : DirectedGraph D) (costFunctor : D → Nat) (s : Nat)
    (hs : s < g.size) (hcost : ∀ p < g.size, g.costOf costFunctor p < 2 ^ 31)
    (hINF : ∀ t len, Walk g costFunctor s t len → ∃ len', len' < INF ∧ Walk g costFunctor s t len') :
    ∃ spd, g.dijkstra costFunctor s = .ok spd ∧ spd.distanceMap s = 0 ∧
      (∀ t len, Walk g costFunctor s t len →
        Walk g costFunctor s t (spd.distanceMap t) ∧ spd.distanceMap t ≤ len) ∧
      (∀ t, (¬ ∃ len, Walk g costFunctor s t len) →
        spd.distanceMap t = INF ∧ spd.previousMap t = none) := by
  obtain ⟨spd, k, rank, hrun, hinv, hall⟩ := DirectedGraph.dijkstra_inv g costFunctor s hs hcost
  refine ⟨spd, hrun, hinv.dist_src, ?_, ?_⟩
  · intro t len hw
    refine ⟨?_, hinv.le_walk hall hw⟩
    obtain ⟨len', hlt, hw'⟩ := hINF t len hw
    have := hinv.le_walk hall hw'
    exact hinv.sound t (by omega)
  · intro t ht
    have hd : spd.distanceMap t = INF := by
      by_contra hne
      have := hinv.dist_le t
      exact ht ⟨_, hinv.sound t (by omega)⟩
    exact ⟨hd, hinv.unreached t hd⟩

theorem chain_concat {α : Type} {R : α → α → Prop} {a u t : α} {l : List α}
    (hc : List.Chain R a l) (hlast : (a :: l).getLast? = some u) (hr : R u t) :
    List.Chain R a (l ++ [t]) := by
  induction l generalizing a with
  | nil =>
    simp only [List.getLast?_singleton, Option.some.injEq] at hlast
    subst hlast
    exact List.Chain.cons hr List.Chain.nil
  | cons b rest ih =>
    rw [List.chain_cons] at hc
    rw [List.getLast?_cons_cons] at hlast
    exact List.Chain.cons hc.1 (ih hc.2 hlast)

theorem sum_map_eq_dropLast_add {α : Type} (f : α → Nat) {a u : α} {l : List α}
    (hlast : (a :: l).getLast? = some u) :
    ((a :: l).map f).sum = (((a :: l).dropLast).map f).sum + f u := by
  induction l generalizing a with
  | nil =>
    simp only [List.getLast?_singleton, Option.some.injEq] at hlast
    subst hlast
    simp
  | cons b rest ih =>
    rw [List.getLast?_cons_cons] at hlast
    rw [List.dropLast_cons_of_ne_nil (List.cons_ne_nil _ _), List.map_cons, List.sum_cons,
      ih hlast, List.map_cons, List.sum_cons, Nat.add_assoc]

theorem getLast?_cons_concat {α : Type} (a t : α) (l : List α) :
    (a :: (l ++ [t])).getLast? = some t := by
  rw [← List.cons_append, List.getLast?_append]
  simp

theorem dropLast_cons_concat {α : Type} (a t : α) (l : List α) :
    (a :: (l ++ [t])).dropLast = a :: l := by
  rw [← List.cons_append, List.dropLast_concat]

/-- The loop of `extractShortestPath` from a vertex with a recorded distance. -/
theorem extractShortestPathLoop_spec {g : DirectedGraph D} {costFunctor : D → Nat} {s : Nat}
    {spd : ShortestPathData} {k : Nat} {rank : Nat → Nat}
    (hinv : DijkstraInv g costFunctor s spd k rank) (hkeys : KeysDense g)
    (hvalid : ValidPointers g) (hs : s < g.size) (fuel : Nat) :
    ∀ (t : Nat) (acc : List Nat), spd.distanceMap t < INF → rank t < fuel →
      ∃ l, extractShortestPathLoop g spd.previousMap s fuel (some t) acc =
          .ok (acc ++ l.reverse) ∧
        List.Chain (fun a b => spd.previousMap b = some a) s l ∧
        List.Chain (fun a b => g.Adjacent a b) s l ∧
        (s :: l).getLast? = some t ∧ s ∉ l ∧ (t = s → l = []) ∧
        (((s :: l).dropLast).map (g.costOf costFunctor)).sum = spd.distanceMap t := by
  induction fuel with
  | zero => intro t acc _ h; omega
  | succ fuel ih =>
    intro t acc hdist hrank
    by_cases hts : t = s
    · subst hts
      refine ⟨[], by simp [extractShortestPathLoop], List.Chain.nil, List.Chain.nil, rfl,
        by simp, fun _ => rfl, ?_⟩
      simp [hinv.dist_src]
    · rcases hinv.reached t hdist with h | ⟨u, hu⟩
      · exact absurd h hts
      · obtain ⟨hub, hur, hadj, hd⟩ := hinv.prev_some t u hu
        have htlt : t < g.size := by
          obtain ⟨d, e, he, rfl⟩ := hadj
          exact hvalid u (DirectedGraph.lt_size_of_mem he) d e he
        obtain ⟨v, hv, hvt, -⟩ := DirectedGraph.vertexAt_of_lt htlt
        have hkey : v.m_key = t := by
          have := hkeys t htlt
          simp only [DirectedGraph.labelOf, hvt, Option.map_some', Option.some.injEq] at this
          exact this
        obtain ⟨l, hl, hc1, hc2, hlast, hsl, -, hsum⟩ := ih u (acc ++ [t]) (by omega) (by omega)
        refine ⟨l ++ [t], ?_, chain_concat hc1 hlast hu, chain_concat hc2 hlast hadj,
          getLast?_cons_concat s t l, ?_, fun h => absurd h hts, ?_⟩
        · have hne : (some t : Option Nat) ≠ some s := by
            simpa using hts
          simp only [extractShortestPathLoop, hne, if_false, hv, hkey, hu, hl,
            List.reverse_append, List.reverse_singleton, List.singleton_append,
            List.append_assoc]
        · simp only [List.mem_append, List.mem_singleton, not_or]
          exact ⟨hsl, Ne.symm hts⟩
        · rw [dropLast_cons_concat, sum_map_eq_dropLast_add _ hlast, hsum, hd]

theorem Walk.lt_size {g : DirectedGraph D} {costFunctor : D → Nat} {s t len : Nat}
    (hvalid : ValidPointers g) (hs : s < g.size) (hw : Walk g costFunctor s t len) :
    t < g.size := by
  induction hw with
  | nil => exact hs
  | snoc _ hadj _ =>
    obtain ⟨d, e, he, rfl⟩ := hadj
    exact hvalid _ (DirectedGraph.lt_size_of_mem he) d e he

/-- C6, as amended: `extractShortestPath` reconstructs a shortest path when every
cost fits an `int`, to every target that has a walk from the source of length
below `INF`. After `dijkstra(source)` and with an empty output, the call returns
keys `k1..kn` with `previous(k1) = source` and `previous(k(i+1)) = k(i)`, ending
in the target; the source is not among them (the output is empty when the
target is the source); `source, k1, ..., kn` is a walk whose length is
`distanceMap[target]`. -/
theorem extractShortestPath_correct (g : DirectedGraph D) (costFunctor : D → Nat) (s t : Nat)
    (spd : ShortestPathData) (len : Nat) (hs : s < g.size) (hkeys : KeysDense g)
    (hvalid : ValidPointers g) (hcost : ∀ p < g.size, g.costOf costFunctor p < 2 ^ 31)
    (hrun : g.dijkstra costFunctor s = .ok spd)
    (hreach : Walk g costFunctor s t len) (hlt : len < INF) :
    ∃ path, g.extractShortestPath s t spd [] = .ok path ∧
      List.Chain (fun a b => spd.previousMap b = some a) s path ∧
      List.Chain (fun a b => g.Adjacent a b) s path ∧
      (s :: path).getLast? = some t ∧ s ∉ path ∧ (t = s → path = []) ∧
      (((s :: path).dropLast).map (g.costOf costFunctor)).sum = spd.distanceMap t := by
  obtain ⟨spd', k, rank, hrun', hinv, hall⟩ :=
    DirectedGraph.dijkstra_inv g costFunctor s hs hcost
  rw [hrun] at hrun'
  cases hrun'
  have htlt : t < g.size := hreach.lt_size hvalid hs
  have hk : k ≤ g.size := by
    rw [← hinv.count]
    exact le_trans (Finset.card_filter_le _ _) (le_of_eq (Finset.card_range _))
  have hrank := hinv.rank_black t (hall t htlt)
  have hdist := hinv.le_walk hall hreach
  obtain ⟨l, hl, h1, h2, h3, h4, h5, h6⟩ := extractShortestPathLoop_spec hinv hkeys hvalid hs
    (g.size + 1) t [] (by omega) (by omega)
  refine ⟨l, ?_, h1, h2, h3, h4, h5, h6⟩
  simp [DirectedGraph.extractShortestPath, hl]

/-- The bound `INF` on the distance of the target is needed also when every
cost fits an `int`: a target that is reachable, but by no walk of length below
`INF`, keeps the distance `INF` and a null predecessor, and
`extractShortestPath` follows the null pointer. -/
theorem extractShortestPath_beyond_INF (g : DirectedGraph D) (costFunctor : D → Nat)
    (s t : Nat) (spd : ShortestPathData) (len : Nat) (hs : s < g.size)
    (hvalid : ValidPointers g) (hcost : ∀ p < g.size, g.costOf costFunctor p < 2 ^ 31)
    (hrun : g.dijkstra costFunctor s = .ok spd) (hreach : Walk g costFunctor s t len)
    (hfar : ∀ len', Walk g costFunctor s t len' → INF ≤ len') :
    spd.distanceMap t = INF ∧ spd.previousMap t = none ∧
      g.extractShortestPath s t spd [] = .error .badPointer := by
  obtain ⟨spd', k, rank, hrun', hinv, -⟩ :=
    DirectedGraph.dijkstra_inv g costFunctor s hs hcost
  rw [hrun] at hrun'
  cases hrun'
  have hd : spd.distanceMap t = INF := by
    by_contra hne
    have hle := hinv.dist_le t
    have := hfar _ (hinv.sound t (by omega))
    omega
  have hprev := hinv.unreached t hd
  have hts : t ≠ s := by
    intro h
    subst h
    have := hfar 0 Walk.nil
    rw [INF_eq] at this
    omega
  have htlt : t < g.size := hreach.lt_size hvalid hs
  obtain ⟨v, hv, -, -⟩ := DirectedGraph.vertexAt_of_lt htlt
  obtain ⟨n, hn⟩ : ∃ n, g.size = n + 1 := ⟨g.size - 1, by omega⟩
  have hne : (some t : Option Nat) ≠ some s := by simpa using hts
  refine ⟨hd, hprev, ?_⟩
  simp [DirectedGraph.extractShortestPath, hn, extractShortestPathLoop, hne, hv, hprev]

/-- C5 as stated fails: the cost is stored in an `int`. In `triangle3` every
vertex is at a distance of at most 1 from vertex 0, far below `INF`, and vertex
2 is at distance 1; the cost `2^32 - 1` of vertex 1 is read as `-1`, and
`dijkstra` records the distance 0 for vertex 2. -/
theorem dijkstra_counterexample :
    0 < triangle3.size ∧
    (∀ t len, Walk triangle3 (SimpleDataCost.cost 1) 0 t len →
      ∃ len', len' < INF ∧ Walk triangle3 (SimpleDataCost.cost 1) 0 t len') ∧
    Walk triangle3 (SimpleDataCost.cost 1) 0 2 1 ∧
    (∀ len, Walk triangle3 (SimpleDataCost.cost 1) 0 2 len → 1 ≤ len) ∧
    ∃ spd, triangle3.dijkstra (SimpleDataCost.cost 1) 0 = .ok spd ∧
      spd.distanceMap 2 = 0 := by
  have w0 : Walk triangle3 (SimpleDataCost.cost 1) 0 0 0 := Walk.nil
  have w1 : Walk triangle3 (SimpleDataCost.cost 1) 0 1 1 :=
    Walk.snoc w0 ⟨.SENSE, ⟨1, false⟩, by decide, rfl⟩
  have w2 : Walk triangle3 (SimpleDataCost.cost 1) 0 2 1 :=
    Walk.snoc w0 ⟨.ANTISENSE, ⟨2, false⟩, by decide, rfl⟩
  refine ⟨by decide, ?_, w2, ?_, _, rfl, by decide⟩
  · intro t len hw
    have ht : t < 3 := hw.lt_size (by decide) (by decide)
    match t, ht with
    | 0, _ => exact ⟨0, by decide, w0⟩
    | 1, _ => exact ⟨1, by decide, w1⟩
    | 2, _ => exact ⟨1, by decide, w2⟩
  · intro len hw
    obtain ⟨u, len', -, hadj, rfl⟩ := hw.last_step (by decide)
    have hu : u < 3 := by
      obtain ⟨d, e, he, -⟩ := hadj
      exact DirectedGraph.lt_size_of_mem he
    have hc : 1 ≤ triangle3.costOf (SimpleDataCost.cost 1) u := by
      match u, hu with
      | 0, _ => decide
      | 1, _ => decide
      | 2, _ => decide
    omega

/-- C5 as amended, on the line `A - B - C - D` with cost 1 each: the distances
from `A` are 0, 1, 2, 3. -/
theorem dijkstra_correct_witness :
    0 < line4.size ∧ (∀ p < line4.size, line4.costOf (SimpleDataCost.cost 1) p < 2 ^ 31) ∧
    (∀ t len, Walk line4 (SimpleDataCost.cost 1) 0 t len →
      ∃ len', len' < INF ∧ Walk line4 (SimpleDataCost.cost 1) 0 t len') ∧
    (∃ spd, line4.dijkstra (SimpleDataCost.cost 1) 0 = .ok spd ∧ spd.distanceMap 0 = 0 ∧
      (∀ t len, Walk line4 (SimpleDataCost.cost 1) 0 t len →
        Walk line4 (SimpleDataCost.cost 1) 0 t (spd.distanceMap t) ∧
          spd.distanceMap t ≤ len) ∧
      (∀ t, (¬ ∃ len, Walk line4 (SimpleDataCost.cost 1) 0 t len) →
        spd.distanceMap t = INF ∧ spd.previousMap t = none)) ∧
    (∃ spd, line4.dijkstra (SimpleDataCost.cost 1) 0 = .ok spd ∧
      (List.range 4).map spd.distanceMap = [0, 1, 2, 3]) := by
  have w0 : Walk line4 (SimpleDataCost.cost 1) 0 0 0 := Walk.nil
  have w1 : Walk line4 (SimpleDataCost.cost 1) 0 1 1 :=
    Walk.snoc w0 ⟨.SENSE, ⟨1, false⟩, by decide, rfl⟩
  have w2 : Walk line4 (SimpleDataCost.cost 1) 0 2 2 :=
    Walk.snoc w1 ⟨.SENSE, ⟨2, false⟩, by decide, rfl⟩
  have w3 : Walk line4 (SimpleDataCost.cost 1) 0 3 3 :=
    Walk.snoc w2 ⟨.SENSE, ⟨3, false⟩, by decide, rfl⟩
  have hINF : ∀ t len, Walk line4 (SimpleDataCost.cost 1) 0 t len →
      ∃ len', len' < INF ∧ Walk line4 (SimpleDataCost.cost 1) 0 t len' := by
    intro t len hw
    have ht : t < 4 := hw.lt_size (by decide) (by decide)
    match t, ht with
    | 0, _ => exact ⟨0, by decide, w0⟩
    | 1, _ => exact ⟨1, by decide, w1⟩
    | 2, _ => exact ⟨2, by decide, w2⟩
    | 3, _ => exact ⟨3, by decide, w3⟩
  exact ⟨by decide, by decide, hINF,
    dijkstra_correct line4 (SimpleDataCost.cost 1) 0 (by decide) (by decide) hINF,
    _, rfl, by decide⟩

/-- C6 as stated fails: the cost is stored in an `int`. In `triangle3` vertex 2
is reachable from vertex 0; `dijkstra` reads the cost `2^32 - 1` of vertex 1 as
`-1` and records the distance 0 and the predecessor 1 for vertex 2;
`extractShortestPath` returns the keys 1, 2, and the walk 0, 1, 2 has the
length `2^32`, not `distanceMap[2] = 0`. -/
theorem extractShortestPath_counterexample :
    (∃ len, Walk triangle3 (SimpleDataCost.cost 1) 0 2 len) ∧
    ∃ spd, triangle3.dijkstra (SimpleDataCost.cost 1) 0 = .ok spd ∧
      triangle3.extractShortestPath 0 2 spd [] = .ok [1, 2] ∧
      spd.distanceMap 2 = 0 ∧
      ((([0, 1, 2] : List Nat).dropLast).map (triangle3.costOf (SimpleDataCost.cost 1))).sum
        = 2 ^ 32 := by
  refine ⟨⟨_, Walk.snoc Walk.nil ⟨.ANTISENSE, ⟨2, false⟩, by decide, rfl⟩⟩,
    _, rfl, by rfl, by decide, by decide⟩

/-- C6 as amended, on the line `A - B - C - D` with cost 1 each: the path from
`A` to `D` is the keys of `B`, `C`, `D`. -/
theorem extractShortestPath_correct_witness :
    0 < line4.size ∧ KeysDense line4 ∧ ValidPointers line4 ∧
    (∀ p < line4.size, line4.costOf (SimpleDataCost.cost 1) p < 2 ^ 31) ∧
    ∃ spd, line4.dijkstra (SimpleDataCost.cost 1) 0 = .ok spd ∧
      Walk line4 (SimpleDataCost.cost 1) 0 3 3 ∧ 3 < INF ∧
      line4.extractShortestPath 0 3 spd [] = .ok [1, 2, 3] ∧
      ∃ path, line4.extractShortestPath 0 3 spd [] = .ok path ∧
        List.Chain (fun a b => spd.previousMap b = some a) 0 path ∧
        List.Chain (fun a b => line4.Adjacent a b) 0 path ∧
        (0 :: path).getLast? = some 3 ∧ 0 ∉ path ∧ (3 = 0 → path = []) ∧
        (((0 :: path).dropLast).map (line4.costOf (SimpleDataCost.cost 1))).sum =
          spd.distanceMap 3 := by
  have w3 : Walk line4 (SimpleDataCost.cost 1) 0 3 3 :=
    Walk.snoc (Walk.snoc (Walk.snoc Walk.nil ⟨.SENSE, ⟨1, false⟩, by decide, rfl⟩)
      ⟨.SENSE, ⟨2, false⟩, by decide, rfl⟩) ⟨.SENSE, ⟨3, false⟩, by decide, rfl⟩
  exact ⟨by decide, by decide, by decide, by decide, _, rfl, w3, by decide, rfl,
    extractShortestPath_correct line4 (SimpleDataCost.cost 1) 0 3 _ 3 (by decide) (by decide)
      (by decide) (by decide) rfl w3 (by decide)⟩

/-! ## Edge bookkeeping on one vertex -/

theorem Vertex.addEdge_eq_error {v : Vertex D} {t : Nat} {d : extDirection} {r : Bool}
    (h : (⟨t, r⟩ : EdgeData) ∈ v.m_edges d) : v.addEdge t d r = .error .assertion := by
  unfold Vertex.addEdge
  have : (v.m_edges d).any (fun e => decide (e = ⟨t, r⟩)) = true := by
    rw [List.any_eq_true]
    exact ⟨_, h, by simp⟩
  simp only [this, if_true]

theorem Vertex.addEdge_eq_ok {v : Vertex D} {t : Nat} {d : extDirection} {r : Bool}
    (h : (⟨t, r⟩ : EdgeData) ∉ v.m_edges d) :
    v.addEdge t d r = .ok (v.setEdges d (v.m_edges d ++ [⟨t, r⟩])) := by
  unfold Vertex.addEdge
  have : (v.m_edges d).any (fun e => decide (e = ⟨t, r⟩)) = false := by
    simp only [List.any_eq_false, decide_eq_true_eq]
    intro x hx hxe
    exact h (hxe ▸ hx)
  simp only [this, Bool.false_eq_true, if_false]

/-- A completed run of `addEdge` calls keeps collections free of duplicates. -/
theorem Vertex.addEdges_nodup {v w : Vertex D} {ops : List (Nat × extDirection × Bool)}
    (hv : ∀ d, (v.m_edges d).Nodup) (h : v.addEdges ops = .ok w) :
    ∀ d, (w.m_edges d).Nodup := by
  induction ops generalizing v with
  | nil =>
    simp only [Vertex.addEdges, Except.ok.injEq] at h
    subst h
    exact hv
  | cons op rest ih =>
    obtain ⟨t, d, r⟩ := op
    simp only [Vertex.addEdges] at h
    by_cases hmem : (⟨t, r⟩ : EdgeData) ∈ v.m_edges d
    · rw [Vertex.addEdge_eq_error hmem] at h
      cases h
    · rw [Vertex.addEdge_eq_ok hmem] at h
      refine ih ?_ h
      intro d'
      rw [Vertex.m_edges_setEdges]
      split
      · exact List.Nodup.append (hv d) (List.nodup_singleton _) (by simpa using hmem)
      · exact hv d'

/-- C11: `Vertex::addEdge`. The call fails fatally exactly when the collection
of the direction already holds `(t, r)`; otherwise it appends `(t, r)` at the
end of that collection and changes nothing else of the vertex; called through a
pointer into the table it leaves every other vertex as it was. A collection
built from an empty one by calls of `addEdge` never holds a duplicate. -/
theorem addEdge_spec (v : Vertex D) (t : Nat) (d : extDirection) (r : Bool) :
    (v.addEdge t d r = .error .assertion ↔ (⟨t, r⟩ : EdgeData) ∈ v.m_edges d) ∧
    ((⟨t, r⟩ : EdgeData) ∉ v.m_edges d →
      ∃ w, v.addEdge t d r = .ok w ∧ w.m_edges d = v.m_edges d ++ [⟨t, r⟩] ∧
        (w.m_edges d).length = (v.m_edges d).length + 1 ∧
        w.m_edges d.flip = v.m_edges d.flip ∧ w.m_key = v.m_key ∧ w.m_data = v.m_data) ∧
    (∀ (g g' : DirectedGraph D) (p : Nat), g.addEdgeAt none p t d r = .ok g' →
      ∀ q, q ≠ p → g'.m_vertexTable[q]? = g.m_vertexTable[q]?) ∧
    (∀ (key : Nat) (data : D) (ops : List (Nat × extDirection × Bool)) (w : Vertex D),
      (⟨key, data, [], []⟩ : Vertex D).addEdges ops = .ok w → ∀ d', (w.m_edges d').Nodup) := by
  refine ⟨?_, ?_, ?_, ?_⟩
  · constructor
    · intro h
      by_contra hmem
      rw [Vertex.addEdge_eq_ok hmem] at h
      cases h
    · exact Vertex.addEdge_eq_error
  · intro hmem
    refine ⟨_, Vertex.addEdge_eq_ok hmem, by simp, by simp, by simp, by simp, by simp⟩
  · intro g g' p h q hq
    rw [DirectedGraph.addEdgeAt_eq_ok] at h
    obtain ⟨-, -, -, rfl⟩ := h
    unfold DirectedGraph.mapEdges
    cases hp : g.m_vertexTable[p]? with
    | none => rfl
    | some vp => simp [DirectedGraph.setVertex, List.getElem?_set, Ne.symm hq]
  · intro key data ops w h d'
    exact Vertex.addEdges_nodup (fun d => by cases d <;> exact List.nodup_nil) h d'

/-- C11, on `sampleVertex`: adding `(2, true)` again in direction `SENSE`
fails, adding `(5, false)` appends it. -/
theorem addEdge_spec_witness :
    sampleVertex.addEdge 2 .SENSE true = .error .assertion ∧
    (⟨5, false⟩ : EdgeData) ∉ sampleVertex.m_edges .SENSE ∧
    ∃ w, sampleVertex.addEdge 5 .SENSE false = .ok w ∧
      w.m_edges .SENSE = [⟨1, false⟩, ⟨2, true⟩, ⟨5, false⟩] ∧
      w.m_edges .ANTISENSE = [⟨3, false⟩] :=
  ⟨((addEdge_spec sampleVertex 2 .SENSE true).1).mpr (by decide), by decide,
    by
      obtain ⟨w, h1, h2, -, h3, -, -⟩ :=
        (addEdge_spec sampleVertex 5 .SENSE false).2.1 (by decide)
      exact ⟨w, h1, h2, h3⟩⟩

theorem findEdge_split {data : EdgeData} {l : List EdgeData} {i : Nat}
    (h : findEdge data l = some i) :
    ∃ pre post, l = pre ++ data :: post ∧ data ∉ pre ∧ pre.length = i ∧
      l.eraseIdx i = pre ++ post := by
  induction l generalizing i with
  | nil => simp [findEdge] at h
  | cons e rest ih =>
    by_cases he : e = data
    · subst he
      simp only [findEdge, if_true, Option.some.injEq] at h
      subst h
      exact ⟨[], rest, rfl, by simp, rfl, rfl⟩
    · simp only [findEdge, he, if_false, Option.map_eq_some'] at h
      obtain ⟨j, hj, rfl⟩ := h
      obtain ⟨pre, post, hl, hpre, hlen, herase⟩ := ih hj
      refine ⟨e :: pre, post, by rw [hl]; rfl, ?_, by simp [hlen], ?_⟩
      · simp only [List.mem_cons, not_or]
        exact ⟨Ne.symm he, hpre⟩
      · rw [List.eraseIdx_cons_succ, herase]; rfl

/-- C12: `Vertex::removeEdge`. The call fails fatally exactly when the
collection of the direction holds no edge equal to `(t, r)`; otherwise it
removes the first such edge and nothing else: the length drops by one, the
other edges keep their order, the other direction is unchanged, and a
collection without duplicates no longer holds `(t, r)`. -/
theorem removeEdge_spec (v : Vertex D) (t : Nat) (d : extDirection) (r : Bool) :
    (v.removeEdge t d r = .error .assertion ↔ (⟨t, r⟩ : EdgeData) ∉ v.m_edges d) ∧
    ((⟨t, r⟩ : EdgeData) ∈ v.m_edges d →
      ∃ w pre post, v.removeEdge t d r = .ok w ∧
        v.m_edges d = pre ++ ⟨t, r⟩ :: post ∧ (⟨t, r⟩ : EdgeData) ∉ pre ∧
        w.m_edges d = pre ++ post ∧
        (w.m_edges d).length + 1 = (v.m_edges d).length ∧
        w.m_edges d.flip = v.m_edges d.flip ∧ w.m_key = v.m_key ∧ w.m_data = v.m_data ∧
        ((v.m_edges d).Nodup → (⟨t, r⟩ : EdgeData) ∉ w.m_edges d)) := by
  unfold Vertex.removeEdge Vertex.getEdge
  cases hf : findEdge ⟨t, r⟩ (v.m_edges d) with
  | none =>
    have hmem := findEdge_eq_none.mp hf
    exact ⟨by simp [hmem], fun h => absurd h hmem⟩
  | some i =>
    have hmem : (⟨t, r⟩ : EdgeData) ∈ v.m_edges d := findEdge_isSome.mp ⟨i, hf⟩
    refine ⟨by simp [hmem], fun _ => ?_⟩
    obtain ⟨pre, post, hl, hpre, -, herase⟩ := findEdge_split hf
    have hw : (v.setEdges d ((v.m_edges d).eraseIdx i)).m_edges d = pre ++ post := by
      simp [herase]
    refine ⟨_, pre, post, rfl, hl, hpre, hw, ?_, by simp, by simp, by simp, ?_⟩
    · rw [hw, hl]
      simp only [List.length_append, List.length_cons]
      omega
    intro hnd
    rw [hw]
    rw [hl] at hnd
    have h1 := List.nodup_append.mp hnd
    have h2 := (List.nodup_cons.mp h1.2.1).1
    simp only [List.mem_append, not_or]
    exact ⟨hpre, h2⟩

/-- C12, on `sampleVertex`: removing `(1, false)` from direction `SENSE`
leaves `(2, true)`, removing the absent `(4, false)` fails. -/
theorem removeEdge_spec_witness :
    sampleVertex.removeEdge 4 .SENSE false = .error .assertion ∧
    (⟨1, false⟩ : EdgeData) ∈ sampleVertex.m_edges .SENSE ∧
    ∃ w, sampleVertex.removeEdge 1 .SENSE false = .ok w ∧
      w.m_edges .SENSE = [⟨2, true⟩] ∧ w.m_edges .ANTISENSE = [⟨3, false⟩] :=
  ⟨((removeEdge_spec sampleVertex 4 .SENSE false).1).mpr (by decide), by decide,
    ⟨_, rfl, rfl, rfl⟩⟩

/-- C13: add/remove round trip. When the collection of direction `d` has no
duplicates and does not hold `(b, r)`, `addEdge(b, d, r)` followed by
`removeEdge(b, d, r)` succeeds and gives back the vertex as it was: the same
edges in the same order in both directions. -/
theorem addEdge_removeEdge_roundtrip (a : Vertex D) (b : Nat) (d : extDirection) (r : Bool)
    (_hnd : (a.m_edges d).Nodup) (hnot : (⟨b, r⟩ : EdgeData) ∉ a.m_edges d) :
    ∃ a1 a2, a.addEdge b d r = .ok a1 ∧ a1.removeEdge b d r = .ok a2 ∧ a2 = a ∧
      ∀ d', a2.m_edges d' = a.m_edges d' ∧ (a2.m_edges d').length = (a.m_edges d').length := by
  have hfind : findEdge ⟨b, r⟩ (a.m_edges d ++ [⟨b, r⟩]) = some (a.m_edges d).length := by
    generalize a.m_edges d = l at hnot
    induction l with
    | nil => simp [findEdge]
    | cons e rest ih =>
      simp only [List.mem_cons, not_or] at hnot
      simp [findEdge, Ne.symm hnot.1, ih hnot.2]
  have hback : (a.setEdges d (a.m_edges d ++ [⟨b, r⟩])).removeEdge b d r = .ok a := by
    unfold Vertex.removeEdge Vertex.getEdge
    simp only [Vertex.m_edges_setEdges, if_true, hfind, List.eraseIdx_append_of_length_le
      (le_refl _), Nat.sub_self, List.eraseIdx_cons_zero, List.append_nil]
    cases d <;> rfl
  exact ⟨_, a, Vertex.addEdge_eq_ok hnot, hback, rfl, fun d' => ⟨rfl, rfl⟩⟩

/-- C13, on `sampleVertex` with the edge `(5, false)` in direction `SENSE`. -/
theorem addEdge_removeEdge_roundtrip_witness :
    (sampleVertex.m_edges .SENSE).Nodup ∧
    (⟨5, false⟩ : EdgeData) ∉ sampleVertex.m_edges .SENSE ∧
    ∃ a1 a2, sampleVertex.addEdge 5 .SENSE false = .ok a1 ∧
      a1.removeEdge 5 .SENSE false = .ok a2 ∧ a2 = sampleVertex ∧
      ∀ d', a2.m_edges d' = sampleVertex.m_edges d' ∧
        (a2.m_edges d').length = (sampleVertex.m_edges d').length :=
  ⟨by decide, by decide,
    addEdge_removeEdge_roundtrip sampleVertex 5 .SENSE false (by decide) (by decide)⟩

/-- C14 as stated fails: direction `ANTISENSE` of `sampleVertex` holds exactly
one edge, `(3, false)`, but the query for `(4, false)` does not return true: it
fails the assertion that the queried edge is found. -/
theorem isEdgeUnique_counterexample :
    1 ≤ (sampleVertex.m_edges .ANTISENSE).length ∧
    sampleVertex.isEdgeUnique 4 .ANTISENSE false = .error .assertion ∧
    ¬ (sampleVertex.isEdgeUnique 4 .ANTISENSE false = .ok true ↔
      (sampleVertex.m_edges .ANTISENSE).length = 1) := by
  refine ⟨by decide, rfl, ?_⟩
  intro h
  have := h.mpr (by decide)
  cases this

/-- C14, as amended: uniqueness. For a queried `(t, r)` that the collection of
direction `d` holds, `isEdgeUnique` returns, and it returns true exactly when
the collection has one edge; for a query that the collection does not hold the
call fails fatally. -/
theorem isEdgeUnique_spec (v : Vertex D) (t : Nat) (d : extDirection) (r : Bool) :
    ((⟨t, r⟩ : EdgeData) ∈ v.m_edges d →
      ∃ b, v.isEdgeUnique t d r = .ok b ∧ (b = true ↔ (v.m_edges d).length = 1)) ∧
    ((⟨t, r⟩ : EdgeData) ∉ v.m_edges d → v.isEdgeUnique t d r = .error .assertion) := by
  unfold Vertex.isEdgeUnique Vertex.getEdge Vertex.numEdges
  cases hf : findEdge ⟨t, r⟩ (v.m_edges d) with
  | none =>
    have hmem := findEdge_eq_none.mp hf
    exact ⟨fun h => absurd h hmem, fun _ => rfl⟩
  | some i =>
    have hmem : (⟨t, r⟩ : EdgeData) ∈ v.m_edges d := findEdge_isSome.mp ⟨i, hf⟩
    exact ⟨fun _ => ⟨_, rfl, by simp⟩, fun h => absurd hmem h⟩

/-- C14 as amended, on `sampleVertex`: the query for `(3, false)` in direction
`ANTISENSE` (one edge) returns true, the query for `(1, false)` in direction
`SENSE` (two edges) returns false. -/
theorem isEdgeUnique_spec_witness :
    (⟨3, false⟩ : EdgeData) ∈ sampleVertex.m_edges .ANTISENSE ∧
    sampleVertex.isEdgeUnique 3 .ANTISENSE false = .ok true ∧
    sampleVertex.isEdgeUnique 1 .SENSE false = .ok false ∧
    ∃ b, sampleVertex.isEdgeUnique 3 .ANTISENSE false = .ok b ∧
      (b = true ↔ (sampleVertex.m_edges .ANTISENSE).length = 1) :=
  ⟨by decide, rfl, rfl, (isEdgeUnique_spec sampleVertex 3 .ANTISENSE false).1 (by decide)⟩

/-! ## Counting edges -/

theorem reciprocalHalf_reciprocalHalf (h : HalfEdge) : reciprocalHalf (reciprocalHalf h) = h := by
  obtain ⟨⟨v, d⟩, ⟨w, r⟩⟩ := h
  simp [reciprocalHalf]

theorem reciprocalHalf_eq_self_iff (h : HalfEdge) :
    reciprocalHalf h = h ↔ h.2.pVertex = h.1.1 ∧ h.2.reverse = true := by
  obtain ⟨⟨v, d⟩, ⟨w, r⟩⟩ := h
  cases r <;> cases d <;> simp [reciprocalHalf, getTwinDir, extDirection.flip, eq_comm]

theorem DirectedGraph.mem_halfEdges {g : DirectedGraph D} {h : HalfEdge} :
    h ∈ g.halfEdges ↔ h.2 ∈ g.edgesOf h.1.1 h.1.2 := by
  unfold DirectedGraph.halfEdges
  simp only [Finset.mem_sigma, Finset.mem_product, Finset.mem_range, Finset.mem_univ, and_true,
    List.mem_toFinset]
  exact ⟨fun hh => hh.2, fun hh => ⟨DirectedGraph.lt_size_of_mem hh, hh⟩⟩

theorem sum_range_getElem? {α : Type} (l : List α) (F : Option α → Nat) :
    ∑ i ∈ Finset.range l.length, F l[i]? = (l.map (fun a => F (some a))).sum := by
  induction l with
  | nil => simp
  | cons a rest ih =>
    rw [List.length_cons, Finset.sum_range_succ', List.map_cons, List.sum_cons, Nat.add_comm]
    simp only [List.getElem?_cons_succ, List.getElem?_cons_zero]
    rw [ih]

/-- The number of half edges is `countEdges` when no collection holds a duplicate. -/
theorem DirectedGraph.card_halfEdges {g : DirectedGraph D} (hnd : NoDuplicates g) :
    g.halfEdges.card = g.countEdges := by
  unfold DirectedGraph.halfEdges
  rw [Finset.card_sigma, Finset.sum_product, DirectedGraph.countEdges_eq_sum]
  have huniv : (Finset.univ : Finset extDirection) = {.SENSE, .ANTISENSE} := by decide
  have hinner : ∀ v, ∑ d : extDirection, (g.edgesOf v d).toFinset.card =
      (g.edgesOf v .SENSE).length + (g.edgesOf v .ANTISENSE).length := by
    intro v
    rw [huniv, Finset.sum_insert (by decide), Finset.sum_singleton,
      List.toFinset_card_of_nodup (hnd.nodup v _), List.toFinset_card_of_nodup (hnd.nodup v _)]
  simp only [hinner]
  unfold DirectedGraph.size DirectedGraph.edgesOf
  exact sum_range_getElem? g.m_vertexTable (fun o =>
    (match o with | some v => v.m_edges .SENSE | none => []).length +
    (match o with | some v => v.m_edges .ANTISENSE | none => []).length)

/-- C15 as stated fails: `hairpin1` is reciprocal (the edge `(0, true)` held
by vertex 0 is its own reciprocal) and has no duplicate edge, and `countEdges`
is 1, which is odd. -/
theorem countEdges_counterexample :
    Reciprocal hairpin1 ∧ NoDuplicates hairpin1 ∧ hairpin1.countEdges = 1 ∧
    ¬ Even hairpin1.countEdges := by
  refine ⟨by decide, by decide, rfl, ?_⟩
  show ¬ Even 1
  decide

/-- C15, as amended: `countEdges` is the sum of the sizes of both collections
of every vertex of the table; on a reciprocal graph without duplicate edges in
which no edge is its own reciprocal, every reciprocal pair contributes two to
it, so it is even and twice the number of reciprocal pairs. -/
theorem countEdges_reciprocal_pairs (g : DirectedGraph D) (hrec : Reciprocal g)
    (hnd : NoDuplicates g) (hfix : NoSelfReciprocal g) :
    g.countEdges = (g.m_vertexTable.map
      (fun v => (v.m_edges .SENSE).length + (v.m_edges .ANTISENSE).length)).sum ∧
    g.countEdges = 2 * g.reciprocalPairs.card ∧ Even g.countEdges := by
  have hpairs : g.countEdges = 2 * g.reciprocalPairs.card := by
    rw [← DirectedGraph.card_halfEdges hnd,
      Finset.card_eq_sum_card_image (fun h : HalfEdge => ({h, reciprocalHalf h} : Finset HalfEdge))
        g.halfEdges]
    unfold DirectedGraph.reciprocalPairs
    rw [Finset.sum_const_nat (m := 2), Nat.mul_comm]
    intro b hb
    rw [Finset.mem_image] at hb
    obtain ⟨h0, hh0, rfl⟩ := hb
    have hrho : reciprocalHalf h0 ∈ g.halfEdges := by
      rw [DirectedGraph.mem_halfEdges] at hh0 ⊢
      exact hrec.mem hh0
    have hne : h0 ≠ reciprocalHalf h0 := by
      intro heq
      have := (reciprocalHalf_eq_self_iff h0).mp heq.symm
      rw [DirectedGraph.mem_halfEdges] at hh0
      exact hfix _ (DirectedGraph.lt_size_of_mem hh0) _ _ hh0 this
    have hfiber : g.halfEdges.filter
        (fun a => ({a, reciprocalHalf a} : Finset HalfEdge) = {h0, reciprocalHalf h0}) =
        {h0, reciprocalHalf h0} := by
      ext a
      simp only [Finset.mem_filter, Finset.mem_insert, Finset.mem_singleton]
      constructor
      · rintro ⟨-, ha⟩
        have : a ∈ ({a, reciprocalHalf a} : Finset HalfEdge) := by simp
        rw [ha] at this
        simpa using this
      · rintro (rfl | rfl)
        · exact ⟨hh0, rfl⟩
        · refine ⟨hrho, ?_⟩
          rw [reciprocalHalf_reciprocalHalf, Finset.pair_comm]
    rw [hfiber, Finset.card_pair hne]
  exact ⟨DirectedGraph.countEdges_eq_sum g, hpairs, hpairs ▸ even_two_mul _⟩

/-- C15 as amended, on the chain `0 -> 1 -> 2`: four half edges, two pairs. -/
theorem countEdges_reciprocal_pairs_witness :
    Reciprocal chain3 ∧ NoDuplicates chain3 ∧ NoSelfReciprocal chain3 ∧
    chain3.countEdges = 4 ∧
    (chain3.countEdges = (chain3.m_vertexTable.map
      (fun v => (v.m_edges .SENSE).length + (v.m_edges .ANTISENSE).length)).sum ∧
    chain3.countEdges = 2 * chain3.reciprocalPairs.card ∧ Even chain3.countEdges) :=
  ⟨by decide, by decide, by decide, rfl,
    countEdges_reciprocal_pairs chain3 (by decide) (by decide) (by decide)⟩

/-! ## A sweep over a chain -/

/-- C16 fails on the code. The chain `0 -> 1 -> 2` with all edges
`reverse = false` is reciprocal and has neither duplicate nor self-loop edges,
yet the sweep ends in a failed assertion, whatever the value of `usableChild`. -/
theorem removeTransitivity_chain_fault :
    Reciprocal chain3 ∧ NoDuplicates chain3 ∧ NoSelfLoops chain3 ∧
    chain3.removeTransitivity lengthMerger true [] = .error .assertion ∧
    chain3.removeTransitivity lengthMerger false [] = .error .assertion :=
  ⟨by decide, by decide, by decide, rfl, rfl⟩

/-- How the sweep over the chain `0 -> 1 -> 2` fails: after the merge of
vertex 1 into vertex 0, the removed vertex 1 still holds its edge to vertex 2,
vertex 2 no longer holds the edge back, and the query `isEdgeUnique` that the
sweep makes for vertex 1 fails. -/
theorem removeTransitivity_chain_stale_edge :
    ∃ g1, removeTransitivityVertex lengthMerger true (0, chain3, []) 0 = .ok (1, g1, [(0, 1)]) ∧
      g1.edgesOf 1 .SENSE = [⟨2, false⟩] ∧ g1.edgesOf 2 .ANTISENSE = [⟨0, false⟩] ∧
      removeTransitivityStep lengthMerger true 1 (1, g1, [(0, 1)]) .SENSE =
        .error .assertion :=
  ⟨_, rfl, rfl, rfl, rfl⟩

/-! ## The paths found by the constrained search -/

theorem mem_eraseP_or_find? {α : Type} (p : α → Bool) (l : List α) (c : α) (hc : c ∈ l) :
    c ∈ l.eraseP p ∨ l.find? p = some c := by
  induction l with
  | nil => simp at hc
  | cons a rest ih =>
    by_cases hpa : p a = true
    · rw [List.eraseP_cons_of_pos hpa, List.find?_cons_of_pos _ hpa]
      rcases List.mem_cons.mp hc with rfl | h
      · exact Or.inr rfl
      · exact Or.inl h
    · rw [List.eraseP_cons_of_neg hpa, List.find?_cons_of_neg _ hpa]
      rcases List.mem_cons.mp hc with rfl | h
      · exact Or.inl (List.mem_cons_self _ _)
      · rcases ih h with h1 | h1
        · exact Or.inl (List.mem_cons_of_mem _ h1)
        · exact Or.inr h1

theorem dropConstraint_subset (constraints : KeyConstraintMap) (nextNode : ContigNode)
    (currLen : Nat) : ∀ c ∈ dropConstraint constraints nextNode currLen, c ∈ constraints := by
  intro c hc
  unfold dropConstraint at hc
  split at hc
  · split at hc
    · exact List.mem_of_mem_eraseP hc
    · exact hc
  · exact hc

theorem dropConstraint_dropped (constraints : KeyConstraintMap) (nextNode : ContigNode)
    (currLen : Nat) : ∀ c ∈ constraints,
      c ∈ dropConstraint constraints nextNode currLen ∨ (c.1 = nextNode ∧ currLen ≤ c.2) := by
  intro c hc
  unfold dropConstraint
  split
  · rename_i kv hfind
    split
    · rename_i hle
      rcases mem_eraseP_or_find? _ constraints c hc with h | h
      · exact Or.inl h
      · rw [hfind] at h
        cases h
        have := List.find?_some hfind
        exact Or.inr ⟨by simpa using this, hle⟩
    · exact Or.inl hc
  · exact Or.inl hc

theorem MeetsConstraint.concat {g : DirectedGraph D} {costFunctor : D → Nat}
    {path : ContigPath} {c : ContigNode × Nat} (h : MeetsConstraint g costFunctor path c)
    (n : ContigNode) : MeetsConstraint g costFunctor (path ++ [n]) c := by
  obtain ⟨i, hi, h1, h2⟩ := h
  refine ⟨i, by rw [List.length_append]; omega, ?_, ?_⟩
  · rw [List.getElem_append_left hi]; exact h1
  · rw [List.take_append_of_le_length (le_of_lt hi)]; exact h2

theorem MeetsConstraint.last {g : DirectedGraph D} {costFunctor : D → Nat}
    (path : ContigPath) (n : ContigNode) (limit : Nat)
    (h : (path.map (fun n => g.costOf costFunctor n.id)).sum ≤ limit) :
    MeetsConstraint g costFunctor (path ++ [n]) (n, limit) := by
  refine ⟨path.length, by simp, ?_, ?_⟩
  · simp
  · simpa using h

theorem KeysDense.key_eq {g : DirectedGraph D} (hkeys : KeysDense g) {p : Nat} {v : Vertex D}
    (hv : g.vertexAt p = .ok v) : v.m_key = p := by
  rw [DirectedGraph.vertexAt_eq_ok] at hv
  have := hkeys p (DirectedGraph.lt_size_of_getElem? hv)
  simpa [DirectedGraph.labelOf, hv] using this

/-- The loop of `ConstrainedDFS` over the edges of the current vertex records
only valid paths when the recursive calls do. -/
theorem searchEdges_valid {g : DirectedGraph D} {costFunctor : D → Nat} {sourceKey : Nat}
    {dir : extDirection} {all : KeyConstraintMap} (hkeys : KeysDense g)
    (recurse : Nat → Bool → KeyConstraintMap → ContigPath → ContigPaths → Nat → Int →
      Except Fault SearchResult)
    (hrec : ∀ p rc c pa s len vc r, SearchInv g costFunctor sourceKey dir all p rc c pa len →
      (∀ P ∈ s, ValidSuperpath g costFunctor sourceKey dir all P) →
      recurse p rc c pa s len vc = .ok r →
      ∀ P ∈ r.2.1, ValidSuperpath g costFunctor sourceKey dir all P)
    {pCurrVertex : Nat} {isRC : Bool} {constraints : KeyConstraintMap} {path : ContigPath}
    {currLen : Nat}
    (hinv : SearchInv g costFunctor sourceKey dir all pCurrVertex isRC constraints path currLen)
    (hne : constraints ≠ []) (edges : List EdgeData)
    (hedges : ∀ e ∈ edges, e ∈ g.edgesOf pCurrVertex (if isRC then dir.flip else dir)) :
    ∀ (solutions : ContigPaths) (visitedCount : Int) (r : SearchResult),
      (∀ P ∈ solutions, ValidSuperpath g costFunctor sourceKey dir all P) →
      searchEdges g costFunctor recurse isRC constraints path currLen edges solutions
        visitedCount = .ok r →
      ∀ P ∈ r.2.1, ValidSuperpath g costFunctor sourceKey dir all P := by
  induction edges with
  | nil =>
    intro solutions visitedCount r hs h
    simp only [searchEdges, Except.ok.injEq] at h
    subst h
    exact hs
  | cons it rest ih =>
    intro solutions visitedCount r hs h
    have hrest : ∀ e ∈ rest, e ∈ g.edgesOf pCurrVertex (if isRC then dir.flip else dir) :=
      fun e he => hedges e (List.mem_cons_of_mem _ he)
    have hit := hedges it (List.mem_cons_self _ _)
    simp only [searchEdges] at h
    split at h
    · cases h
    rename_i nextVertex hv
    have hkey := hkeys.key_eq hv
    rw [hkey] at h
    -- the extended path
    have hfollows : Follows g dir ⟨pCurrVertex, isRC⟩ ⟨it.pVertex, it.reverse != isRC⟩ :=
      ⟨it, hit, rfl, rfl⟩
    have hwalk : List.Chain (Follows g dir) ⟨sourceKey, false⟩
        (path ++ [⟨it.pVertex, it.reverse != isRC⟩]) :=
      chain_concat hinv.walk hinv.last hfollows
    have hmet : ∀ c ∈ all,
        c ∈ dropConstraint constraints ⟨it.pVertex, it.reverse != isRC⟩ currLen ∨
        MeetsConstraint g costFunctor (path ++ [⟨it.pVertex, it.reverse != isRC⟩]) c := by
      intro c hc
      rcases hinv.met c hc with h1 | h1
      · rcases dropConstraint_dropped constraints ⟨it.pVertex, it.reverse != isRC⟩ currLen c h1
          with h2 | ⟨h2, h3⟩
        · exact Or.inl h2
        · right
          obtain ⟨n, limit⟩ := c
          simp only at h2 h3
          subst h2
          exact MeetsConstraint.last path _ limit (by rw [← hinv.len]; exact h3)
      · exact Or.inr (h1.concat _)
    split at h
    · -- every constraint is met: the extended path is recorded
      rename_i hempty
      have hnil : dropConstraint constraints ⟨it.pVertex, it.reverse != isRC⟩ currLen = [] := by
        simpa using hempty
      refine ih hrest _ _ r ?_ h
      intro P hP
      rcases List.mem_append.mp hP with hP | hP
      · exact hs P hP
      · simp only [List.mem_singleton] at hP
        subst hP
        refine ⟨by simp, hwalk, ?_, ?_⟩
        · intro c hc
          rcases hmet c hc with h1 | h1
          · rw [hnil] at h1; simp at h1
          · exact h1
        · obtain ⟨c0, hc0⟩ := List.exists_mem_of_ne_nil _ hne
          rcases dropConstraint_dropped constraints ⟨it.pVertex, it.reverse != isRC⟩ currLen
            c0 hc0 with h2 | ⟨h2, -⟩
          · rw [hnil] at h2; simp at h2
          · refine ⟨⟨it.pVertex, it.reverse != isRC⟩, c0.2, by simp, ?_⟩
            rw [← h2]
            exact hinv.sub c0 hc0
    · rename_i hnonempty
      split at h
      · exact ih hrest _ _ r hs h
      · split at h
        · cases h
        · rename_i s1 vc1 hcall
          cases h
          refine hrec _ _ _ _ _ _ _ _ ?_ hs hcall
          refine ⟨hwalk, getLast?_cons_concat _ _ _, ?_, hmet, ?_⟩
          · simp [hinv.len, DirectedGraph.costOf_eq hv]
          · exact fun c hc => hinv.sub c (dropConstraint_subset _ _ _ c hc)
        · rename_i s1 vc1 hcall
          refine ih hrest _ _ r ?_ h
          refine hrec _ _ _ _ _ _ _ _ ?_ hs hcall
          refine ⟨hwalk, getLast?_cons_concat _ _ _, ?_, hmet, ?_⟩
          · simp [hinv.len, DirectedGraph.costOf_eq hv]
          · exact fun c hc => hinv.sub c (dropConstraint_subset _ _ _ c hc)

/-- A call of `ConstrainedDFS` records only valid paths. -/
theorem ConstrainedDFSFuel_valid {g : DirectedGraph D} {costFunctor : D → Nat}
    {sourceKey : Nat} {dir : extDirection} {all : KeyConstraintMap} (hkeys : KeysDense g)
    (maxNumPaths maxCompCost : Int) (fuel : Nat) :
    ∀ p rc c pa s len vc r, SearchInv g costFunctor sourceKey dir all p rc c pa len →
      (∀ P ∈ s, ValidSuperpath g costFunctor sourceKey dir all P) →
      ConstrainedDFSFuel g costFunctor dir maxNumPaths maxCompCost fuel p rc c pa s len vc
        = .ok r →
      ∀ P ∈ r.2.1, ValidSuperpath g costFunctor sourceKey dir all P := by
  induction fuel with
  | zero =>
    intro p rc c pa s len vc r _ _ h
    simp [ConstrainedDFSFuel] at h
  | succ fuel ih =>
    intro p rc c pa s len vc r hinv hs h
    simp only [ConstrainedDFSFuel] at h
    split at h
    · cases h
    rename_i hne
    split at h
    · cases h; exact hs
    split at h
    · cases h; exact hs
    split at h
    · cases h
    rename_i currVertex hv
    have hedges : ∀ d, g.edgesOf p d = currVertex.m_edges d := by
      intro d
      rw [DirectedGraph.vertexAt_eq_ok] at hv
      unfold DirectedGraph.edgesOf
      rw [hv]
    exact searchEdges_valid hkeys _ ih hinv (by simpa using hne) _
      (fun e he => by rw [hedges]; exact he) s (vc + 1) r hs h

/-- C17: every path reported by `findSuperpaths` is a valid walk that meets
every constraint. For a non-empty constraint map and an empty output, each
recorded path is non-empty, starts with a node reached from the source through
its collection of direction `dir`, continues from each node `P[i]` through the
collection of direction `P[i].sense XOR dir` with the senses combined by XOR,
meets every constraint at some position within its limit, and ends in a
constraint target. -/
theorem findSuperpaths_paths_valid (g : DirectedGraph D) (costFunctor : D → Nat)
    (sourceKey : Nat) (dir : extDirection) (constraints : KeyConstraintMap)
    (maxNumPaths maxCompCost : Int) (r : SearchResult) (hkeys : KeysDense g)
    (hne : constraints ≠ [])
    (h : g.findSuperpaths costFunctor sourceKey dir constraints [] maxNumPaths maxCompCost 0
      = .ok r) :
    ∀ P ∈ r.2.1, P ≠ [] ∧ List.Chain (Follows g dir) ⟨sourceKey, false⟩ P ∧
      (∀ c ∈ constraints, MeetsConstraint g costFunctor P c) ∧
      ∃ n limit, P.getLast? = some n ∧ (n, limit) ∈ constraints := by
  unfold DirectedGraph.findSuperpaths at h
  have hne' : constraints.isEmpty = false := by
    cases constraints with
    | nil => exact absurd rfl hne
    | cons _ _ => rfl
  simp only [hne', Bool.false_eq_true, if_false] at h
  split at h
  · cases h
  rename_i pSource hsrc
  have hp : pSource = sourceKey := by
    unfold DirectedGraph.findVertex at hsrc
    split at hsrc
    · cases hsrc; rfl
    · cases hsrc
  subst hp
  split at h
  · cases h
  rename_i b paths cc hdfs
  cases h
  exact ConstrainedDFSFuel_valid hkeys maxNumPaths maxCompCost _ _ _ _ _ _ _ _ (b, paths, cc)
    ⟨List.Chain.nil, rfl, rfl, fun c hc => Or.inl hc, fun c hc => hc⟩
    (fun P hP => by simp at hP) hdfs

/-- C17, on the diamond: from vertex 0 with the constraint that node
`(1, false)` is reached within distance 10, the search reports the paths
`[1]` and `[2, 1]`. -/
theorem findSuperpaths_paths_valid_witness :
    KeysDense diamond4 ∧ [((⟨1, false⟩ : ContigNode), 10)] ≠ [] ∧
    diamond4.findSuperpaths (SimpleDataCost.cost 1) 0 .SENSE [(⟨1, false⟩, 10)] [] 5 100 0 =
      .ok (true, [[⟨1, false⟩], [⟨2, false⟩, ⟨1, false⟩]], 3) ∧
    ∀ P ∈ [[(⟨1, false⟩ : ContigNode)], [⟨2, false⟩, ⟨1, false⟩]],
      P ≠ [] ∧ List.Chain (Follows diamond4 .SENSE) ⟨0, false⟩ P ∧
      (∀ c ∈ [((⟨1, false⟩ : ContigNode), 10)],
        MeetsConstraint diamond4 (SimpleDataCost.cost 1) P c) ∧
      ∃ n limit, P.getLast? = some n ∧ (n, limit) ∈ [((⟨1, false⟩ : ContigNode), 10)] :=
  ⟨by decide, by decide, rfl,
    findSuperpaths_paths_valid diamond4 (SimpleDataCost.cost 1) 0 .SENSE [(⟨1, false⟩, 10)]
      5 100 _ (by decide) (by decide) rfl⟩

/-! ## Aborted searches -/

theorem searchEdges_false (g : DirectedGraph D) (costFunctor : D → Nat)
    (maxNumPaths maxCompCost : Int)
    (recurse : Nat → Bool → KeyConstraintMap → ContigPath → ContigPaths → Nat → Int →
      Except Fault SearchResult)
    (hrec : ∀ p rc c pa s len vc r, recurse p rc c pa s len vc = .ok r → r.1 = false →
      r.2.2 ≥ maxCompCost ∨ (r.2.1.length : Int) > maxNumPaths)
    (isRC : Bool) (constraints : KeyConstraintMap) (path : ContigPath) (currLen : Nat)
    (edges : List EdgeData) :
    ∀ (solutions : ContigPaths) (visitedCount : Int) (r : SearchResult),
      searchEdges g costFunctor recurse isRC constraints path currLen edges solutions
        visitedCount = .ok r → r.1 = false →
      r.2.2 ≥ maxCompCost ∨ (r.2.1.length : Int) > maxNumPaths := by
  induction edges with
  | nil =>
    intro solutions visitedCount r h hf
    simp only [searchEdges, Except.ok.injEq] at h
    subst h
    cases hf
  | cons it rest ih =>
    intro solutions visitedCount r h hf
    simp only [searchEdges] at h
    split at h
    · cases h
    split at h
    · exact ih _ _ r h hf
    split at h
    · exact ih _ _ r h hf
    split at h
    · cases h
    · rename_i s1 vc1 hcall
      cases h
      exact hrec _ _ _ _ _ _ _ _ hcall rfl
    · exact ih _ _ r h hf

/-- A call of `ConstrainedDFS` that returns false has used up the visit budget
or leaves more than `maxNumPaths` solutions. -/
theorem ConstrainedDFSFuel_false (g : DirectedGraph D) (costFunctor : D → Nat)
    (dir : extDirection) (maxNumPaths maxCompCost : Int) (fuel : Nat) :
    ∀ p rc c pa s len vc r,
      ConstrainedDFSFuel g costFunctor dir maxNumPaths maxCompCost fuel p rc c pa s len vc
        = .ok r → r.1 = false →
      r.2.2 ≥ maxCompCost ∨ (r.2.1.length : Int) > maxNumPaths := by
  induction fuel with
  | zero =>
    intro p rc c pa s len vc r h
    simp [ConstrainedDFSFuel] at h
  | succ fuel ih =>
    intro p rc c pa s len vc r h hf
    simp only [ConstrainedDFSFuel] at h
    split at h
    · cases h
    split at h
    · rename_i hnum
      cases h
      exact Or.inr hnum
    split at h
    · rename_i hbudget
      cases h
      exact Or.inl hbudget
    split at h
    · cases h
    exact searchEdges_false g costFunctor maxNumPaths maxCompCost _ ih _ _ _ _ _ _ _ r h hf

/-- C19 as stated fails: on the diamond with `maxNumPaths = 1` the search
started by `findSuperpaths` exits early (it returns false, with two solutions
recorded and 2 of 100 visits used) and `findSuperpaths` returns true. -/
theorem findSuperpaths_abort_counterexample :
    diamond4.ConstrainedDFS (SimpleDataCost.cost 1) 0 .SENSE false [(⟨1, false⟩, 10)] [] [] 0
        1 100 0 = .ok (false, [[⟨1, false⟩], [⟨2, false⟩, ⟨1, false⟩]], 2) ∧
    diamond4.findSuperpaths (SimpleDataCost.cost 1) 0 .SENSE [(⟨1, false⟩, 10)] [] 1 100 0 =
      .ok (true, [[⟨1, false⟩], [⟨2, false⟩, ⟨1, false⟩]], 2) :=
  ⟨rfl, rfl⟩

/-- C19, as amended: a search that `findSuperpaths` starts and that exits
early has hit the visit budget or holds more than `maxNumPaths` solutions; when
the visit budget was hit `findSuperpaths` returns false; `findSuperpaths`
returns true only when the search ran to completion or the output holds more
than `maxNumPaths` paths. -/
theorem findSuperpaths_abort_reported (g : DirectedGraph D) (costFunctor : D → Nat)
    (sourceKey : Nat) (dir : extDirection) (constraints : KeyConstraintMap)
    (superPaths : ContigPaths) (maxNumPaths maxCompCost compCost : Int)
    (ran : SearchResult) (hne : constraints ≠ []) (hsrc : sourceKey < g.size)
    (hdfs : g.ConstrainedDFS costFunctor sourceKey dir false constraints [] superPaths 0
      maxNumPaths maxCompCost compCost = .ok ran) :
    ∃ b, g.findSuperpaths costFunctor sourceKey dir constraints superPaths maxNumPaths
        maxCompCost compCost = .ok (b, ran.2.1, ran.2.2) ∧
      (ran.1 = false → ran.2.2 ≥ maxCompCost ∨ (ran.2.1.length : Int) > maxNumPaths) ∧
      (ran.2.2 ≥ maxCompCost → b = false) ∧
      (b = true → ran.1 = true ∨ (ran.2.1.length : Int) > maxNumPaths) := by
  have hne' : constraints.isEmpty = false := by
    cases constraints with
    | nil => exact absurd rfl hne
    | cons _ _ => rfl
  have hfalse := ConstrainedDFSFuel_false g costFunctor dir maxNumPaths maxCompCost _ _ _ _ _ _
    _ _ ran hdfs
  obtain ⟨b', paths, cc⟩ := ran
  refine ⟨if cc ≥ maxCompCost then false else !paths.isEmpty, ?_, hfalse, ?_, ?_⟩
  · simp only [DirectedGraph.findSuperpaths, hne', Bool.false_eq_true, if_false,
      DirectedGraph.findVertex, hsrc, if_true, hdfs]
  · intro hcc
    simp only [] at hcc
    simp [hcc]
  · intro hb
    simp only []
    cases b' with
    | true => exact Or.inl rfl
    | false =>
      right
      rcases hfalse rfl with h1 | h1
      · simp only [] at h1
        simp [h1] at hb
      · exact h1

/-- C19 as amended, on the chain `0 -> 1 -> 2` with a visit budget of 2: the
search exits early on the second visit and `findSuperpaths` returns false. -/
theorem findSuperpaths_abort_reported_witness :
    [((⟨2, false⟩ : ContigNode), 10)] ≠ [] ∧ 0 < chain3.size ∧
    chain3.ConstrainedDFS (SimpleDataCost.cost 1) 0 .SENSE false [(⟨2, false⟩, 10)] [] [] 0
        5 2 0 = .ok (false, [], 2) ∧
    ∃ b, chain3.findSuperpaths (SimpleDataCost.cost 1) 0 .SENSE [(⟨2, false⟩, 10)] [] 5 2 0 =
        .ok (b, [], 2) ∧
      ((false : Bool) = false → (2 : Int) ≥ 2 ∨ (([] : ContigPaths).length : Int) > 5) ∧
      ((2 : Int) ≥ 2 → b = false) ∧
      (b = true → (false : Bool) = true ∨ (([] : ContigPaths).length : Int) > 5) :=
  ⟨by decide, by decide, rfl,
    findSuperpaths_abort_reported chain3 (SimpleDataCost.cost 1) 0 .SENSE [(⟨2, false⟩, 10)] []
      5 2 0 (false, [], 2) (by decide) (by decide) rfl⟩

/-! ## Bounded reachability -/

theorem CostWalk.le_maxCost {g : DirectedGraph D} {costFunctor : D → Nat} {maxCost : Nat}
    {v : Nat} {d : extDirection} {c u : Nat} (h : CostWalk g costFunctor maxCost v d c u) :
    c ≤ maxCost := by
  induction h with
  | nil h => exact h
  | cons _ _ ih => omega

theorem accumulateEdges_spec (g : DirectedGraph D) (costFunctor : D → Nat) (maxCost : Nat)
    (recurse : Nat → extDirection → Nat → Finset Nat → Except Fault (Finset Nat))
    (dir : extDirection) (currCost : Nat)
    (hrec : ∀ p d acc, p < g.size → ∃ acc', recurse p d currCost acc = .ok acc' ∧
      ∀ u, u ∈ acc' ↔ u ∈ acc ∨ u = p ∨ CostWalk g costFunctor maxCost p d currCost u)
    (edges : List EdgeData) (hedges : ∀ e ∈ edges, e.pVertex < g.size) (acc : Finset Nat) :
    ∃ acc', accumulateEdges recurse dir currCost edges acc = .ok acc' ∧
      ∀ u, u ∈ acc' ↔ u ∈ acc ∨ ∃ e ∈ edges, u = e.pVertex ∨
        CostWalk g costFunctor maxCost e.pVertex (if e.reverse then dir.flip else dir)
          currCost u := by
  induction edges generalizing acc with
  | nil => exact ⟨acc, rfl, by simp⟩
  | cons e rest ih =>
    obtain ⟨acc1, h1, hspec1⟩ := hrec e.pVertex (if e.reverse then dir.flip else dir) acc
      (hedges e (List.mem_cons_self _ _))
    obtain ⟨acc2, h2, hspec2⟩ := ih (fun x hx => hedges x (List.mem_cons_of_mem _ hx)) acc1
    refine ⟨acc2, by simp only [accumulateEdges, h1, h2], ?_⟩
    intro u
    rw [hspec2, hspec1]
    constructor
    · rintro ((h | h) | ⟨x, hx, h⟩)
      · exact Or.inl h
      · exact Or.inr ⟨e, List.mem_cons_self _ _, h⟩
      · exact Or.inr ⟨x, List.mem_cons_of_mem _ hx, h⟩
    · rintro (h | ⟨x, hx, h⟩)
      · exact Or.inl (Or.inl h)
      · rcases List.mem_cons.mp hx with rfl | hx
        · exact Or.inl (Or.inr h)
        · exact Or.inr ⟨x, hx, h⟩

/-- The accumulator after `accumulateVertices`, for costs of at least 1. -/
theorem accumulateVerticesFuel_spec (g : DirectedGraph D) (costFunctor : D → Nat)
    (maxCost : Nat) (hvalid : ValidPointers g)
    (hcost : ∀ p < g.size, 1 ≤ g.costOf costFunctor p) (fuel : Nat) :
    ∀ (v : Nat) (d : extDirection) (c : Nat) (acc : Finset Nat), v < g.size →
      1 ≤ fuel → maxCost + 1 ≤ fuel + c →
      ∃ acc', accumulateVerticesFuel g costFunctor maxCost fuel v d c acc = .ok acc' ∧
        ∀ u, u ∈ acc' ↔ u ∈ acc ∨ u = v ∨ CostWalk g costFunctor maxCost v d c u := by
  induction fuel with
  | zero => intro v d c acc _ h; omega
  | succ fuel ih =>
    intro v d c acc hv _ hfuel
    obtain ⟨vx, hvx, -, hedges⟩ := DirectedGraph.vertexAt_of_lt hv
    have hc := DirectedGraph.costOf_eq hvx costFunctor
    have hc1 := hcost v hv
    simp only [accumulateVerticesFuel, hvx, ← hc]
    split
    · rename_i hgt
      refine ⟨_, rfl, ?_⟩
      intro u
      simp only [Finset.mem_insert]
      constructor
      · rintro (h | h)
        · exact Or.inr (Or.inl h)
        · exact Or.inl h
      · rintro (h | h | h)
        · exact Or.inr h
        · exact Or.inl h
        · cases h with
          | nil _ => exact Or.inl rfl
          | cons _ hw =>
            have := hw.le_maxCost
            omega
    · rename_i hle
      obtain ⟨acc', hacc', hspec⟩ := accumulateEdges_spec g costFunctor maxCost
        (accumulateVerticesFuel g costFunctor maxCost fuel) d (c + g.costOf costFunctor v)
        (fun p d' acc0 hp => ih p d' (c + g.costOf costFunctor v) acc0 hp (by omega) (by omega))
        (vx.m_edges d)
        (fun e he => hvalid v hv d e (by rw [hedges]; exact he))
        (insert v acc)
      refine ⟨acc', hacc', ?_⟩
      intro u
      rw [hspec]
      simp only [Finset.mem_insert]
      constructor
      · rintro ((h | h) | ⟨e, he, h | h⟩)
        · exact Or.inr (Or.inl h)
        · exact Or.inl h
        · subst h
          exact Or.inr (Or.inr (CostWalk.cons (by rw [hedges]; exact he)
            (CostWalk.nil (by omega))))
        · exact Or.inr (Or.inr (CostWalk.cons (by rw [hedges]; exact he) h))
      · rintro (h | h | h)
        · exact Or.inl (Or.inr h)
        · exact Or.inl (Or.inl h)
        · cases h with
          | nil _ => exact Or.inl (Or.inl rfl)
          | cons he hw =>
            rename_i e
            exact Or.inr ⟨e, by rw [← hedges]; exact he, Or.inr hw⟩

/-- Dropping the log of the traced loop gives the loop. -/
theorem searchEdgesTraced_erase (g : DirectedGraph D) (costFunctor : D → Nat)
    (recurseT : Nat → Bool → KeyConstraintMap → ContigPath → ContigPaths → Nat → Int →
      List SearchEvent → Except Fault TracedResult)
    (recurse : Nat → Bool → KeyConstraintMap → ContigPath → ContigPaths → Nat → Int →
      Except Fault SearchResult)
    (hrec : ∀ p rc c pa s len vc log,
      (recurseT p rc c pa s len vc log).map Prod.fst = recurse p rc c pa s len vc)
    (isRC : Bool) (constraints : KeyConstraintMap) (path : ContigPath) (currLen : Nat)
    (edges : List EdgeData) (solutions : ContigPaths) (visitedCount : Int)
    (log : List SearchEvent) :
    (searchEdgesTraced g costFunctor recurseT isRC constraints path currLen edges solutions
      visitedCount log).map Prod.fst =
    searchEdges g costFunctor recurse isRC constraints path currLen edges solutions
      visitedCount := by
  induction edges generalizing solutions visitedCount log with
  | nil => rfl
  | cons it rest ih =>
    simp only [searchEdgesTraced, searchEdges]
    cases hv : g.vertexAt it.pVertex with
    | error f => rfl
    | ok nextVertex =>
      simp only
      split
      · exact ih _ _ _
      · split
        · exact ih _ _ _
        · rw [← hrec _ _ _ _ _ _ _ log]
          cases hr : recurseT it.pVertex (ContigNode.sense ⟨nextVertex.m_key, it.reverse != isRC⟩)
              (dropConstraint constraints ⟨nextVertex.m_key, it.reverse != isRC⟩ currLen)
              (path ++ [⟨nextVertex.m_key, it.reverse != isRC⟩]) solutions
              (currLen + costFunctor nextVertex.m_data) visitedCount log with
          | error f => rfl
          | ok r =>
            obtain ⟨⟨b, s1, vc1⟩, log1⟩ := r
            cases b with
            | false => rfl
            | true => exact ih _ _ _

/-- Dropping the log of the traced search gives the search. -/
theorem ConstrainedDFSTracedFuel_erase (g : DirectedGraph D) (costFunctor : D → Nat)
    (dir : extDirection) (maxNumPaths maxCompCost : Int) (fuel : Nat) :
    ∀ (pCurrVertex : Nat) (isRC : Bool) (constraints : KeyConstraintMap) (path : ContigPath)
      (solutions : ContigPaths) (currLen : Nat) (visitedCount : Int) (log : List SearchEvent),
      (ConstrainedDFSTracedFuel g costFunctor dir maxNumPaths maxCompCost fuel pCurrVertex isRC
        constraints path solutions currLen visitedCount log).map Prod.fst =
      ConstrainedDFSFuel g costFunctor dir maxNumPaths maxCompCost fuel pCurrVertex isRC
        constraints path solutions currLen visitedCount := by
  induction fuel with
  | zero => intro _ _ _ _ _ _ _ _; rfl
  | succ fuel ih =>
    intro pCurrVertex isRC constraints path solutions currLen visitedCount log
    simp only [ConstrainedDFSTracedFuel, ConstrainedDFSFuel]
    split
    · rfl
    · split
      · rfl
      · split
        · rfl
        · cases hv : g.vertexAt pCurrVertex with
          | error f => rfl
          | ok currVertex =>
            exact searchEdgesTraced_erase g costFunctor _ _ ih _ _ _ _ _ _ _ _

/-- The log of the loop: what the loop appends is a segment of the shape
`SearchTrace` followed by the value the loop returns. -/
theorem searchEdgesTraced_budget (g : DirectedGraph D) (costFunctor : D → Nat)
    (maxCompCost : Int)
    (recurse : Nat → Bool → KeyConstraintMap → ContigPath → ContigPaths → Nat → Int →
      List SearchEvent → Except Fault TracedResult)
    (isRC : Bool) (constraints : KeyConstraintMap) (path : ContigPath) (currLen : Nat)
    (hrec : ∀ p rc c pa s len vc log r log', vc < maxCompCost →
      recurse p rc c pa s len vc log = .ok (r, log') →
      ∃ L, log' = log ++ L ∧ SearchTrace maxCompCost vc r L)
    (edges : List EdgeData) (solutions : ContigPaths) (visitedCount : Int)
    (log : List SearchEvent) (r : SearchResult) (log' : List SearchEvent)
    (hvc : visitedCount < maxCompCost)
    (h : searchEdgesTraced g costFunctor recurse isRC constraints path currLen edges solutions
      visitedCount log = .ok (r, log')) :
    ∃ L, log' = log ++ L ++ [.ret r.1] ∧ SearchTrace maxCompCost visitedCount r L := by
  induction edges generalizing solutions visitedCount log with
  | nil =>
    simp only [searchEdgesTraced, Except.ok.injEq, Prod.mk.injEq] at h
    obtain ⟨rfl, rfl⟩ := h
    refine ⟨[], by simp, le_refl _, le_of_lt hvc, fun _ => ⟨by simp, hvc, by simp⟩, ?_⟩
    intro hf
    simp at hf
  | cons it rest ih =>
    simp only [searchEdgesTraced] at h
    cases hv : g.vertexAt it.pVertex with
    | error f => rw [hv] at h; simp at h
    | ok nextVertex =>
      rw [hv] at h
      simp only at h
      split at h
      · exact ih _ _ _ hvc h
      · split at h
        · exact ih _ _ _ hvc h
        · cases hr : recurse it.pVertex (ContigNode.sense ⟨nextVertex.m_key, it.reverse != isRC⟩)
              (dropConstraint constraints ⟨nextVertex.m_key, it.reverse != isRC⟩ currLen)
              (path ++ [⟨nextVertex.m_key, it.reverse != isRC⟩]) solutions
              (currLen + costFunctor nextVertex.m_data) visitedCount log with
          | error f => rw [hr] at h; simp at h
          | ok r1 =>
            obtain ⟨⟨b, s1, vc1⟩, log1⟩ := r1
            rw [hr] at h
            obtain ⟨L1, hlog1, hle1, hmax1, ht1, hf1⟩ := hrec _ _ _ _ _ _ _ _ _ _ hvc hr
            cases b with
            | false =>
              simp only [Except.ok.injEq, Prod.mk.injEq] at h
              obtain ⟨rfl, rfl⟩ := h
              exact ⟨L1, by rw [hlog1], hle1, hmax1, ht1, hf1⟩
            | true =>
              simp only at h
              obtain ⟨hcount1, hlt1, hno1⟩ := ht1 rfl
              simp only at hcount1 hlt1 hle1
              obtain ⟨L2, hlog2, hle2, hmax2, ht2, hf2⟩ := ih _ _ _ hlt1 h
              refine ⟨L1 ++ L2, by rw [hlog2, hlog1]; simp, le_trans hle1 hle2, hmax2, ?_, ?_⟩
              · intro hb
                obtain ⟨hcount2, hlt2, hno2⟩ := ht2 hb
                refine ⟨?_, hlt2, ?_⟩
                · rw [List.count_append]; push_cast; omega
                · simp only [List.mem_append, not_or]; exact ⟨hno1, hno2⟩
              · intro hb
                obtain ⟨hcount2, La, k, hshape, hnoa⟩ := hf2 hb
                refine ⟨?_, L1 ++ La, k, by rw [hshape, List.append_assoc], ?_⟩
                · rw [List.count_append]; push_cast; omega
                · simp only [List.mem_append, not_or]; exact ⟨hno1, hnoa⟩

/-- The log of a search entered below the budget has the shape `SearchTrace`. -/
theorem ConstrainedDFSTracedFuel_budget (g : DirectedGraph D) (costFunctor : D → Nat)
    (dir : extDirection) (maxNumPaths maxCompCost : Int) (fuel : Nat) :
    ∀ (pCurrVertex : Nat) (isRC : Bool) (constraints : KeyConstraintMap) (path : ContigPath)
      (solutions : ContigPaths) (currLen : Nat) (visitedCount : Int) (log : List SearchEvent)
      (r : SearchResult) (log' : List SearchEvent), visitedCount < maxCompCost →
      ConstrainedDFSTracedFuel g costFunctor dir maxNumPaths maxCompCost fuel pCurrVertex isRC
        constraints path solutions currLen visitedCount log = .ok (r, log') →
      ∃ L, log' = log ++ L ∧ SearchTrace maxCompCost visitedCount r L := by
  induction fuel with
  | zero => intro _ _ _ _ _ _ _ _ _ _ _ h; simp [ConstrainedDFSTracedFuel] at h
  | succ fuel ih =>
    intro pCurrVertex isRC constraints path solutions currLen visitedCount log r log' hvc h
    simp only [ConstrainedDFSTracedFuel] at h
    split at h
    · simp at h
    · split at h
      · simp only [Except.ok.injEq, Prod.mk.injEq] at h
        obtain ⟨rfl, rfl⟩ := h
        refine ⟨[.call, .ret false], by simp, le_refl _, le_of_lt hvc, fun hb => by simp at hb,
          fun _ => ⟨?_, [.call], 0, rfl, by simp⟩⟩
        simp only [List.count_cons, List.count_nil]
        simp
        omega
      · split at h
        · rename_i hbudget
          simp only [Except.ok.injEq, Prod.mk.injEq] at h
          obtain ⟨rfl, rfl⟩ := h
          refine ⟨[.call, .ret false], by simp, by simp, by simp only; omega,
            fun hb => by simp at hb, fun _ => ⟨?_, [.call], 0, rfl, by simp⟩⟩
          simp only [List.count_cons, List.count_nil]
          simp
          omega
        · rename_i hbudget
          cases hv : g.vertexAt pCurrVertex with
          | error f => rw [hv] at h; simp at h
          | ok currVertex =>
            rw [hv] at h
            simp only at h
            obtain ⟨L, hlog, hle, hmax, ht, hf⟩ := searchEdgesTraced_budget g costFunctor
              maxCompCost _ isRC constraints path currLen ih _ _ _ _ r log' (by omega) h
            refine ⟨.call :: L ++ [.ret r.1], by rw [hlog]; simp, by omega, hmax, ?_, ?_⟩
            · intro hb
              obtain ⟨hcount, hlt, hno⟩ := ht hb
              refine ⟨?_, hlt, ?_⟩
              · rw [hb]
                simp only [List.cons_append, List.count_cons, List.count_append, List.count_nil]
                simp
                omega
              · rw [hb]; simp [hno]
            · intro hb
              obtain ⟨hcount, L1, k, hshape, hno1⟩ := hf hb
              refine ⟨?_, .call :: L1, k + 1, ?_, by simp [hno1]⟩
              · rw [hb]
                simp only [List.cons_append, List.count_cons, List.count_append, List.count_nil]
                simp
                omega
              · rw [hb, hshape, List.replicate_succ' (k + 1)]
                simp

/-- C20: the visit budget bounds the whole constrained search. For a non-empty
constraint map and `maxCompCost >= 1`, `ConstrainedDFS` started with
`visitedCount = 0` returns; the traced run returns the same result; the number
of invocations recorded in its log is at most `maxCompCost`; on return
`visitedCount` is at most `maxCompCost`; no invocation is entered after a
`return false`, and when some invocation returned false the top-level call
returns false. -/
theorem ConstrainedDFS_visit_budget (g : DirectedGraph D) (costFunctor : D → Nat)
    (pCurrVertex : Nat) (dir : extDirection) (isRC : Bool) (constraints : KeyConstraintMap)
    (path : ContigPath) (solutions : ContigPaths) (currLen : Nat)
    (maxNumPaths maxCompCost : Int) (hvalid : ValidPointers g) (hp : pCurrVertex < g.size)
    (hc : constraints ≠ []) (hmax : 1 ≤ maxCompCost) :
    ∃ r log, g.ConstrainedDFSTraced costFunctor pCurrVertex dir isRC constraints path solutions
        currLen maxNumPaths maxCompCost 0 = .ok (r, log) ∧
      g.ConstrainedDFS costFunctor pCurrVertex dir isRC constraints path solutions currLen
        maxNumPaths maxCompCost 0 = .ok r ∧
      (log.count .call : Int) ≤ maxCompCost ∧
      0 ≤ r.2.2 ∧ r.2.2 ≤ maxCompCost ∧
      (∀ pre post, log = pre ++ SearchEvent.ret false :: post → SearchEvent.call ∉ post) ∧
      (SearchEvent.ret false ∈ log → r.1 = false) := by
  obtain ⟨r, hr, -⟩ := ConstrainedDFSFuel_completes g costFunctor dir maxNumPaths maxCompCost
    hvalid ((maxCompCost - 0).toNat + 1) pCurrVertex isRC constraints path solutions currLen 0
    hp hc (Nat.lt_succ_self _)
  have herase := ConstrainedDFSTracedFuel_erase g costFunctor dir maxNumPaths maxCompCost
    ((maxCompCost - 0).toNat + 1) pCurrVertex isRC constraints path solutions currLen 0 []
  rw [hr] at herase
  cases ht : ConstrainedDFSTracedFuel g costFunctor dir maxNumPaths maxCompCost
      ((maxCompCost - 0).toNat + 1) pCurrVertex isRC constraints path solutions currLen 0 [] with
  | error f => rw [ht] at herase; simp [Except.map] at herase
  | ok rt =>
    obtain ⟨r1, log⟩ := rt
    rw [ht] at herase
    simp only [Except.map, Except.ok.injEq] at herase
    subst herase
    obtain ⟨L, hlog, hle, hmaxr, htrue, hfalse⟩ := ConstrainedDFSTracedFuel_budget g costFunctor
      dir maxNumPaths maxCompCost _ _ _ _ _ _ _ _ _ _ _ (by omega) ht
    simp only [List.nil_append] at hlog
    subst hlog
    refine ⟨r1, log, ht, hr, ?_, hle, hmaxr, ?_, ?_⟩
    · cases hb : r1.1 with
      | true => have := (htrue hb).1; omega
      | false => have := (hfalse hb).1; omega
    · intro pre post hsplit
      cases hb : r1.1 with
      | true =>
        exact absurd (by rw [hsplit]; simp) (htrue hb).2.2
      | false =>
        obtain ⟨-, L1, k, hshape, hno⟩ := hfalse hb
        rw [hshape] at hsplit
        intro hcall
        rcases List.append_eq_append_iff.mp hsplit with ⟨a, hpre, hrep⟩ | ⟨c, hL1, hcons⟩
        · have hmem : SearchEvent.call ∈ List.replicate (k + 1) (SearchEvent.ret false) := by
            rw [hrep]; simp [hcall]
          simp [List.mem_replicate] at hmem
        · cases c with
          | nil =>
            simp only [List.nil_append] at hcons
            have hmem : SearchEvent.call ∈ List.replicate (k + 1) (SearchEvent.ret false) := by
              rw [← hcons]; simp [hcall]
            simp [List.mem_replicate] at hmem
          | cons x c =>
            simp only [List.cons_append, List.cons.injEq] at hcons
            exact hno (by rw [hL1, ← hcons.1]; simp)
    · intro hmem
      cases hb : r1.1 with
      | true => exact absurd hmem (htrue hb).2.2
      | false => rfl

/-- C20, on the diamond `0 -> {1, 2, 3}`, `2 -> 1` from vertex 0 with target 1:
with the budget 100 the search makes three invocations and returns true, with
the budget 2 it makes two and the second one aborts the search. -/
theorem ConstrainedDFS_visit_budget_witness :
    ValidPointers diamond4 ∧ 0 < diamond4.size ∧ [((⟨1, false⟩ : ContigNode), 10)] ≠ [] ∧
    (1 : Int) ≤ 2 ∧
    diamond4.ConstrainedDFSTraced (SimpleDataCost.cost 1) 0 .SENSE false [(⟨1, false⟩, 10)] [] []
      0 5 100 0 = .ok ((true, [[⟨1, false⟩], [⟨2, false⟩, ⟨1, false⟩]], 3),
        [.call, .call, .ret true, .call, .ret true, .ret true]) ∧
    diamond4.ConstrainedDFSTraced (SimpleDataCost.cost 1) 0 .SENSE false [(⟨1, false⟩, 10)] [] []
      0 5 2 0 = .ok ((false, [[⟨1, false⟩]], 2), [.call, .call, .ret false, .ret false]) ∧
    ∃ r log, diamond4.ConstrainedDFSTraced (SimpleDataCost.cost 1) 0 .SENSE false
        [(⟨1, false⟩, 10)] [] [] 0 5 2 0 = .ok (r, log) ∧
      diamond4.ConstrainedDFS (SimpleDataCost.cost 1) 0 .SENSE false [(⟨1, false⟩, 10)] [] [] 0
        5 2 0 = .ok r ∧
      (log.count .call : Int) ≤ 2 ∧
      0 ≤ r.2.2 ∧ r.2.2 ≤ 2 ∧
      (∀ pre post, log = pre ++ SearchEvent.ret false :: post → SearchEvent.call ∉ post) ∧
      (SearchEvent.ret false ∈ log → r.1 = false) :=
  ⟨by decide, by decide, by decide, by decide, rfl, rfl,
    ConstrainedDFS_visit_budget diamond4 (SimpleDataCost.cost 1) 0 .SENSE false
      [(⟨1, false⟩, 10)] [] [] 0 5 2 (by decide) (by decide) (by decide) (by decide)⟩

/-! ## Components -/

/-- The loop of `generateComponents` appends one component per edge, in order. -/
theorem generateComponentsLoop_spec (g : DirectedGraph D) (costFunctor : D → Nat)
    (dir : extDirection) (maxCost : Nat) (hvalid : ValidPointers g)
    (hcost : ∀ p < g.size, 1 ≤ g.costOf costFunctor p)
    (edges : List EdgeData) (hedges : ∀ e ∈ edges, e.pVertex < g.size)
    (outComponents : List VertexComponent) :
    ∃ comps, generateComponentsLoop g costFunctor dir maxCost edges outComponents
        = .ok (outComponents ++ comps) ∧
      List.Forall₂ (IsComponentOf g costFunctor dir maxCost) edges comps := by
  induction edges generalizing outComponents with
  | nil => exact ⟨[], by simp [generateComponentsLoop], List.Forall₂.nil⟩
  | cons it rest ih =>
    have hit := hedges it (List.mem_cons_self _ _)
    obtain ⟨target, htarget, -, -⟩ := DirectedGraph.vertexAt_of_lt hit
    obtain ⟨acc, hacc, hspec⟩ := accumulateVerticesFuel_spec g costFunctor maxCost hvalid hcost
      (maxCost - 0 + 1) it.pVertex (if it.reverse then dir.flip else dir) 0 ∅ hit
      (by omega) (by omega)
    have hrun : g.accumulateVertices costFunctor it.pVertex
        (if it.reverse then dir.flip else dir) 0 maxCost ∅ = .ok acc := hacc
    obtain ⟨comps, hcomps, hall⟩ := ih (fun e he => hedges e (List.mem_cons_of_mem _ he))
      (outComponents ++ [(target.m_key, acc)])
    refine ⟨(target.m_key, acc) :: comps, ?_, List.Forall₂.cons ?_ hall⟩
    · simp only [generateComponentsLoop, htarget, hrun, hcomps, List.append_assoc,
        List.singleton_append]
    · refine ⟨⟨target, htarget, rfl⟩, hrun, (hspec _).mpr (Or.inr (Or.inl rfl)), ?_⟩
      intro hgt
      ext u
      rw [hspec, Finset.mem_singleton]
      constructor
      · rintro (h | h | h)
        · simp at h
        · exact h
        · cases h with
          | nil _ => rfl
          | cons _ hw =>
            have := hw.le_maxCost
            omega
      · intro h
        exact Or.inr (Or.inl h)

/-- C22: `generateComponents` builds one component per immediate neighbour.
When every cost is at least 1, the call returns the old output followed by one
component per edge of the collection of direction `dir`, in edge order; the
component of an edge is labelled with the key of its target and its vertex set
is the result of `accumulateVertices` from the target, so it holds the target,
and only the target when the cost of the target exceeds `maxCost`. -/
theorem generateComponents_spec (g : DirectedGraph D) (costFunctor : D → Nat)
    (pVertex : Nat) (dir : extDirection) (maxCost : Nat)
    (outComponents : List VertexComponent) (hvalid : ValidPointers g)
    (hcost : ∀ p < g.size, 1 ≤ g.costOf costFunctor p) (hv : pVertex < g.size) :
    ∃ comps, g.generateComponents costFunctor pVertex dir maxCost outComponents
        = .ok (outComponents ++ comps) ∧
      comps.length = (g.edgesOf pVertex dir).length ∧
      List.Forall₂ (IsComponentOf g costFunctor dir maxCost) (g.edgesOf pVertex dir) comps := by
  obtain ⟨v, hvx, -, hedges⟩ := DirectedGraph.vertexAt_of_lt hv
  obtain ⟨comps, hrun, hall⟩ := generateComponentsLoop_spec g costFunctor dir maxCost hvalid
    hcost (g.edgesOf pVertex dir) (fun e he => hvalid pVertex hv dir e he) outComponents
  refine ⟨comps, ?_, hall.length_eq.symm, hall⟩
  simp only [DirectedGraph.generateComponents, hvx, ← hedges dir, hrun]

/-- C22, on the star around vertex 0 with `maxCost = 3`: the output gets the
component of vertex 1, which holds vertex 1 alone since its cost 9 exceeds
`maxCost`, and the component of vertex 2, which holds the vertices 2 and 3. -/
theorem generateComponents_spec_witness :
    ValidPointers star4 ∧ (∀ p < star4.size, 1 ≤ star4.costOf (SimpleDataCost.cost 1) p) ∧
    0 < star4.size ∧
    (∃ out, star4.generateComponents (SimpleDataCost.cost 1) 0 .SENSE 3 [(7, {5})] = .ok out ∧
      out = [(7, {5}), (1, {1}), (2, {2, 3})]) ∧
    ∃ comps, star4.generateComponents (SimpleDataCost.cost 1) 0 .SENSE 3 [(7, {5})]
        = .ok ([(7, {5})] ++ comps) ∧
      comps.length = (star4.edgesOf 0 .SENSE).length ∧
      List.Forall₂ (IsComponentOf star4 (SimpleDataCost.cost 1) .SENSE 3)
        (star4.edgesOf 0 .SENSE) comps :=
  ⟨by decide, by decide, by decide, ⟨_, rfl, by decide⟩,
    generateComponents_spec star4 (SimpleDataCost.cost 1) 0 .SENSE 3 [(7, {5})] (by decide)
      (by decide) (by decide)⟩

/-! ## Self-loops in the sweep -/

/-- Dropping the recorded calls of the traced step gives the step. -/
theorem removeTransitivityStepTraced_erase {M : Type} (dataMerger : DataMerger D M)
    (usableChild : Bool) (pVertex : Nat) (s : SweepState D M) (idx : extDirection)
    (calls : List (Nat × Nat)) :
    (removeTransitivityStepTraced dataMerger usableChild pVertex s idx calls).2 =
      removeTransitivityStep dataMerger usableChild pVertex s idx := by
  unfold removeTransitivityStepTraced removeTransitivityStep
  rcases hedge : s.2.1.edgesOf pVertex idx with _ | ⟨e, _ | ⟨e2, rest⟩⟩
  · rfl
  · simp only
    cases hv : s.2.1.vertexAt e.pVertex with
    | error f => rfl
    | ok partner =>
      simp only
      cases hu : partner.isEdgeUnique pVertex (getTwinDir idx e.reverse) e.reverse with
      | error f => rfl
      | ok removeChild =>
        simp only
        split <;> rfl
  · rfl

/-- Dropping the recorded calls of the traced body gives the body. -/
theorem removeTransitivityVertexTraced_erase {M : Type} (dataMerger : DataMerger D M)
    (usableChild : Bool) (s : SweepState D M) (pVertex : Nat) (calls : List (Nat × Nat)) :
    (removeTransitivityVertexTraced dataMerger usableChild s pVertex calls).2 =
      removeTransitivityVertex dataMerger usableChild s pVertex := by
  unfold removeTransitivityVertexTraced removeTransitivityVertex
  rw [← removeTransitivityStepTraced_erase dataMerger usableChild pVertex s .SENSE calls]
  rcases removeTransitivityStepTraced dataMerger usableChild pVertex s .SENSE calls with
    ⟨calls1, f | s1⟩
  · rfl
  · exact removeTransitivityStepTraced_erase dataMerger usableChild pVertex s1 .ANTISENSE calls1

/-- Dropping the recorded calls of the traced loop gives the loop. -/
theorem removeTransitivityLoopTraced_erase {M : Type} (dataMerger : DataMerger D M)
    (usableChild : Bool) (s : SweepState D M) (l : List Nat) (calls : List (Nat × Nat)) :
    (removeTransitivityLoopTraced dataMerger usableChild s l calls).2 =
      removeTransitivityLoop dataMerger usableChild s l := by
  induction l generalizing s calls with
  | nil => rfl
  | cons p rest ih =>
    unfold removeTransitivityLoopTraced removeTransitivityLoop
    rw [← removeTransitivityVertexTraced_erase dataMerger usableChild s p calls]
    rcases removeTransitivityVertexTraced dataMerger usableChild s p calls with
      ⟨calls1, f | s1⟩
    · rfl
    · exact ih s1 calls1

/-- The step records only calls of `merge` with distinct parent and child. -/
theorem removeTransitivityStepTraced_distinct {M : Type} (dataMerger : DataMerger D M)
    (usableChild : Bool) (pVertex : Nat) (s : SweepState D M) (idx : extDirection)
    (calls : List (Nat × Nat)) (h : ∀ pc ∈ calls, pc.1 ≠ pc.2) :
    ∀ pc ∈ (removeTransitivityStepTraced dataMerger usableChild pVertex s idx calls).1,
      pc.1 ≠ pc.2 := by
  unfold removeTransitivityStepTraced
  rcases hedge : s.2.1.edgesOf pVertex idx with _ | ⟨e, _ | ⟨e2, rest⟩⟩
  · exact h
  · simp only
    cases hv : s.2.1.vertexAt e.pVertex with
    | error f => exact h
    | ok partner =>
      simp only
      cases hu : partner.isEdgeUnique pVertex (getTwinDir idx e.reverse) e.reverse with
      | error f => exact h
      | ok removeChild =>
        simp only
        split
        · exact h
        · rename_i hne
          intro pc hpc
          rcases List.mem_append.mp hpc with hpc | hpc
          · exact h pc hpc
          · rw [List.mem_singleton] at hpc
            subst hpc
            exact hne
  · exact h

/-- The body of the outer loop records only calls with distinct parent and child. -/
theorem removeTransitivityVertexTraced_distinct {M : Type} (dataMerger : DataMerger D M)
    (usableChild : Bool) (s : SweepState D M) (pVertex : Nat)
    (calls : List (Nat × Nat)) (h : ∀ pc ∈ calls, pc.1 ≠ pc.2) :
    ∀ pc ∈ (removeTransitivityVertexTraced dataMerger usableChild s pVertex calls).1,
      pc.1 ≠ pc.2 := by
  unfold removeTransitivityVertexTraced
  have h1 := removeTransitivityStepTraced_distinct dataMerger usableChild pVertex s .SENSE
    calls h
  generalize removeTransitivityStepTraced dataMerger usableChild pVertex s .SENSE calls = q
    at h1 ⊢
  rcases q with ⟨calls1, f | s1⟩
  · exact h1
  · exact removeTransitivityStepTraced_distinct dataMerger usableChild pVertex s1 .ANTISENSE
      calls1 h1

/-- The loop records only calls with distinct parent and child. -/
theorem removeTransitivityLoopTraced_distinct {M : Type} (dataMerger : DataMerger D M)
    (usableChild : Bool) (s : SweepState D M) (l : List Nat)
    (calls : List (Nat × Nat)) (h : ∀ pc ∈ calls, pc.1 ≠ pc.2) :
    ∀ pc ∈ (removeTransitivityLoopTraced dataMerger usableChild s l calls).1,
      pc.1 ≠ pc.2 := by
  induction l generalizing s calls with
  | nil => exact h
  | cons p rest ih =>
    unfold removeTransitivityLoopTraced
    have h1 := removeTransitivityVertexTraced_distinct dataMerger usableChild s p calls h
    generalize removeTransitivityVertexTraced dataMerger usableChild s p calls = q at h1 ⊢
    rcases q with ⟨calls1, f | s1⟩
    · exact h1
    · exact ih s1 calls1 h1

/-- A candidate whose single edge is a self-loop is skipped: in a graph that
satisfies reciprocity the step makes no call of `merge` and leaves the state
as it is. -/
theorem removeTransitivityStepTraced_self {M : Type} (dataMerger : DataMerger D M)
    (usableChild : Bool) (v : Nat) (s : SweepState D M) (d : extDirection) (r : Bool)
    (calls : List (Nat × Nat)) (hrec : Reciprocal s.2.1)
    (hedge : s.2.1.edgesOf v d = [⟨v, r⟩]) :
    removeTransitivityStepTraced dataMerger usableChild v s d calls = (calls, .ok s) := by
  have hmem : (⟨v, r⟩ : EdgeData) ∈ s.2.1.edgesOf v d := by rw [hedge]; exact List.mem_singleton_self _
  have hv : v < s.2.1.size := DirectedGraph.lt_size_of_mem hmem
  obtain ⟨vx, hvx, -, hedges⟩ := DirectedGraph.vertexAt_of_lt hv
  have hback : (⟨v, r⟩ : EdgeData) ∈ vx.m_edges (getTwinDir d r) := by
    rw [← hedges]; exact hrec.mem hmem
  obtain ⟨i, hi⟩ := findEdge_isSome.mpr hback
  unfold removeTransitivityStepTraced
  simp only [hedge, hvx, Vertex.isEdgeUnique, Vertex.getEdge, hi, if_true]

/-- On a graph all of whose edges are self-loops every step is skipped. -/
theorem removeTransitivityStepTraced_loops {M : Type} (dataMerger : DataMerger D M)
    (usableChild : Bool) (v : Nat) (s : SweepState D M) (d : extDirection)
    (calls : List (Nat × Nat)) (hrec : Reciprocal s.2.1) (hloops : OnlySelfLoops s.2.1) :
    removeTransitivityStepTraced dataMerger usableChild v s d calls = (calls, .ok s) := by
  cases hedge : s.2.1.edgesOf v d with
  | nil => unfold removeTransitivityStepTraced; simp only [hedge]
  | cons e rest =>
    cases rest with
    | nil =>
      have hmem : e ∈ s.2.1.edgesOf v d := by rw [hedge]; exact List.mem_singleton_self _
      have he : e.pVertex = v := hloops v (DirectedGraph.lt_size_of_mem hmem) d e hmem
      have hedge' : s.2.1.edgesOf v d = [⟨v, e.reverse⟩] := by
        rw [hedge]; cases e; simp only at he; rw [he]
      exact removeTransitivityStepTraced_self dataMerger usableChild v s d e.reverse calls hrec
        hedge'
    | cons e2 rest2 => unfold removeTransitivityStepTraced; simp only [hedge]

/-- On a graph all of whose edges are self-loops the loop makes no call of
`merge` and leaves the state as it is. -/
theorem removeTransitivityLoopTraced_loops {M : Type} (dataMerger : DataMerger D M)
    (usableChild : Bool) (s : SweepState D M) (l : List Nat)
    (calls : List (Nat × Nat)) (hrec : Reciprocal s.2.1) (hloops : OnlySelfLoops s.2.1) :
    removeTransitivityLoopTraced dataMerger usableChild s l calls = (calls, .ok s) := by
  induction l with
  | nil => rfl
  | cons p rest ih =>
    unfold removeTransitivityLoopTraced removeTransitivityVertexTraced
    rw [removeTransitivityStepTraced_loops dataMerger usableChild p s .SENSE calls hrec hloops]
    simp only
    rw [removeTransitivityStepTraced_loops dataMerger usableChild p s .ANTISENSE calls hrec
      hloops]
    exact ih

/-- C21: self-loops are skipped by transitivity removal. The sweep never calls
`merge` with parent = child, whatever the graph and however the run ends; in a
graph that satisfies reciprocity, a candidate `(v, d)` whose single edge targets
`v` itself causes no call of `merge`, hence no merger call, and leaves the
graph, the counter and the state of the merger unchanged; on a graph that
satisfies reciprocity and all of whose edges are self-loops the sweep completes,
makes no call of `merge`, returns 0 and leaves the graph unchanged. -/
theorem removeTransitivity_skips_self_loops {M : Type} (g : DirectedGraph D)
    (dataMerger : DataMerger D M) (usableChild : Bool) (m : M) :
    (g.removeTransitivityTraced dataMerger usableChild m).2 =
      g.removeTransitivity dataMerger usableChild m ∧
    (∀ pc ∈ (g.removeTransitivityTraced dataMerger usableChild m).1, pc.1 ≠ pc.2) ∧
    (∀ (s : SweepState D M) (v : Nat) (d : extDirection) (r : Bool) (calls : List (Nat × Nat)),
      Reciprocal s.2.1 → s.2.1.edgesOf v d = [⟨v, r⟩] →
      removeTransitivityStepTraced dataMerger usableChild v s d calls = (calls, .ok s) ∧
      removeTransitivityStep dataMerger usableChild v s d = .ok s) ∧
    (Reciprocal g → OnlySelfLoops g →
      g.removeTransitivityTraced dataMerger usableChild m = ([], .ok (0, g, m)) ∧
      g.removeTransitivity dataMerger usableChild m = .ok (0, g, m)) := by
  refine ⟨removeTransitivityLoopTraced_erase _ _ _ _ _,
    removeTransitivityLoopTraced_distinct _ _ _ _ _ (by simp), ?_, ?_⟩
  · intro s v d r calls hrec hedge
    have h := removeTransitivityStepTraced_self dataMerger usableChild v s d r calls hrec hedge
    refine ⟨h, ?_⟩
    rw [← removeTransitivityStepTraced_erase dataMerger usableChild v s d calls, h]
  · intro hrec hloops
    have h := removeTransitivityLoopTraced_loops dataMerger usableChild (0, g, m)
      (List.range g.size) [] hrec hloops
    refine ⟨h, ?_⟩
    unfold DirectedGraph.removeTransitivity
    rw [← removeTransitivityLoopTraced_erase dataMerger usableChild (0, g, m)
      (List.range g.size) [], h]

/-- The reciprocity invariant is needed: the single vertex with the one edge
`(0, false)` in direction `SENSE` and no edge back has only self-loops, and the
sweep stops in the assertion of `isEdgeUnique`. -/
theorem removeTransitivity_self_loop_unpaired :
    OnlySelfLoops (⟨[⟨0, ⟨5⟩, [⟨0, false⟩], []⟩]⟩ : DirectedGraph SimpleContigData) ∧
    ¬ Reciprocal (⟨[⟨0, ⟨5⟩, [⟨0, false⟩], []⟩]⟩ : DirectedGraph SimpleContigData) ∧
    (⟨[⟨0, ⟨5⟩, [⟨0, false⟩], []⟩]⟩ : DirectedGraph SimpleContigData).removeTransitivity
      lengthMerger true [] = .error .assertion :=
  ⟨by decide, by decide, rfl⟩

/-- C21, on three vertices with self-loops only, and on the chain
`0 -> 1 -> 2`, where the sweep calls `merge` once, with parent 0 and child 1,
before it stops. -/
theorem removeTransitivity_skips_self_loops_witness :
    Reciprocal loops3 ∧ OnlySelfLoops loops3 ∧
    loops3.removeTransitivity lengthMerger true [] = .ok (0, loops3, []) ∧
    loops3.removeTransitivityTraced lengthMerger true [] = ([], .ok (0, loops3, [])) ∧
    (chain3.removeTransitivityTraced lengthMerger true []).1 = [(0, 1)] ∧
    (∀ pc ∈ (chain3.removeTransitivityTraced lengthMerger true []).1, pc.1 ≠ pc.2) ∧
    removeTransitivityStep lengthMerger true 1 (0, loops3, []) .SENSE = .ok (0, loops3, []) :=
  have hrec : Reciprocal loops3 := by decide
  have hloops : OnlySelfLoops loops3 := by decide
  ⟨hrec, hloops,
    ((removeTransitivity_skips_self_loops loops3 lengthMerger true []).2.2.2 hrec hloops).2,
    ((removeTransitivity_skips_self_loops loops3 lengthMerger true []).2.2.2 hrec hloops).1,
    rfl,
    (removeTransitivity_skips_self_loops chain3 lengthMerger true []).2.1,
    ((removeTransitivity_skips_self_loops loops3 lengthMerger true []).2.2.1 (0, loops3, []) 1
      .SENSE false [] hrec rfl).2⟩

end Abyss
